import Mathlib

/-! Daily progress tracker: the text-extraction core of `script.js`.

A shallow embedding of `ProgressTracker.parseTaskEntry`, `parseTextToTasks`
and the duplicate-removal loop of `extractFromExcel`, together with the part
of the ECMAScript runtime they rest on (`String.prototype.trim`,
`toLowerCase`, `split`, and backtracking regular expressions).

A JavaScript string is modelled as the list of its code points.  `length`
is counted in UTF-16 code units (`jsLength`).  The case conversions of the
runtime are tabulated for Basic Latin and Latin-1 only (`toLowerCase`,
`toUpperCase`); the functions that call them also come with the conversion as
a parameter (`parseTaskEntryWith`, `uniqueTasksWith`, `UpperTable`), and what
is proved of all texts is proved of those.

The progress figures and the report follow: doubles are modelled exactly, a
`Date` by its time value in milliseconds, and the local time zone of the host
is a parameter (`TimeZone`).
-/

namespace ProgressTracker

/-- A JavaScript string, as the list of its code points. -/
abbrev JSString := List Char

/-! ## Characters -/

/-- The class `\d`: the ten ASCII digits. -/
def isDigit (c : Char) : Bool :=
  decide (48 ≤ c.toNat) && decide (c.toNat ≤ 57)

/-- ECMAScript LineTerminator: LF, CR, LS, PS.  The regular expression `.`
matches every character but these. -/
def isLineTerminator (c : Char) : Bool :=
  c.toNat == 0x0A || c.toNat == 0x0D || c.toNat == 0x2028 || c.toNat == 0x2029

/-- ECMAScript WhiteSpace together with LineTerminator: the characters that
`\s` matches and that `trim` strips. -/
def isWhiteSpace (c : Char) : Bool :=
  c.toNat == 0x09 || c.toNat == 0x0A || c.toNat == 0x0B || c.toNat == 0x0C ||
  c.toNat == 0x0D || c.toNat == 0x20 || c.toNat == 0xA0 || c.toNat == 0x1680 ||
  (decide (0x2000 ≤ c.toNat) && decide (c.toNat ≤ 0x200A)) ||
  c.toNat == 0x2028 || c.toNat == 0x2029 || c.toNat == 0x202F ||
  c.toNat == 0x205F || c.toNat == 0x3000 || c.toNat == 0xFEFF

/-- Upper-case an ASCII lower-case letter, leave every other character. -/
def asciiUpper (c : Char) : Char :=
  if 97 ≤ c.toNat ∧ c.toNat ≤ 122 then Char.ofNat (c.toNat - 32) else c

/-- The regular-expression `Canonicalize` of a pattern with the `i` flag (and
without `u`), as a code point.  ECMAScript upper-cases the character but never
maps a non-ASCII character to an ASCII one; every character that the patterns
of `script.js` compare under the `i` flag is ASCII, so on non-ASCII input the
identity yields the same comparisons. -/
def canonicalize (c : Char) : Nat :=
  if 97 ≤ c.toNat ∧ c.toNat ≤ 122 then c.toNat - 32 else c.toNat

/-- One character of `String.prototype.toLowerCase`, tabulated for Basic
Latin, Latin-1 Supplement, and the Kelvin and Angstrom signs only.  The table
is partial: it leaves every other code point unchanged, where the runtime
folds every cased letter (Cyrillic, Greek, ...).  It is exact on ASCII text.
Whatever is proved of all texts takes the runtime's function as a parameter
(`parseTaskEntryWith`, `uniqueTasksWith`) instead of this table. -/
def lowerChar (c : Char) : Char :=
  if 65 ≤ c.toNat ∧ c.toNat ≤ 90 then Char.ofNat (c.toNat + 32)
  else if 0xC0 ≤ c.toNat ∧ c.toNat ≤ 0xDE ∧ c.toNat ≠ 0xD7 then Char.ofNat (c.toNat + 32)
  else if c.toNat = 0x212A then 'k'
  else if c.toNat = 0x212B then Char.ofNat 0xE5
  else c

/-- `String.prototype.toLowerCase` over the partial table `lowerChar`: exact
on text of Basic Latin and Latin-1, the identity on other code points. -/
def toLowerCase (s : JSString) : JSString := s.map lowerChar

/-- One character of `String.prototype.toUpperCase`, tabulated for Basic
Latin, Latin-1 Supplement (sharp s becomes `SS`, the micro sign becomes Greek
capital mu, y-diaeresis becomes U+0178), dotless i (U+0131, upper case `I`)
and long s (U+017F, upper case `S`) only.  The table is partial: it leaves
every other code point unchanged, where the runtime changes every cased
letter.  Whatever is proved of all texts takes the runtime's table as a
parameter (`UpperTable`) instead of this one. -/
def upperChar (c : Char) : JSString :=
  if 97 ≤ c.toNat ∧ c.toNat ≤ 122 then [Char.ofNat (c.toNat - 32)]
  else if c.toNat = 0xDF then ['S', 'S']
  else if c.toNat = 0xB5 then [Char.ofNat 0x39C]
  else if c.toNat = 0xFF then [Char.ofNat 0x178]
  else if 0xE0 ≤ c.toNat ∧ c.toNat ≤ 0xFE ∧ c.toNat ≠ 0xF7 then [Char.ofNat (c.toNat - 32)]
  else if c.toNat = 0x131 then ['I']
  else if c.toNat = 0x17F then ['S']
  else [c]

/-- `String.prototype.toUpperCase` over the partial table `upperChar`: the
conversion works code point by code point. -/
def toUpperCase (s : JSString) : JSString := s.flatMap upperChar

/-! ## Strings -/

/-- The `length` of a JavaScript string: the number of UTF-16 code units. -/
def jsLength : JSString → Nat
  | [] => 0
  | c :: cs => (if c.toNat < 0x10000 then 1 else 2) + jsLength cs

/-- `String.prototype.trim`: strip white space and line terminators from both
ends. -/
def trim (s : JSString) : JSString :=
  ((s.dropWhile isWhiteSpace).reverse.dropWhile isWhiteSpace).reverse

/-- The scanning loop behind `splitOn`: `cur` is the piece being read,
reversed. -/
def splitOnAux (sep : Char → Bool) : JSString → JSString → List JSString
  | [], cur => [cur.reverse]
  | c :: cs, cur =>
    if sep c then cur.reverse :: splitOnAux sep cs [] else splitOnAux sep cs (c :: cur)

/-- `text.split(' ')`: split at every single space; empty pieces are kept. -/
def splitSpace (s : JSString) : List JSString :=
  splitOnAux (fun c => c.toNat == 0x20) s []

/-- The scanning loop behind `splitWhiteSpace`.  `inSep` is true while inside
a run of white space already split at. -/
def splitWhiteSpaceAux : Bool → JSString → JSString → List JSString
  | _, [], cur => [cur.reverse]
  | inSep, c :: cs, cur =>
    if isWhiteSpace c then
      if inSep then splitWhiteSpaceAux true cs []
      else cur.reverse :: splitWhiteSpaceAux true cs []
    else splitWhiteSpaceAux false cs (c :: cur)

/-- `text.split(/\s+/)`: split at every maximal run of white space.  A run at
the very start or end leaves an empty first or last piece, and the empty
string gives one empty piece. -/
def splitWhiteSpace (s : JSString) : List JSString :=
  splitWhiteSpaceAux false s []

/-- The elements of `new Set(xs)` in insertion order: each value once, at its
first occurrence. -/
def setOf : List JSString → List JSString
  | [] => []
  | x :: xs => x :: (setOf xs).filter (fun y => y != x)

/-! ## Regular expressions -/

/-- A member of a character class `[...]`. -/
inductive ClassItem where
  | chr (c : Char)
  | range (lo hi : Char)
  | digit
  | space
  deriving Repr

/-- A pattern element matching one character. -/
inductive Atom where
  /-- literal pattern character -/
  | lit (c : Char)
  /-- `\d` -/
  | digit
  /-- `\s` -/
  | space
  /-- `.` -/
  | dot
  /-- `[...]` -/
  | oneOf (items : List ClassItem)
  deriving Repr

/-- Whether character `c` matches the class member, under the `i` flag when
`ic` is set.  No class of `script.js` with a range is used under `i`. -/
def ClassItem.test (ic : Bool) (c : Char) : ClassItem → Bool
  | .chr p => if ic then canonicalize c == canonicalize p else c.toNat == p.toNat
  | .range lo hi => decide (lo.toNat ≤ c.toNat) && decide (c.toNat ≤ hi.toNat)
  | .digit => isDigit c
  | .space => isWhiteSpace c

/-- Whether character `c` matches the atom, under the `i` flag when `ic` is
set. -/
def Atom.test (ic : Bool) (c : Char) : Atom → Bool
  | .lit p => if ic then canonicalize c == canonicalize p else c.toNat == p.toNat
  | .digit => isDigit c
  | .space => isWhiteSpace c
  | .dot => !isLineTerminator c
  | .oneOf items => items.any (fun it => it.test ic c)

/-- Regular expressions, in the shape the patterns of `script.js` need.
Bounded repetition is written out: `r?` is `alt r empty`, `r+` is
`seq r (star true r)`, `r{1,2}` is `seq r (alt r empty)`. -/
inductive Regex where
  | empty
  | atom (a : Atom)
  /-- `^` (no `m` flag: start of input) -/
  | bol
  /-- `$` (no `m` flag: end of input) -/
  | eol
  | seq (a b : Regex)
  | alt (a b : Regex)
  /-- `r*` when `greedy`, `r*?` otherwise -/
  | star (greedy : Bool) (r : Regex)
  /-- capturing group number `i` -/
  | group (i : Nat) (r : Regex)
  deriving Repr

/-- The state of the backtracking matcher: the index reached, the input from
there on, and the captures recorded so far (latest first). -/
structure MState where
  pos : Nat
  rest : JSString
  caps : List (Nat × JSString)
  deriving Repr, DecidableEq

/-- A matcher continuation. -/
abbrev Cont := MState → Option MState

/-- The repetition loop of `r*` and `r*?` (RepeatMatcher): an iteration that
consumes nothing fails.  The counter starts at the length of the remaining
input and every iteration consumes a character, so the loop is never cut
short. -/
def starLoop (greedy : Bool) (body : MState → Cont → Option MState) :
    Nat → MState → Cont → Option MState
  | 0, st, k => k st
  | n + 1, st, k =>
    if greedy then
      match body st (fun st' => if st.pos < st'.pos then starLoop greedy body n st' k else none) with
      | some r => some r
      | none => k st
    else
      match k st with
      | some r => some r
      | none => body st (fun st' => if st.pos < st'.pos then starLoop greedy body n st' k else none)

/-- The backtracking matcher of ECMAScript, in continuation-passing style:
`r.run ic st k` matches `r` at `st` and hands every end state to `k`, in the
priority order of the language (left alternative first, greedy repetition
longest first, lazy repetition shortest first); the first state that `k`
accepts wins. -/
def Regex.run (ic : Bool) : Regex → MState → Cont → Option MState
  | .empty, st, k => k st
  | .atom a, st, k =>
    match st.rest with
    | [] => none
    | c :: cs => if a.test ic c then k ⟨st.pos + 1, cs, st.caps⟩ else none
  | .bol, st, k => if st.pos = 0 then k st else none
  | .eol, st, k =>
    match st.rest with
    | [] => k st
    | _ :: _ => none
  | .seq a b, st, k => a.run ic st (fun st' => b.run ic st' k)
  | .alt a b, st, k =>
    match a.run ic st k with
    | some r => some r
    | none => b.run ic st k
  | .star g r, st, k => starLoop g (r.run ic) st.rest.length st k
  | .group i r, st, k =>
    r.run ic st (fun st' => k ⟨st'.pos, st'.rest, (i, st.rest.take (st'.pos - st.pos)) :: st'.caps⟩)

/-- A regular-expression literal: its body and its `i` flag. -/
structure Pattern where
  re : Regex
  ignoreCase : Bool
  deriving Repr

/-- Try the pattern at index `pos` (where `rest` begins), then at every later
index: the leftmost match wins. -/
def searchFrom (p : Pattern) : Nat → JSString → Option MState
  | pos, [] => p.re.run p.ignoreCase ⟨pos, [], []⟩ some
  | pos, c :: cs =>
    match p.re.run p.ignoreCase ⟨pos, c :: cs, []⟩ some with
    | some r => some r
    | none => searchFrom p (pos + 1) cs

/-- `text.match(pattern)` for a pattern without the `g` flag: the end state of
the leftmost match, or `none`. -/
def Pattern.exec (p : Pattern) (text : JSString) : Option MState :=
  searchFrom p 0 text

/-- `pattern.test(text)`. -/
def Pattern.test (p : Pattern) (text : JSString) : Bool :=
  (p.exec text).isSome

/-- The text of capture group `i` in a match result.  Every group read by
`parseTaskEntry` takes part in every match of its pattern. -/
def MState.capture (st : MState) (i : Nat) : JSString :=
  match st.caps.find? (fun e => e.1 == i) with
  | some e => e.2
  | none => []

/-- The loop of `text.match(pattern)` with the `g` flag, counting the matches:
`skip` characters of `rest` still belong to the previous match; otherwise the
pattern is tried at `pos`, and after a match ending at `e` the next attempt is
at `e` (at `pos + 1` when the match is empty). -/
def countMatchesFrom (p : Pattern) : Nat → Nat → JSString → Nat
  | _, pos, [] => if (p.re.run p.ignoreCase ⟨pos, [], []⟩ some).isSome then 1 else 0
  | skip + 1, pos, _ :: cs => countMatchesFrom p skip (pos + 1) cs
  | 0, pos, c :: cs =>
    match p.re.run p.ignoreCase ⟨pos, c :: cs, []⟩ some with
    | some r => 1 + countMatchesFrom p (r.pos - pos - 1) (pos + 1) cs
    | none => countMatchesFrom p 0 (pos + 1) cs

/-- `(text.match(pattern) || []).length` for a pattern with the `g` flag. -/
def Pattern.countMatches (p : Pattern) (text : JSString) : Nat :=
  countMatchesFrom p 0 0 text

/-! ## The patterns of `parseTaskEntry` -/

/-- The pattern matching the characters of `s` one after another. -/
def lits : List Char → Regex
  | [] => .empty
  | [c] => .atom (.lit c)
  | c :: cs => .seq (.atom (.lit c)) (lits cs)

/-- The literal text `s` as a pattern. -/
def str (s : String) : Regex := lits s.toList

/-- Concatenation of patterns. -/
def cat : List Regex → Regex
  | [] => .empty
  | [r] => r
  | r :: rs => .seq r (cat rs)

/-- Alternation `r1|r2|...`, leftmost first. -/
def anyOf : List Regex → Regex
  | [] => .empty
  | [r] => r
  | r :: rs => .alt r (anyOf rs)

/-- `r?` (greedy). -/
def opt (r : Regex) : Regex := .alt r .empty

/-- `r+` (greedy). -/
def plus (r : Regex) : Regex := .seq r (.star true r)

/-- `r+?` (lazy). -/
def plusLazy (r : Regex) : Regex := .seq r (.star false r)

/-- `r{n,}` (greedy). -/
def atLeast : Nat → Regex → Regex
  | 0, r => .star true r
  | n + 1, r => .seq r (atLeast n r)

/-- `\d` -/
def d : Regex := .atom .digit

/-- `\s` -/
def ws : Regex := .atom .space

/-- `\s+` -/
def wsPlus : Regex := plus ws

/-- `\s*` -/
def wsStar : Regex := .star true ws

/-- A literal pattern character. -/
def ch (c : Char) : Regex := .atom (.lit c)

/-- `monday|tuesday|wednesday|thursday|friday|saturday|sunday` -/
def days : Regex :=
  anyOf [str "monday", str "tuesday", str "wednesday", str "thursday", str "friday",
    str "saturday", str "sunday"]

/-- `tuesday|wednesday|thursday|friday|saturday|sunday` -/
def daysAfterMonday : Regex :=
  anyOf [str "tuesday", str "wednesday", str "thursday", str "friday", str "saturday",
    str "sunday"]

/-- `mon|tue|wed|thu|fri|sat|sun` -/
def abbrs : Regex :=
  anyOf [str "mon", str "tue", str "wed", str "thu", str "fri", str "sat", str "sun"]

/-- `tue|wed|thu|fri|sat|sun` -/
def abbrsAfterMon : Regex :=
  anyOf [str "tue", str "wed", str "thu", str "fri", str "sat", str "sun"]

/-- The array `unwantedPatterns` of `parseTaskEntry`, in source order. -/
def unwantedPatterns : List Pattern := [
  -- /weekly\s+schedule/i
  ⟨cat [str "weekly", wsPlus, str "schedule"], true⟩,
  -- /months?\s+plan/i
  ⟨cat [str "month", opt (ch 's'), wsPlus, str "plan"], true⟩,
  -- /\d{1,2}\/\d{1,2}\/\d{4}/
  ⟨cat [d, opt d, ch '/', d, opt d, ch '/', d, d, d, d], false⟩,
  -- /^(monday|tuesday|wednesday|thursday|friday|saturday|sunday)$/i
  ⟨cat [.bol, .group 1 days, .eol], true⟩,
  -- /^(mon|tue|wed|thu|fri|sat|sun)$/i
  ⟨cat [.bol, .group 1 abbrs, .eol], true⟩,
  -- /^time$/i
  ⟨cat [.bol, str "time", .eol], true⟩,
  -- /^tasks?$/i
  ⟨cat [.bol, str "task", opt (ch 's'), .eol], true⟩,
  -- /^today'?s?\s+tasks?/i
  ⟨cat [.bol, str "today", opt (ch (Char.ofNat 39)), opt (ch 's'), wsPlus, str "task",
    opt (ch 's')], true⟩,
  -- /^save\s+progress$/i
  ⟨cat [.bol, str "save", wsPlus, str "progress", .eol], true⟩,
  -- /^clear\s+tasks$/i
  ⟨cat [.bol, str "clear", wsPlus, str "tasks", .eol], true⟩,
  -- /^pending$/i
  ⟨cat [.bol, str "pending", .eol], true⟩,
  -- /^\d{4}$/
  ⟨cat [.bol, d, d, d, d, .eol], false⟩,
  -- /^[\d\s\-\/]+$/
  ⟨cat [.bol, plus (.atom (.oneOf [.digit, .space, .chr '-', .chr '/'])), .eol], false⟩,
  -- /^time\s+(monday|tuesday|wednesday|thursday|friday|saturday|sunday)/i
  ⟨cat [.bol, str "time", wsPlus, .group 1 days], true⟩,
  -- /^time\s+(mon|tue|wed|thu|fri|sat|sun)/i
  ⟨cat [.bol, str "time", wsPlus, .group 1 abbrs], true⟩,
  -- /(monday|...|sunday)\s+(tuesday|wednesday|thursday|friday|saturday|sunday)/i
  ⟨cat [.group 1 days, wsPlus, .group 2 daysAfterMonday], true⟩,
  -- /(mon|tue|wed|thu|fri|sat|sun)\s+(tue|wed|thu|fri|sat|sun)/i
  ⟨cat [.group 1 abbrs, wsPlus, .group 2 abbrsAfterMon], true⟩,
  -- /^(monday|...|sunday)\s+(monday|...|sunday)\s+(monday|...|sunday)/i
  ⟨cat [.bol, .group 1 days, wsPlus, .group 2 days, wsPlus, .group 3 days], true⟩,
  -- /(?:monday|...|sunday)(?:\s+(?:monday|...|sunday)){2,}/i
  ⟨cat [days, atLeast 2 (.seq wsPlus days)], true⟩,
  -- /(?:mon|tue|wed|thu|fri|sat|sun)(?:\s+(?:mon|tue|wed|thu|fri|sat|sun)){2,}/i
  ⟨cat [abbrs, atLeast 2 (.seq wsPlus abbrs)], true⟩,
  -- /^time\s+(?:(?:monday|...|sunday)\s*){3,}/i
  ⟨cat [.bol, str "time", wsPlus, atLeast 3 (.seq days wsStar)], true⟩,
  -- /^time\s+(?:(?:mon|tue|wed|thu|fri|sat|sun)\s*){3,}/i
  ⟨cat [.bol, str "time", wsPlus, atLeast 3 (.seq abbrs wsStar)], true⟩,
  -- /^(?:monday|...|sunday)(?:\s+(?:monday|...|sunday))*$/i
  ⟨cat [.bol, days, .star true (.seq wsPlus days), .eol], true⟩,
  -- /^(?:mon|tue|wed|thu|fri|sat|sun)(?:\s+(?:mon|tue|wed|thu|fri|sat|sun))*$/i
  ⟨cat [.bol, abbrs, .star true (.seq wsPlus abbrs), .eol], true⟩,
  -- /run\s+101\s+run\s+101/i
  ⟨cat [str "run", wsPlus, str "101", wsPlus, str "run", wsPlus, str "101"], true⟩,
  -- /gym\s+101\s+gym\s+101/i
  ⟨cat [str "gym", wsPlus, str "101", wsPlus, str "gym", wsPlus, str "101"], true⟩,
  -- /fs\s+201\s+fs\s+201/i
  ⟨cat [str "fs", wsPlus, str "201", wsPlus, str "fs", wsPlus, str "201"], true⟩,
  -- /fullstack\s+stuff\s+idk\s+fullstack\s+stuff\s+idk/i
  ⟨cat [str "fullstack", wsPlus, str "stuff", wsPlus, str "idk", wsPlus, str "fullstack",
    wsPlus, str "stuff", wsPlus, str "idk"], true⟩,
  -- /^empty$/i
  ⟨cat [.bol, str "empty", .eol], true⟩,
  -- /^n\/a$/i
  ⟨cat [.bol, str "n/a", .eol], true⟩,
  -- /^-+$/
  ⟨cat [.bol, plus (ch '-'), .eol], false⟩,
  -- /^\.+$/
  ⟨cat [.bol, plus (ch '.'), .eol], false⟩]

/-- The pattern `/monday|tuesday|wednesday|thursday|friday|saturday|sunday/gi`
whose matches `dayCount` counts. -/
def dayPattern : Pattern := ⟨days, true⟩

/-- `\d{1,2}:\d{2}` -/
def timeToken : Regex := cat [d, opt d, ch ':', d, d]

/-- The leading part `(\d{1,2}:\d{2})\s*[-–]\s*(\d{1,2}:\d{2})` of
`timeRangePattern1`: a time, a hyphen or en dash, a time. -/
def timeRangeHead : Regex :=
  cat [.group 1 timeToken, wsStar, .atom (.oneOf [.chr '-', .chr '–']), wsStar,
    .group 2 timeToken]

/-- The trailing part `\s*[\(\[]?(.*?)[\)\]]?$` of `timeRangePattern1`. -/
def timeRangeTail : Regex :=
  cat [wsStar, opt (.atom (.oneOf [.chr '(', .chr '['])), .group 3 (.star false (.atom .dot)),
    opt (.atom (.oneOf [.chr ')', .chr ']'])), .eol]

/-- `/(\d{1,2}:\d{2})\s*[-–]\s*(\d{1,2}:\d{2})\s*[\(\[]?(.*?)[\)\]]?$/` -/
def timeRangePattern1 : Pattern := ⟨.seq timeRangeHead timeRangeTail, false⟩

/-- `/(\d{1,2}:\d{2})\s+(.+)/` -/
def singleTimePattern : Pattern :=
  ⟨cat [.group 1 timeToken, wsPlus, .group 2 (plus (.atom .dot))], false⟩

/-- `/^(am|pm)$/i` -/
def amPmPattern : Pattern := ⟨cat [.bol, .group 1 (anyOf [str "am", str "pm"]), .eol], true⟩

/-- `/^(.+?)[\(\[](.+?)[\)\]]?$/` -/
def taskOnlyPattern : Pattern :=
  ⟨cat [.bol, .group 1 (plusLazy (.atom .dot)), .atom (.oneOf [.chr '(', .chr '[']),
    .group 2 (plusLazy (.atom .dot)), opt (.atom (.oneOf [.chr ')', .chr ']'])), .eol], false⟩

/-- `/[a-zA-Z]/` -/
def letterPattern : Pattern := ⟨.atom (.oneOf [.range 'a' 'z', .range 'A' 'Z']), false⟩

/-- `/^\d+[\:\.\-\s]*\d*$/` -/
def bareNumberPattern : Pattern :=
  ⟨cat [.bol, plus d, .star true (.atom (.oneOf [.chr ':', .chr '.', .chr '-', .space])),
    .star true d, .eol], false⟩

/-! ## `parseTaskEntry` -/

/-- The object returned by `parseTaskEntry`; `timeRange` is `none` where the
source stores `null`. -/
structure TaskEntry where
  fullText : JSString
  timeRange : Option JSString
  taskName : JSString
  deriving Repr, DecidableEq

/-- The loop over `unwantedPatterns`: does the text match any of them? -/
def matchesUnwanted (text : JSString) : Bool :=
  unwantedPatterns.any (fun pattern => pattern.test text)

/-- `dayCount`: the number of matches of the weekday pattern in the text. -/
def dayCount (text : JSString) : Nat := dayPattern.countMatches text

/-- `words`: `text.toLowerCase().split(/\s+/)`, where `lower` is the
`toLowerCase` of the runtime. -/
def wordsWith (lower : JSString → JSString) (text : JSString) : List JSString :=
  splitWhiteSpace (lower text)

/-- `uniqueWords`: the distinct words. -/
def uniqueWordsWith (lower : JSString → JSString) (text : JSString) : List JSString :=
  setOf (wordsWith lower text)

/-- The repetition check `words.length > 4 && uniqueWords.length < words.length / 2`.
The division is exact in JavaScript, so the comparison is `2 * unique < words`. -/
def mostlyRepeatedWith (lower : JSString → JSString) (text : JSString) : Bool :=
  decide ((wordsWith lower text).length > 4) &&
    decide (2 * (uniqueWordsWith lower text).length < (wordsWith lower text).length)

/-- The checks of `parseTaskEntry` that make it return `null` before any task
pattern is tried (on the trimmed text): the pattern bank, the length check,
the weekday count and the repetition check. -/
def isNoiseWith (lower : JSString → JSString) (text : JSString) : Bool :=
  matchesUnwanted text || decide (jsLength text < 4) || decide (dayCount text ≥ 3) ||
    mostlyRepeatedWith lower text

/-- `words` with the tabulated `toLowerCase`. -/
def words (text : JSString) : List JSString := wordsWith toLowerCase text

/-- `uniqueWords` with the tabulated `toLowerCase`. -/
def uniqueWords (text : JSString) : List JSString := uniqueWordsWith toLowerCase text

/-- The repetition check with the tabulated `toLowerCase`. -/
def mostlyRepeated (text : JSString) : Bool := mostlyRepeatedWith toLowerCase text

/-- The noise checks with the tabulated `toLowerCase`. -/
def isNoise (text : JSString) : Bool := isNoiseWith toLowerCase text

/-- Pattern 1 of `parseTaskEntry`: a time range followed by the task. -/
def timeRangeEntry (text : JSString) : Option TaskEntry :=
  match timeRangePattern1.exec text with
  | none => none
  | some match1 =>
    let startTime := match1.capture 1
    let endTime := match1.capture 2
    let taskName := trim (match1.capture 3)
    if jsLength taskName > 0 then
      some { fullText := startTime ++ " - ".toList ++ endTime ++ " (".toList ++ taskName ++ ")".toList
             timeRange := some (startTime ++ " - ".toList ++ endTime)
             taskName := taskName }
    else none

/-- Pattern 2 of `parseTaskEntry`: a single time followed by the task. -/
def singleTimeEntry (text : JSString) : Option TaskEntry :=
  match singleTimePattern.exec text with
  | none => none
  | some match2 =>
    let time := match2.capture 1
    let taskName := trim (match2.capture 2)
    if jsLength taskName > 2 ∧ amPmPattern.test taskName = false then
      some { fullText := time ++ " (".toList ++ taskName ++ ")".toList
             timeRange := some time
             taskName := taskName }
    else none

/-- Pattern 3 of `parseTaskEntry`: text with parentheses but no time. -/
def taskOnlyEntry (text : JSString) : Option TaskEntry :=
  match taskOnlyPattern.exec text with
  | none => none
  | some match3 =>
    let taskName := trim (match3.capture 2)
    if jsLength taskName > 2 then
      some { fullText := text, timeRange := none, taskName := taskName }
    else none

/-- Pattern 4 of `parseTaskEntry`: the fallback for plain meaningful text. -/
def fallbackEntry (text : JSString) : Option TaskEntry :=
  if jsLength text > 3 ∧ letterPattern.test text = true ∧ bareNumberPattern.test text = false then
    if (splitSpace text).any (fun word => decide (jsLength word > 2)) then
      some { fullText := text, timeRange := none, taskName := text }
    else none
  else none

/-- `parseTaskEntry(text)`: trim, reject noise, then try the four task
patterns in order; `none` is the source's `null`.  `lower` is the
`toLowerCase` of the runtime, which only the repetition check calls. -/
def parseTaskEntryWith (lower : JSString → JSString) (text : JSString) : Option TaskEntry :=
  let text := trim text
  if isNoiseWith lower text then none
  else
    match timeRangeEntry text with
    | some entry => some entry
    | none =>
      match singleTimeEntry text with
      | some entry => some entry
      | none =>
        match taskOnlyEntry text with
        | some entry => some entry
        | none => fallbackEntry text

/-- `parseTaskEntry` with the tabulated `toLowerCase`. -/
def parseTaskEntry (text : JSString) : Option TaskEntry := parseTaskEntryWith toLowerCase text

/-- `parseTextToTasks(text)`: split at line feeds, drop blank lines, trim each
line, parse those longer than 3.  The final `filter(task => task !== null)`
keeps everything, since only non-null entries were pushed. -/
def parseTextToTasks (text : JSString) : List TaskEntry :=
  let lines := (splitOnAux (fun c => c.toNat == 0x0A) text []).filter
    (fun line => decide (jsLength (trim line) > 0))
  lines.filterMap (fun line =>
    let line := trim line
    if jsLength line > 3 then parseTaskEntry line else none)

/-- The loop of `extractFromExcel` that removes duplicates: `seenTasks` holds
the lower-cased task names met so far, `uniqueTasks` the entries kept.
`lower` is the `toLowerCase` of the runtime. -/
def uniqueTasksLoop (lower : JSString → JSString) :
    List TaskEntry → List JSString → List TaskEntry → List TaskEntry
  | [], _, uniqueTasks => uniqueTasks
  | task :: tasks, seenTasks, uniqueTasks =>
    let key := lower task.taskName
    if seenTasks.contains key then uniqueTasksLoop lower tasks seenTasks uniqueTasks
    else uniqueTasksLoop lower tasks (seenTasks ++ [key]) (uniqueTasks ++ [task])

/-- `uniqueTasks` as `extractFromExcel` computes it from `tasks`, with `lower`
the `toLowerCase` of the runtime. -/
def uniqueTasksWith (lower : JSString → JSString) (tasks : List TaskEntry) : List TaskEntry :=
  uniqueTasksLoop lower tasks [] []

/-- `uniqueTasks` with the tabulated `toLowerCase`. -/
def uniqueTasks (tasks : List TaskEntry) : List TaskEntry :=
  uniqueTasksWith toLowerCase tasks

/-! ## Vocabulary of the specification -/

/-- The key the duplicate removal compares: the lower-cased task name. -/
def dedupeKey (lower : JSString → JSString) (task : TaskEntry) : JSString :=
  lower task.taskName

/-- Keep-first selection in the words of the specification: an entry stays
exactly when no entry before it (`earlier`, whether kept or not) has the same
lower-cased task name. -/
def keepFirstFrom (lower : JSString → JSString) (earlier : List TaskEntry) :
    List TaskEntry → List TaskEntry
  | [] => []
  | task :: tasks =>
    if earlier.all (fun e => dedupeKey lower e != dedupeKey lower task) then
      task :: keepFirstFrom lower (earlier ++ [task]) tasks
    else keepFirstFrom lower (earlier ++ [task]) tasks

/-- A string with no white space at either end. -/
def isTrimmed (s : JSString) : Prop :=
  (∀ c, s.head? = some c → isWhiteSpace c = false) ∧
  (∀ c, s.getLast? = some c → isWhiteSpace c = false)

/-- A time token: one or two digits, a colon, two digits. -/
def isTimeToken : JSString → Bool
  | [h, c, m1, m2] => isDigit h && c.toNat == 58 && isDigit m1 && isDigit m2
  | [h1, h2, c, m1, m2] => isDigit h1 && isDigit h2 && c.toNat == 58 && isDigit m1 && isDigit m2
  | _ => false

/-- The seven weekday names in full, lower case. -/
def dayNames : List JSString :=
  ["monday".toList, "tuesday".toList, "wednesday".toList, "thursday".toList, "friday".toList,
    "saturday".toList, "sunday".toList]

/-- The seven abbreviated weekday names, lower case. -/
def dayAbbreviations : List JSString :=
  ["mon".toList, "tue".toList, "wed".toList, "thu".toList, "fri".toList, "sat".toList,
    "sun".toList]

/-- Does the text start with the characters `l`, each compared as a literal
pattern character (under the `i` flag when `ic` is set)? -/
def litsMatch (ic : Bool) : List Char → JSString → Bool
  | [], _ => true
  | _ :: _, [] => false
  | c :: cs, x :: xs => Atom.test ic x (.lit c) && litsMatch ic cs xs

/-- A word ends here: the text is over or goes on with white space. -/
def atWordEnd : JSString → Bool
  | [] => true
  | c :: _ => isWhiteSpace c

/-- Does the text start with a weekday name in full, in any letter case,
that ends a word? -/
def startsDayWord (s : JSString) : Bool :=
  dayNames.any (fun name => litsMatch true name s && atWordEnd (s.drop name.length))

/-- The number of words of the text that are a weekday name in full, in any
letter case; `atStart` tells whether a word may start at the head of the
text. -/
def dayWordCount : Bool → JSString → Nat
  | _, [] => 0
  | atStart, c :: cs =>
    (if atStart && startsDayWord (c :: cs) then 1 else 0) + dayWordCount (isWhiteSpace c) cs

/-- An ASCII letter. -/
def isAsciiLetter (c : Char) : Bool :=
  (decide (65 ≤ c.toNat) && decide (c.toNat ≤ 90)) ||
    (decide (97 ≤ c.toNat) && decide (c.toNat ≤ 122))

/-- A class member that cannot tell an ASCII letter from its upper case: any
character under the `i` flag, a non-letter without it, `\d` and `\s`. -/
def ClassItem.caseBlind (ic : Bool) : ClassItem → Bool
  | .chr p => ic || !isAsciiLetter p
  | .range _ _ => false
  | .digit => true
  | .space => true

/-- A one-character pattern that cannot tell an ASCII letter from its upper
case. -/
def Atom.caseBlind (ic : Bool) : Atom → Bool
  | .lit p => ic || !isAsciiLetter p
  | .digit => true
  | .space => true
  | .dot => true
  | .oneOf items => items.all (fun it => it.caseBlind ic)

/-- A pattern all of whose one-character parts are case-blind. -/
def Regex.caseBlind (ic : Bool) : Regex → Bool
  | .empty => true
  | .atom a => a.caseBlind ic
  | .bol => true
  | .eol => true
  | .seq a b => a.caseBlind ic && b.caseBlind ic
  | .alt a b => a.caseBlind ic && b.caseBlind ic
  | .star _ r => r.caseBlind ic
  | .group _ r => r.caseBlind ic

/-- The matcher state over the upper-cased input. -/
def MState.upper (st : MState) : MState :=
  ⟨st.pos, st.rest.map asciiUpper, st.caps.map (fun e => (e.1, e.2.map asciiUpper))⟩

/-- What is asked of the `toUpperCase` of the runtime, which converts a string
code point by code point through a table `U`: an ASCII character goes to its
ASCII upper case, white space is left as it is, no character vanishes, and no
other character turns into white space.  The Unicode tables have these
properties; nothing else about them is used. -/
structure UpperTable (U : Char → JSString) : Prop where
  ascii : ∀ c : Char, c.toNat < 128 → U c = [asciiUpper c]
  space : ∀ c : Char, isWhiteSpace c = true → U c = [c]
  nonempty : ∀ c : Char, U c ≠ []
  noSpace : ∀ c : Char, isWhiteSpace c = false → ∀ x ∈ U c, isWhiteSpace x = false

/-- A class member that only ASCII characters and white space can match. -/
def ClassItem.narrow : ClassItem → Bool
  | .chr p => decide (p.toNat < 128)
  | .range _ hi => decide (hi.toNat < 128)
  | .digit => true
  | .space => true

/-- A one-character pattern that only ASCII characters and white space can
match. -/
def Atom.narrow : Atom → Bool
  | .lit p => decide (p.toNat < 128)
  | .digit => true
  | .space => true
  | .dot => false
  | .oneOf items => items.all (fun it => it.narrow)

/-- A pattern all of whose one-character parts are narrow. -/
def Regex.narrow : Regex → Bool
  | .empty => true
  | .atom a => a.narrow
  | .bol => true
  | .eol => true
  | .seq a b => a.narrow && b.narrow
  | .alt a b => a.narrow && b.narrow
  | .star _ r => r.narrow
  | .group _ r => r.narrow

/-- The matcher state `st'` stands in the upper-cased text where `st` stands
in the text: the rest of the input is the upper case of the rest, the index
is `shift` further on, and the start of one is the start of the other. -/
def MState.upperOf (U : Char → JSString) (shift : Nat) (st st' : MState) : Prop :=
  st'.pos = st.pos + shift ∧ st'.rest = st.rest.flatMap U ∧ (st.pos = 0 → shift = 0)

/-! ## Numbers, progress records and reports -/

/-- A finite non-negative JavaScript number (an IEEE 754 double): the value
`mantissa * 2 ^ exponent`. -/
structure JSNumber where
  mantissa : Nat
  exponent : Int
  deriving Repr, DecidableEq

/-- The loop of `floorLog2`; the counter bounds the number of halvings. -/
def floorLog2Aux : Nat → Nat → Nat
  | 0, _ => 0
  | fuel + 1, n => if n < 2 then 0 else floorLog2Aux fuel (n / 2) + 1

/-- The position of the leading bit of `n`. -/
def floorLog2 (n : Nat) : Nat := floorLog2Aux n n

/-- The fraction `num / den` divided by `2 ^ e`, as a numerator and a
denominator. -/
def scaled (num den : Nat) (e : Int) : Nat × Nat :=
  match e with
  | Int.ofNat k => (num, den * 2 ^ k)
  | Int.negSucc k => (num * 2 ^ (k + 1), den)

/-- The double nearest to `num / den` (round to nearest, ties to even, 53-bit
significand).  Exponent overflow and subnormal numbers are left out: the
quotients and products of `script.js` lie between `1 / 2 ^ 53` and
`2 ^ 60`. -/
def roundToDouble (num den : Nat) : JSNumber :=
  if num = 0 then ⟨0, 0⟩
  else
    let e0 : Int := (floorLog2 num : Int) - (floorLog2 den : Int) - 52
    let q := (scaled num den e0).1 / (scaled num den e0).2
    let e : Int := if 2 ^ 53 ≤ q then e0 + 1 else if q < 2 ^ 52 then e0 - 1 else e0
    let m := (scaled num den e).1 / (scaled num den e).2
    let r := (scaled num den e).1 % (scaled num den e).2
    if (scaled num den e).2 < 2 * r ∨ (2 * r = (scaled num den e).2 ∧ m % 2 = 1) then ⟨m + 1, e⟩
    else ⟨m, e⟩

/-- `a / b` for two integers below `2 ^ 53` (counts and sums of counts),
`b` positive. -/
def numberDiv (a b : Nat) : JSNumber := roundToDouble a b

/-- `x * n` for a double `x` and an integer `n` below `2 ^ 53`. -/
def numberMul (x : JSNumber) (n : Nat) : JSNumber :=
  match x.exponent with
  | Int.ofNat k => roundToDouble (x.mantissa * 2 ^ k * n) 1
  | Int.negSucc k => roundToDouble (x.mantissa * n) (2 ^ (k + 1))

/-- `Math.round(x)`: the nearest integer, a tie going up. -/
def mathRound (x : JSNumber) : Nat :=
  match x.exponent with
  | Int.ofNat k => x.mantissa * 2 ^ k
  | Int.negSucc k => (2 * x.mantissa + 2 ^ (k + 1)) / 2 ^ (k + 2)

/-- An element of `this.tasks`. -/
structure Task where
  id : Nat
  text : JSString
  taskName : JSString
  timeRange : Option JSString
  completed : Bool
  deriving Repr, DecidableEq

/-- The record `data` that `saveProgress` stores under `progress_<date>`;
`tasks` is `none` when a stored record lacks the field.  The date string
`this.currentDate` is modelled by the number of the day it names. -/
structure DayData where
  date : Nat
  tasks : Option (List Task)
  completedCount : Nat
  totalCount : Nat
  percentage : Nat
  deriving Repr, DecidableEq

/-- What `updateProgress` computes and shows. -/
structure Progress where
  completedTasks : Nat
  totalTasks : Nat
  percentage : Nat
  deriving Repr, DecidableEq

/-- `updateProgress()`: the three values written to the progress bar. -/
def updateProgress (tasks : List Task) : Progress :=
  let completedTasks := (tasks.filter (fun task => task.completed)).length
  let totalTasks := tasks.length
  { completedTasks := completedTasks
    totalTasks := totalTasks
    percentage :=
      if totalTasks > 0 then mathRound (numberMul (numberDiv completedTasks totalTasks) 100)
      else 0 }

/-- `saveProgress()`: the record written for `currentDate`. -/
def saveProgress (currentDate : Nat) (tasks : List Task) : DayData :=
  { date := currentDate
    tasks := some tasks
    completedCount := (tasks.filter (fun task => task.completed)).length
    totalCount := tasks.length
    percentage :=
      if tasks.length > 0 then
        mathRound (numberMul
          (numberDiv (tasks.filter (fun task => task.completed)).length tasks.length) 100)
      else 0 }

/-- The number of milliseconds in a day. -/
def msPerDay : Int := 86400000

/-- The local time zone of the host, as a `Date` object reads it.
`offsetAtUTC t` is `LocalTZA(t, true)`: the offset of local time from UTC, in
milliseconds, in force at the instant `t`.  `offsetAtLocal t` is
`LocalTZA(t, false)`: the offset the host applies to the local time `t` to get
back to UTC. -/
structure TimeZone where
  offsetAtUTC : Int → Int
  offsetAtLocal : Int → Int

/-- `date.toISOString().split('T')[0]` for the `Date` with time value `t`
(milliseconds since 1 January 1970 UTC): the UTC calendar date, modelled by
its day number `Day(t) = floor(t / msPerDay)`, which the string names one to
one. -/
def dateString (t : Int) : Int := t / msPerDay

/-- `date.setDate(date.getDate() + 1)` on the time value `t`, giving the new
time value.  `getDate` reads the day of the month of the local time
`t + LocalTZA(t, true)`; `setDate` puts the local time together again from the
day after (`MakeDay`, which carries into the next month) and the same time
within the day (`MakeDate`), and converts it to UTC with
`LocalTZA(newDate, false)`. -/
def setDateNext (tz : TimeZone) (t : Int) : Int :=
  let localTime := t + tz.offsetAtUTC t
  let newDate := (localTime / msPerDay + 1) * msPerDay + localTime % msPerDay
  newDate - tz.offsetAtLocal newDate

/-- The per-date store behind `localStorage.getItem('progress_<date>')`,
keyed by the day number of the date: `none` where no record is stored. -/
abbrev Store := Int → Option DayData

/-- A row of `getReportData`. -/
structure ReportRow where
  date : Int
  completed : Nat
  total : Nat
  percentage : Nat
  tasks : List Task
  deriving Repr, DecidableEq

/-- The row pushed for a day that has the record `dayData`. -/
def reportRow (dateString : Int) (dayData : DayData) : ReportRow :=
  { date := dateString
    completed := dayData.completedCount
    total := dayData.totalCount
    percentage := dayData.percentage
    tasks := dayData.tasks.getD [] }

/-- The `while (currentDate <= endDate)` loop of `getReportData`, on the time
values of the two `Date` objects: the comparison is between instants, the key
looked up is the UTC date of `currentDate`, and the step is one day of local
time.  `data` is the array filled so far.  The counter bounds the number of
iterations; `none` means it ran out.  The dates are valid ones (no `NaN` time
value) and stay within the range of time values. -/
def getReportDataLoop (tz : TimeZone) (store : Store) (endDate : Int) :
    Nat → Int → List ReportRow → Option (List ReportRow)
  | 0, _, _ => none
  | fuel + 1, currentDate, data =>
    if currentDate ≤ endDate then
      match store (dateString currentDate) with
      | some dayData =>
        getReportDataLoop tz store endDate fuel (setDateNext tz currentDate)
          (data ++ [reportRow (dateString currentDate) dayData])
      | none => getReportDataLoop tz store endDate fuel (setDateNext tz currentDate) data
    else some data

/-- `getReportData(startDate, endDate)` in the time zone `tz`, the two dates
given by their time values, with at most `fuel` iterations of the loop. -/
def getReportData (tz : TimeZone) (store : Store) (fuel : Nat) (startDate endDate : Int) :
    Option (List ReportRow) :=
  getReportDataLoop tz store endDate fuel startDate []

/-- The figures `formatReportData` puts in the report header. -/
structure ReportSummary where
  totalCompleted : Nat
  totalTasks : Nat
  averagePercentage : JSNumber
  deriving Repr, DecidableEq

/-- `formatReportData(data)`, up to the markup: `none` stands for the
paragraph `No data available for this period.`; otherwise the three figures
of the header (the average is shown through `Math.round`).  The sums are sums
of integers and exact below `2 ^ 53`. -/
def formatReportData (data : List ReportRow) : Option ReportSummary :=
  if data.length = 0 then none
  else
    some { totalCompleted := data.foldl (fun sum day => sum + day.completed) 0
           totalTasks := data.foldl (fun sum day => sum + day.total) 0
           averagePercentage :=
             numberDiv (data.foldl (fun sum day => sum + day.percentage) 0) data.length }

/-- Rounding `num / den` to the nearest integer, a half going up. -/
def roundHalfUp (num den : Nat) : Nat := (2 * num + den) / (2 * den)

/-- The calendar dates from `first` to `last`, as day numbers, ascending. -/
def calendarDates (first last : Int) : List Int :=
  (List.range (last + 1 - first).toNat).map (fun (i : Nat) => first + (i : Int))

/-- The report rows in the words of the specification: one row for each
calendar date from `first` to `last` that has a record, in ascending order. -/
def reportRowsSpec (store : Store) (first last : Int) : List ReportRow :=
  (calendarDates first last).filterMap (fun date => (store date).map (reportRow date))

/-- The time zone UTC. -/
def utc : TimeZone := { offsetAtUTC := fun _ => 0, offsetAtLocal := fun _ => 0 }

/-- The time zone Europe/London in the spring of 2025: Greenwich time until
30 March 2025, 01:00 UTC (time value 1743296400000), one hour ahead from
then on.  The local times from 01:00 to 02:00 of that day do not exist and
are read with the earlier offset. -/
def europeLondon2025 : TimeZone :=
  { offsetAtUTC := fun t => if 1743296400000 ≤ t then 3600000 else 0
    offsetAtLocal := fun t => if 1743296400000 + 3600000 ≤ t then 3600000 else 0 }

/-! ## Theorems -/

/-! ### The definitions at the tabulated `toLowerCase` -/

theorem words_def (text : JSString) : words text = splitWhiteSpace (toLowerCase text) := rfl

theorem uniqueWords_def (text : JSString) : uniqueWords text = setOf (words text) := rfl

theorem mostlyRepeated_def (text : JSString) :
    mostlyRepeated text = (decide ((words text).length > 4) &&
      decide (2 * (uniqueWords text).length < (words text).length)) := rfl

theorem isNoise_def (text : JSString) :
    isNoise text = (matchesUnwanted text || decide (jsLength text < 4) ||
      decide (dayCount text ≥ 3) || mostlyRepeated text) := rfl

theorem parseTaskEntry_def (text : JSString) :
    parseTaskEntry text =
      if isNoise (trim text) then none
      else
        match timeRangeEntry (trim text) with
        | some entry => some entry
        | none =>
          match singleTimeEntry (trim text) with
          | some entry => some entry
          | none =>
            match taskOnlyEntry (trim text) with
            | some entry => some entry
            | none => fallbackEntry (trim text) := rfl

/-! ### `trim` -/

theorem head_dropWhile_not (p : Char → Bool) (l : JSString) (c : Char)
    (h : (l.dropWhile p).head? = some c) : p c = false := by
  induction l with
  | nil => simp at h
  | cons a l ih =>
    by_cases ha : p a = true
    · simp [List.dropWhile_cons, ha] at h; exact ih h
    · simp [List.dropWhile_cons, ha] at h; subst h; simpa using ha

theorem dropWhile_eq_self_of_head (p : Char → Bool) (l : JSString)
    (h : ∀ c, l.head? = some c → p c = false) : l.dropWhile p = l := by
  cases l with
  | nil => rfl
  | cons a l => simp [List.dropWhile_cons, h a rfl]

theorem trim_eq_self {s : JSString} (h : isTrimmed s) : trim s = s := by
  unfold trim
  rw [dropWhile_eq_self_of_head _ _ h.1,
    dropWhile_eq_self_of_head _ s.reverse (by
      intro c hc; apply h.2; rw [List.head?_reverse] at hc; exact hc)]
  simp

theorem isTrimmed_trim (s : JSString) : isTrimmed (trim s) := by
  unfold trim
  constructor
  · intro c hc
    have h1 : ∀ d, (s.dropWhile isWhiteSpace).head? = some d → isWhiteSpace d = false :=
      fun d => head_dropWhile_not _ _ d
    generalize s.dropWhile isWhiteSpace = u at h1 hc
    have hpre : ((u.reverse.dropWhile isWhiteSpace).reverse) <+: u := by
      have := List.dropWhile_suffix (l := u.reverse) isWhiteSpace
      simpa using List.reverse_prefix.mpr this
    obtain ⟨t, ht⟩ := hpre
    apply h1
    rw [← ht]
    cases hx : (u.reverse.dropWhile isWhiteSpace).reverse with
    | nil => rw [hx] at hc; simp at hc
    | cons a l => rw [hx] at hc; simpa using hc
  · intro c hc
    rw [List.getLast?_reverse] at hc
    exact head_dropWhile_not _ _ c hc

theorem trim_trim (s : JSString) : trim (trim s) = trim s :=
  trim_eq_self (isTrimmed_trim s)

theorem ne_nil_of_jsLength_pos {s : JSString} (h : 0 < jsLength s) : s ≠ [] := by
  intro hs; subst hs; simp [jsLength] at h

/-! ### Duplicate removal -/

theorem uniqueTasksLoop_eq (lower : JSString → JSString) (tasks : List TaskEntry) :
    ∀ (seenTasks : List JSString) (acc earlier : List TaskEntry),
      (∀ k, k ∈ seenTasks ↔ ∃ e ∈ earlier, dedupeKey lower e = k) →
      uniqueTasksLoop lower tasks seenTasks acc = acc ++ keepFirstFrom lower earlier tasks := by
  induction tasks with
  | nil => intro seen acc earlier _; simp [uniqueTasksLoop, keepFirstFrom]
  | cons task tasks ih =>
    intro seen acc earlier hseen
    have hkey : seen.contains (lower task.taskName) = true ↔
        ¬ (earlier.all (fun e => dedupeKey lower e != dedupeKey lower task) = true) := by
      rw [List.contains_iff_exists_mem_beq]
      simp only [beq_iff_eq, exists_eq_right']
      rw [hseen]
      simp [dedupeKey]
    by_cases hc : seen.contains (lower task.taskName) = true
    · have hall := hkey.mp hc
      simp only [uniqueTasksLoop, keepFirstFrom, hc, if_true, hall, if_false]
      apply ih
      intro k
      constructor
      · intro hk
        obtain ⟨e, he, hek⟩ := (hseen k).mp hk
        exact ⟨e, List.mem_append_left _ he, hek⟩
      · rintro ⟨e, he, hek⟩
        rcases List.mem_append.mp he with he | he
        · exact (hseen k).mpr ⟨e, he, hek⟩
        · simp at he; subst he; subst hek
          simpa [dedupeKey] using hc
    · have hall : earlier.all (fun e => dedupeKey lower e != dedupeKey lower task) = true := by
        by_contra hn; exact hc (hkey.mpr hn)
      simp only [uniqueTasksLoop, keepFirstFrom, hc, hall, if_true, Bool.false_eq_true, if_false]
      rw [ih (seen ++ [lower task.taskName]) (acc ++ [task]) (earlier ++ [task])]
      · simp
      · intro k
        constructor
        · intro hk
          rcases List.mem_append.mp hk with hk | hk
          · obtain ⟨e, he, hek⟩ := (hseen k).mp hk
            exact ⟨e, List.mem_append_left _ he, hek⟩
          · simp at hk; subst hk
            exact ⟨task, by simp, rfl⟩
        · rintro ⟨e, he, hek⟩
          rcases List.mem_append.mp he with he | he
          · exact List.mem_append_left _ ((hseen k).mpr ⟨e, he, hek⟩)
          · simp at he; subst he; subst hek
            simp [dedupeKey]

theorem keepFirstFrom_sublist (lower : JSString → JSString) (x : List TaskEntry) :
    ∀ earlier, (keepFirstFrom lower earlier x).Sublist x := by
  induction x with
  | nil => intro _; simp [keepFirstFrom]
  | cons task tasks ih =>
    intro earlier
    unfold keepFirstFrom
    split
    · exact (ih _).cons₂ _
    · exact (ih _).cons _

theorem keepFirstFrom_key_ne (lower : JSString → JSString) (x : List TaskEntry) :
    ∀ earlier, ∀ t ∈ keepFirstFrom lower earlier x, ∀ e ∈ earlier, dedupeKey lower e ≠ dedupeKey lower t := by
  induction x with
  | nil => intro _ t ht; simp [keepFirstFrom] at ht
  | cons task tasks ih =>
    intro earlier t ht e he
    unfold keepFirstFrom at ht
    split at ht
    · rename_i hall
      rcases List.mem_cons.mp ht with h | h
      · subst h
        simpa using (List.all_eq_true.mp hall) e he
      · exact ih _ t h e (List.mem_append_left _ he)
    · exact ih _ t ht e (List.mem_append_left _ he)

theorem keepFirstFrom_pairwise (lower : JSString → JSString) (x : List TaskEntry) :
    ∀ earlier, (keepFirstFrom lower earlier x).Pairwise (fun a b => dedupeKey lower a ≠ dedupeKey lower b) := by
  induction x with
  | nil => intro _; simp [keepFirstFrom]
  | cons task tasks ih =>
    intro earlier
    unfold keepFirstFrom
    split
    · refine List.Pairwise.cons ?_ (ih _)
      intro t ht
      exact keepFirstFrom_key_ne lower tasks _ t ht task (by simp)
    · exact ih _

theorem keepFirstFrom_eq_self (lower : JSString → JSString) (y : List TaskEntry) :
    ∀ earlier, y.Pairwise (fun a b => dedupeKey lower a ≠ dedupeKey lower b) →
      (∀ t ∈ y, ∀ e ∈ earlier, dedupeKey lower e ≠ dedupeKey lower t) → keepFirstFrom lower earlier y = y := by
  induction y with
  | nil => intro _ _ _; simp [keepFirstFrom]
  | cons task tasks ih =>
    intro earlier hp hd
    have hall : earlier.all (fun e => dedupeKey lower e != dedupeKey lower task) = true := by
      rw [List.all_eq_true]
      intro e he
      simpa using hd task (by simp) e he
    rw [List.pairwise_cons] at hp
    simp only [keepFirstFrom, hall, if_true]
    rw [ih _ hp.2]
    intro t ht e he
    rcases List.mem_append.mp he with he | he
    · exact hd t (List.mem_cons_of_mem _ ht) e he
    · simp at he; subst he; exact hp.1 t ht

theorem keepFirstFrom_covers (lower : JSString → JSString) (x : List TaskEntry) :
    ∀ earlier, ∀ t ∈ x, ∃ u, (u ∈ earlier ∨ u ∈ keepFirstFrom lower earlier x) ∧
      dedupeKey lower u = dedupeKey lower t := by
  induction x with
  | nil => intro _ t ht; simp at ht
  | cons task tasks ih =>
    intro earlier t ht
    rcases List.mem_cons.mp ht with h | h
    · subst h
      by_cases hall : earlier.all (fun e => dedupeKey lower e != dedupeKey lower t) = true
      · refine ⟨t, Or.inr ?_, rfl⟩
        simp only [keepFirstFrom, hall, if_true]
        simp
      · rw [List.all_eq_true] at hall
        push_neg at hall
        obtain ⟨e, he, hne⟩ := hall
        refine ⟨e, Or.inl he, ?_⟩
        simpa using hne
    · obtain ⟨u, hu, hk⟩ := ih (earlier ++ [task]) t h
      rcases hu with hu | hu
      · rcases List.mem_append.mp hu with hu | hu
        · exact ⟨u, Or.inl hu, hk⟩
        · simp at hu
          subst hu
          by_cases hall : earlier.all (fun e => dedupeKey lower e != dedupeKey lower u) = true
          · refine ⟨u, Or.inr ?_, hk⟩
            simp only [keepFirstFrom, hall, if_true]
            simp
          · rw [List.all_eq_true] at hall
            push_neg at hall
            obtain ⟨e, he, hne⟩ := hall
            refine ⟨e, Or.inl he, ?_⟩
            have : dedupeKey lower e = dedupeKey lower u := by simpa using hne
            rw [this, hk]
      · refine ⟨u, Or.inr ?_, hk⟩
        unfold keepFirstFrom
        split
        · exact List.mem_cons_of_mem _ hu
        · exact hu

theorem uniqueTasksWith_eq_keepFirstFrom (lower : JSString → JSString) (x : List TaskEntry) :
    uniqueTasksWith lower x = keepFirstFrom lower [] x := by
  unfold uniqueTasksWith
  rw [uniqueTasksLoop_eq lower x [] [] [] (by simp)]
  simp

/-- C4. Whatever the `toLowerCase` of the runtime is, the duplicate-removal
loop keeps, in the original order, exactly the entries whose lower-cased task
name occurs in no earlier entry (nothing else of an entry is compared), and
applying it twice is the same as applying it once. -/
theorem uniqueTasks_keep_first_idempotent (lower : JSString → JSString) (x : List TaskEntry) :
    uniqueTasksWith lower x = keepFirstFrom lower [] x ∧
      (uniqueTasksWith lower x).Sublist x ∧
      (uniqueTasksWith lower x).Pairwise (fun a b => lower a.taskName ≠ lower b.taskName) ∧
      (∀ t ∈ x, ∃ u ∈ uniqueTasksWith lower x, lower u.taskName = lower t.taskName) ∧
      uniqueTasksWith lower (uniqueTasksWith lower x) = uniqueTasksWith lower x := by
  refine ⟨uniqueTasksWith_eq_keepFirstFrom lower x, ?_, ?_, ?_, ?_⟩
  · rw [uniqueTasksWith_eq_keepFirstFrom]; exact keepFirstFrom_sublist lower x []
  · rw [uniqueTasksWith_eq_keepFirstFrom]; exact keepFirstFrom_pairwise lower x []
  · rw [uniqueTasksWith_eq_keepFirstFrom]
    intro t ht
    obtain ⟨u, hu, hk⟩ := keepFirstFrom_covers lower x [] t ht
    rcases hu with hu | hu
    · simp at hu
    · exact ⟨u, hu, hk⟩
  · rw [uniqueTasksWith_eq_keepFirstFrom, uniqueTasksWith_eq_keepFirstFrom]
    exact keepFirstFrom_eq_self lower _ [] (keepFirstFrom_pairwise lower x []) (by simp)

/-! ### The four task patterns -/

theorem timeRangeEntry_taskName {text : JSString} {e : TaskEntry}
    (h : timeRangeEntry text = some e) :
    (∃ s, e.taskName = trim s) ∧ 0 < jsLength e.taskName := by
  unfold timeRangeEntry at h
  split at h
  · simp at h
  · rename_i match1 _
    simp only at h
    split at h
    · rename_i hlen
      simp only [Option.some.injEq] at h
      subst h
      exact ⟨⟨_, rfl⟩, hlen⟩
    · simp at h

theorem singleTimeEntry_taskName {text : JSString} {e : TaskEntry}
    (h : singleTimeEntry text = some e) :
    (∃ s, e.taskName = trim s) ∧ 2 < jsLength e.taskName := by
  unfold singleTimeEntry at h
  split at h
  · simp at h
  · rename_i match2 _
    simp only at h
    split at h
    · rename_i hlen
      simp only [Option.some.injEq] at h
      subst h
      exact ⟨⟨_, rfl⟩, hlen.1⟩
    · simp at h

theorem taskOnlyEntry_taskName {text : JSString} {e : TaskEntry}
    (h : taskOnlyEntry text = some e) :
    (∃ s, e.taskName = trim s) ∧ 2 < jsLength e.taskName := by
  unfold taskOnlyEntry at h
  split at h
  · simp at h
  · rename_i match3 _
    simp only at h
    split at h
    · rename_i hlen
      simp only [Option.some.injEq] at h
      subst h
      exact ⟨⟨_, rfl⟩, hlen⟩
    · simp at h

theorem fallbackEntry_taskName {text : JSString} {e : TaskEntry}
    (h : fallbackEntry text = some e) : e.taskName = text ∧ 3 < jsLength text := by
  unfold fallbackEntry at h
  split at h
  · rename_i hc
    split at h
    · simp only [Option.some.injEq] at h
      subst h
      exact ⟨rfl, hc.1⟩
    · simp at h
  · simp at h

/-- What `parseTaskEntry` returns, pattern by pattern. -/
theorem parseTaskEntry_cases {text : JSString} {e : TaskEntry}
    (h : parseTaskEntry text = some e) :
    isNoise (trim text) = false ∧
      (timeRangeEntry (trim text) = some e ∨
        (timeRangeEntry (trim text) = none ∧ singleTimeEntry (trim text) = some e) ∨
        (timeRangeEntry (trim text) = none ∧ singleTimeEntry (trim text) = none ∧
          taskOnlyEntry (trim text) = some e) ∨
        (timeRangeEntry (trim text) = none ∧ singleTimeEntry (trim text) = none ∧
          taskOnlyEntry (trim text) = none ∧ fallbackEntry (trim text) = some e)) := by
  rw [parseTaskEntry_def] at h
  split at h
  · simp at h
  · rename_i hn
    refine ⟨by simpa using hn, ?_⟩
    split at h
    · rename_i e1 h1
      simp only [Option.some.injEq] at h; subst h
      exact Or.inl h1
    · rename_i h1
      split at h
      · rename_i e2 h2
        simp only [Option.some.injEq] at h; subst h
        exact Or.inr (Or.inl ⟨h1, h2⟩)
      · rename_i h2
        split at h
        · rename_i e3 h3
          simp only [Option.some.injEq] at h; subst h
          exact Or.inr (Or.inr (Or.inl ⟨h1, h2, h3⟩))
        · rename_i h3
          exact Or.inr (Or.inr (Or.inr ⟨h1, h2, h3, h⟩))

/-- C10. Whichever pattern produced it, the task name of an entry that
`parseTaskEntry` returns is non-empty and has no white space at either
end. -/
theorem parseTaskEntry_taskName_nonempty_trimmed (text : JSString) (e : TaskEntry)
    (h : parseTaskEntry text = some e) :
    0 < jsLength e.taskName ∧ e.taskName ≠ [] ∧ isTrimmed e.taskName ∧
      trim e.taskName = e.taskName := by
  have key : 0 < jsLength e.taskName ∧ isTrimmed e.taskName := by
    obtain ⟨_, h1 | ⟨_, h2⟩ | ⟨_, _, h3⟩ | ⟨_, _, _, h4⟩⟩ := parseTaskEntry_cases h
    · obtain ⟨⟨s, hs⟩, hl⟩ := timeRangeEntry_taskName h1
      exact ⟨hl, hs ▸ isTrimmed_trim s⟩
    · obtain ⟨⟨s, hs⟩, hl⟩ := singleTimeEntry_taskName h2
      exact ⟨by omega, hs ▸ isTrimmed_trim s⟩
    · obtain ⟨⟨s, hs⟩, hl⟩ := taskOnlyEntry_taskName h3
      exact ⟨by omega, hs ▸ isTrimmed_trim s⟩
    · obtain ⟨hs, hl⟩ := fallbackEntry_taskName h4
      exact ⟨by rw [hs]; omega, hs ▸ isTrimmed_trim text⟩
  exact ⟨key.1, ne_nil_of_jsLength_pos key.1, key.2, trim_eq_self key.2⟩

set_option maxRecDepth 100000 in
/-- C10, at the input `8:30 Gym`. -/
theorem parseTaskEntry_taskName_nonempty_trimmed_witness :
    parseTaskEntry "8:30 Gym".toList = some ⟨"8:30 (Gym)".toList, some "8:30".toList, "Gym".toList⟩ ∧
      (0 < jsLength "Gym".toList ∧ "Gym".toList ≠ [] ∧ isTrimmed "Gym".toList ∧
        trim "Gym".toList = "Gym".toList) :=
  ⟨by decide, parseTaskEntry_taskName_nonempty_trimmed "8:30 Gym".toList
    ⟨"8:30 (Gym)".toList, some "8:30".toList, "Gym".toList⟩ (by decide)⟩

set_option maxRecDepth 100000 in
/-- C3. `parseTextToTasks` does not remove duplicates: a text holding the same
line twice yields two entries with the same task name. -/
theorem parseTextToTasks_keeps_duplicates :
    parseTextToTasks "Gym class\nGym class".toList =
      [⟨"Gym class".toList, none, "Gym class".toList⟩,
       ⟨"Gym class".toList, none, "Gym class".toList⟩] ∧
    uniqueTasks (parseTextToTasks "Gym class\nGym class".toList) =
      [⟨"Gym class".toList, none, "Gym class".toList⟩] := by
  decide

set_option maxRecDepth 100000 in
/-- C9 fails as stated: `8:30 - 10:30 (Pending)` yields the task name
`Pending`, which matches the rejection pattern `/^pending$/i`. -/
theorem taskName_may_match_unwanted :
    parseTaskEntry "8:30 - 10:30 (Pending)".toList =
      some ⟨"8:30 - 10:30 (Pending)".toList, some "8:30 - 10:30".toList, "Pending".toList⟩ ∧
    matchesUnwanted "Pending".toList = true := by
  decide

/-- C9, amended. When `parseTaskEntry` returns an entry, the trimmed text
matches none of the rejection patterns; and when the entry comes from the
fallback pattern, whose task name is the whole trimmed text, the task name
matches none of them either. -/
theorem parseTaskEntry_text_not_unwanted (text : JSString) (e : TaskEntry)
    (h : parseTaskEntry text = some e) :
    matchesUnwanted (trim text) = false ∧
      (timeRangeEntry (trim text) = none → singleTimeEntry (trim text) = none →
        taskOnlyEntry (trim text) = none → matchesUnwanted e.taskName = false) := by
  obtain ⟨hn, hc⟩ := parseTaskEntry_cases h
  have hu : matchesUnwanted (trim text) = false := by
    rw [isNoise_def] at hn
    simp only [Bool.or_eq_false_iff] at hn
    exact hn.1.1.1
  refine ⟨hu, fun h1 h2 h3 => ?_⟩
  rcases hc with h1' | ⟨_, h2'⟩ | ⟨_, _, h3'⟩ | ⟨_, _, _, h4⟩
  · rw [h1] at h1'; simp at h1'
  · rw [h2] at h2'; simp at h2'
  · rw [h3] at h3'; simp at h3'
  · rw [(fallbackEntry_taskName h4).1]; exact hu

set_option maxRecDepth 100000 in
/-- C9 amended, at the input `Gym class`. -/
theorem parseTaskEntry_text_not_unwanted_witness :
    parseTaskEntry "Gym class".toList = some ⟨"Gym class".toList, none, "Gym class".toList⟩ ∧
      matchesUnwanted (trim "Gym class".toList) = false ∧
      (timeRangeEntry (trim "Gym class".toList) = none →
        singleTimeEntry (trim "Gym class".toList) = none →
        taskOnlyEntry (trim "Gym class".toList) = none →
        matchesUnwanted "Gym class".toList = false) :=
  ⟨by decide, parseTaskEntry_text_not_unwanted "Gym class".toList
    ⟨"Gym class".toList, none, "Gym class".toList⟩ (by decide)⟩

/-! ### Characters -/

theorem toNat_eq_iff (c e : Char) : c.toNat = e.toNat ↔ c = e := by
  constructor
  · intro h
    apply Char.ext
    apply UInt32.ext
    exact h
  · intro h; rw [h]

theorem isDigit_not_ws {c : Char} (h : isDigit c = true) : isWhiteSpace c = false := by
  simp only [isDigit, Bool.and_eq_true, decide_eq_true_eq] at h
  simp only [isWhiteSpace, Bool.or_eq_false_iff, beq_eq_false_iff_ne, Bool.and_eq_false_iff,
    decide_eq_false_iff_not]
  omega

theorem isDigit_not_colon {c : Char} (h : isDigit c = true) : (c.toNat == 58) = false := by
  simp only [isDigit, Bool.and_eq_true, decide_eq_true_eq] at h
  simp only [beq_eq_false_iff_ne]
  omega

theorem not_lt_of_not_ws {c : Char} (h : isWhiteSpace c = false) :
    isLineTerminator c = false := by
  simp only [isWhiteSpace, Bool.or_eq_false_iff, beq_eq_false_iff_ne] at h
  simp only [isLineTerminator, Bool.or_eq_false_iff, beq_eq_false_iff_ne]
  omega

/-! ### The matcher on the shapes the task patterns use -/

theorem match_some_none {α : Type} (o : Option α) :
    (match o with
      | some r => some r
      | none => none) = o := by
  cases o <;> rfl

/-- A time token at the head of the input is consumed whole, whatever the
continuation. -/
theorem run_timeToken (T rest : JSString) (hT : isTimeToken T = true) (p : Nat)
    (caps : List (Nat × JSString)) (k : Cont) :
    timeToken.run false ⟨p, T ++ rest, caps⟩ k = k ⟨p + T.length, rest, caps⟩ := by
  match T, hT with
  | [h, c, m1, m2], hT =>
    simp only [isTimeToken, Bool.and_eq_true, beq_iff_eq] at hT
    obtain ⟨⟨⟨hh, hc⟩, h1⟩, h2⟩ := hT
    have hc' : isDigit c = false := by
      simp only [isDigit, Bool.and_eq_false_iff, decide_eq_false_iff_not]; omega
    simp [timeToken, cat, opt, d, ch, Regex.run, Atom.test, hh, hc, h1, h2, hc']
  | [h1, h2, c, m1, m2], hT =>
    simp only [isTimeToken, Bool.and_eq_true, beq_iff_eq] at hT
    obtain ⟨⟨⟨⟨hh1, hh2⟩, hc⟩, hm1⟩, hm2⟩ := hT
    have hc' : (h2.toNat == 58) = false := isDigit_not_colon hh2
    simp only [beq_eq_false_iff_ne] at hc'
    simp [timeToken, cat, opt, d, ch, Regex.run, Atom.test, hh1, hh2, hc, hm1, hm2, hc']
    have hp : p + 1 + 1 + 1 + 1 + 1 = p + 5 := by omega
    rw [hp]
    cases k ⟨p + 5, rest, caps⟩ <;> rfl
    
theorem run_atom_nil (ic : Bool) (a : Atom) (p : Nat) (caps : List (Nat × JSString))
    (k : Cont) : Regex.run ic (.atom a) ⟨p, [], caps⟩ k = none := rfl

theorem run_atom_cons (ic : Bool) (a : Atom) (p : Nat) (c : Char) (cs : JSString)
    (caps : List (Nat × JSString)) (k : Cont) :
    Regex.run ic (.atom a) ⟨p, c :: cs, caps⟩ k =
      if a.test ic c = true then k ⟨p + 1, cs, caps⟩ else none := rfl

/-- Greedy repetition of a one-character pattern over a maximal run `w` of
matching characters: if the continuation accepts after the whole run, that is
the result. -/
theorem starLoop_greedy_atom (ic : Bool) (a : Atom) (w : JSString) :
    ∀ (n p : Nat) (rest : JSString) (caps : List (Nat × JSString)) (k : Cont) (r : MState),
      (∀ c ∈ w, a.test ic c = true) → w.length ≤ n →
      (∀ c, rest.head? = some c → a.test ic c = false) →
      k ⟨p + w.length, rest, caps⟩ = some r →
      starLoop true (Regex.run ic (.atom a)) n ⟨p, w ++ rest, caps⟩ k = some r := by
  induction w with
  | nil =>
    intro n p rest caps k r _ _ hrest hk
    simp only [List.length_nil, Nat.add_zero] at hk
    cases n with
    | zero => simpa [starLoop] using hk
    | succ n =>
      cases rest with
      | nil => simp [starLoop, run_atom_nil, hk]
      | cons c cs => simp [starLoop, run_atom_cons, hrest c rfl, hk]
  | cons c w ih =>
    intro n p rest caps k r hw hn hrest hk
    cases n with
    | zero => simp at hn
    | succ n =>
      have hc : a.test ic c = true := hw c (by simp)
      have hrec := ih n (p + 1) rest caps k r (fun x hx => hw x (by simp [hx]))
        (by simpa using hn) hrest (by simpa [Nat.add_assoc, Nat.add_comm 1] using hk)
      simp [starLoop, run_atom_cons, hc, hrec]

/-- Lazy repetition of a one-character pattern: if the continuation rejects
every proper prefix of the run `w` and accepts after `w`, that is the
result. -/
theorem starLoop_lazy_atom (ic : Bool) (a : Atom) (w : JSString) :
    ∀ (n p : Nat) (rest : JSString) (caps : List (Nat × JSString)) (k : Cont) (r : MState),
      (∀ c ∈ w, a.test ic c = true) → w.length ≤ n →
      (∀ w1 c w2, w = w1 ++ c :: w2 → k ⟨p + w1.length, c :: w2 ++ rest, caps⟩ = none) →
      k ⟨p + w.length, rest, caps⟩ = some r →
      starLoop false (Regex.run ic (.atom a)) n ⟨p, w ++ rest, caps⟩ k = some r := by
  induction w with
  | nil =>
    intro n p rest caps k r _ _ _ hk
    simp only [List.length_nil, Nat.add_zero] at hk
    cases n with
    | zero => simpa [starLoop] using hk
    | succ n => simp [starLoop, hk]
  | cons c w ih =>
    intro n p rest caps k r hw hn hpre hk
    cases n with
    | zero => simp at hn
    | succ n =>
      have hc : a.test ic c = true := hw c (by simp)
      have h0 : k ⟨p, c :: w ++ rest, caps⟩ = none := by
        simpa using hpre [] c w rfl
      have hrec := ih n (p + 1) rest caps k r (fun x hx => hw x (by simp [hx]))
        (by simpa using hn)
        (fun w1 c' w2 hsplit => by
          have := hpre (c :: w1) c' w2 (by simp [hsplit])
          simpa [Nat.add_assoc, Nat.add_comm 1] using this)
        (by simpa [Nat.add_assoc, Nat.add_comm 1] using hk)
      have h0' : k ⟨p, c :: (w ++ rest), caps⟩ = none := h0
      simp [starLoop, run_atom_cons, hc, hrec, h0']

/-- Any successful repetition of a one-character pattern consumed a run of
matching characters and was accepted by the continuation after it. -/
theorem starLoop_atom_inv (g ic : Bool) (a : Atom) :
    ∀ (n p : Nat) (s : JSString) (caps : List (Nat × JSString)) (k : Cont) (r : MState),
      starLoop g (Regex.run ic (.atom a)) n ⟨p, s, caps⟩ k = some r →
      ∃ w rest, s = w ++ rest ∧ (∀ c ∈ w, a.test ic c = true) ∧
        k ⟨p + w.length, rest, caps⟩ = some r := by
  intro n
  induction n with
  | zero =>
    intro p s caps k r h
    exact ⟨[], s, rfl, by simp, by simpa [starLoop] using h⟩
  | succ n ih =>
    intro p s caps k r h
    have hbody : ∀ r, Regex.run ic (.atom a) ⟨p, s, caps⟩
        (fun st' => if p < st'.pos then
          starLoop g (Regex.run ic (.atom a)) n st' k else none) = some r →
        ∃ w rest, s = w ++ rest ∧ (∀ c ∈ w, a.test ic c = true) ∧
          k ⟨p + w.length, rest, caps⟩ = some r := by
      intro r hr
      cases s with
      | nil => simp [run_atom_nil] at hr
      | cons c cs =>
        by_cases hc : a.test ic c = true
        · simp only [run_atom_cons, hc, if_true, Nat.lt_add_one] at hr
          obtain ⟨w, rest, hs, hw, hk⟩ := ih (p + 1) cs caps k r hr
          refine ⟨c :: w, rest, by simp [hs], ?_, ?_⟩
          · intro x hx
            rcases List.mem_cons.mp hx with hx | hx
            · exact hx ▸ hc
            · exact hw x hx
          · simpa [Nat.add_assoc, Nat.add_comm 1] using hk
        · simp [run_atom_cons, hc] at hr
    cases g with
    | true =>
      simp only [starLoop, if_true] at h
      split at h
      · rename_i r' hr'
        simp only [Option.some.injEq] at h; subst h
        exact hbody _ hr'
      · exact ⟨[], s, rfl, by simp, by simpa using h⟩
    | false =>
      simp only [starLoop, Bool.false_eq_true, if_false] at h
      split at h
      · rename_i r' hr'
        simp only [Option.some.injEq] at h; subst h
        exact ⟨[], s, rfl, by simp, by simpa using hr'⟩
      · exact hbody _ h

theorem searchFrom_of_run (p : Pattern) (pos : Nat) (s : JSString) (r : MState)
    (h : p.re.run p.ignoreCase ⟨pos, s, []⟩ some = some r) : searchFrom p pos s = some r := by
  cases s with
  | nil => simpa [searchFrom] using h
  | cons c cs => simp [searchFrom, h]

/-- A successful search succeeded at some index, on the suffix there. -/
theorem searchFrom_inv (p : Pattern) (s : JSString) :
    ∀ (pos : Nat) (r : MState), searchFrom p pos s = some r →
      ∃ pre suf, s = pre ++ suf ∧
        p.re.run p.ignoreCase ⟨pos + pre.length, suf, []⟩ some = some r := by
  induction s with
  | nil =>
    intro pos r h
    exact ⟨[], [], rfl, by simpa [searchFrom] using h⟩
  | cons c cs ih =>
    intro pos r h
    simp only [searchFrom] at h
    split at h
    · rename_i r' hr'
      simp only [Option.some.injEq] at h; subst h
      exact ⟨[], c :: cs, rfl, by simpa using hr'⟩
    · obtain ⟨pre, suf, hs, hr⟩ := ih (pos + 1) r h
      exact ⟨c :: pre, suf, by simp [hs], by
        simpa [Nat.add_assoc, Nat.add_comm 1] using hr⟩

theorem run_wsStar_fwd (ic : Bool) (w rest : JSString) (p : Nat) (caps : List (Nat × JSString))
    (k : Cont) (r : MState) (hw : ∀ c ∈ w, isWhiteSpace c = true)
    (hrest : ∀ c, rest.head? = some c → isWhiteSpace c = false)
    (hk : k ⟨p + w.length, rest, caps⟩ = some r) :
    wsStar.run ic ⟨p, w ++ rest, caps⟩ k = some r := by
  show starLoop true (Regex.run ic (.atom .space)) (w ++ rest).length ⟨p, w ++ rest, caps⟩ k = some r
  exact starLoop_greedy_atom ic .space w _ p rest caps k r hw (by simp) hrest hk

theorem run_group (ic : Bool) (i : Nat) (re : Regex) (st : MState) (k : Cont) :
    Regex.run ic (.group i re) st k =
      re.run ic st (fun st' =>
        k ⟨st'.pos, st'.rest, (i, st.rest.take (st'.pos - st.pos)) :: st'.caps⟩) := rfl

theorem run_seq (ic : Bool) (a b : Regex) (st : MState) (k : Cont) :
    Regex.run ic (.seq a b) st k = a.run ic st (fun st' => b.run ic st' k) := rfl

theorem take_add_sub (p : Nat) (T rest : JSString) :
    (T ++ rest).take (p + T.length - p) = T := by
  rw [Nat.add_sub_cancel_left]; simp

/-- The closing part `[\)\]]?$` fails while two or more characters remain. -/
theorem run_close_long (s : JSString) (hs : 2 ≤ s.length) (p : Nat)
    (caps : List (Nat × JSString)) (k : Cont) :
    Regex.run false (.seq (opt (.atom (.oneOf [.chr ')', .chr ']']))) .eol) ⟨p, s, caps⟩ k
      = none := by
  match s, hs with
  | c1 :: c2 :: s', _ =>
    by_cases h : Atom.test false c1 (.oneOf [.chr ')', .chr ']']) = true
    · simp [opt, Regex.run, h]
    · simp [opt, Regex.run, h]

/-- The closing part `[\)\]]?$` on a final `)`. -/
theorem run_close_paren (p : Nat) (caps : List (Nat × JSString)) (k : Cont) (r : MState)
    (hk : k ⟨p + 1, [], caps⟩ = some r) :
    Regex.run false (.seq (opt (.atom (.oneOf [.chr ')', .chr ']']))) .eol)
      ⟨p, [')'], caps⟩ k = some r := by
  simp [opt, Regex.run, Atom.test, ClassItem.test, hk]

theorem run_star (ic g : Bool) (re : Regex) (st : MState) (k : Cont) :
    Regex.run ic (.star g re) st k = starLoop g (re.run ic) st.rest.length st k := rfl

theorem run_opt_atom_fwd (ic : Bool) (a : Atom) (c : Char) (cs : JSString) (p : Nat)
    (caps : List (Nat × JSString)) (k : Cont) (r : MState) (hc : a.test ic c = true)
    (hk : k ⟨p + 1, cs, caps⟩ = some r) :
    Regex.run ic (opt (.atom a)) ⟨p, c :: cs, caps⟩ k = some r := by
  simp [opt, Regex.run, hc, hk]

/-- The trailing part of `timeRangePattern1` on optional white space and a
parenthesised description without line terminators. -/
theorem run_timeRangeTail_paren (w3 D : JSString) (p : Nat) (caps : List (Nat × JSString))
    (k : Cont) (r : MState) (hw3 : ∀ c ∈ w3, isWhiteSpace c = true)
    (hD : ∀ c ∈ D, isLineTerminator c = false)
    (hk : k ⟨p + w3.length + 1 + D.length + 1, [], (3, D) :: caps⟩ = some r) :
    timeRangeTail.run false ⟨p, w3 ++ '(' :: (D ++ [')']), caps⟩ k = some r := by
  simp only [timeRangeTail, cat, run_seq]
  apply run_wsStar_fwd _ _ _ _ _ _ _ hw3 (by simp [isWhiteSpace])
  apply run_opt_atom_fwd _ _ _ _ _ _ _ _ (by decide)
  rw [run_group, run_star]
  apply starLoop_lazy_atom false .dot D _ _ [')'] caps _ r
    (by intro c hc; simp [Atom.test, hD c hc]) (by simp)
  · intro w1 c w2 _
    exact run_close_long _ (by simp) _ _ _
  · simp only [take_add_sub]
    exact run_close_paren _ _ _ _ hk

theorem isTimeToken_head {T : JSString} (hT : isTimeToken T = true) :
    ∃ c T', T = c :: T' ∧ isDigit c = true := by
  match T, hT with
  | [h, c, m1, m2], hT =>
    simp only [isTimeToken, Bool.and_eq_true] at hT
    exact ⟨h, _, rfl, hT.1.1.1⟩
  | [h1, h2, c, m1, m2], hT =>
    simp only [isTimeToken, Bool.and_eq_true] at hT
    exact ⟨h1, _, rfl, hT.1.1.1.1⟩

theorem isTimeToken_head_not_ws {T rest : JSString} (hT : isTimeToken T = true) :
    ∀ c, (T ++ rest).head? = some c → isWhiteSpace c = false := by
  obtain ⟨c, T', rfl, hc⟩ := isTimeToken_head hT
  intro x hx
  simp at hx
  exact hx ▸ isDigit_not_ws hc

/-- The leading part of `timeRangePattern1` on a time, optional white space, a
hyphen or en dash, optional white space and a time. -/
theorem run_timeRangeHead_fwd (S w1 w2 E rest : JSString) (dash : Char) (p : Nat)
    (caps : List (Nat × JSString)) (k : Cont) (r : MState)
    (hS : isTimeToken S = true) (hE : isTimeToken E = true)
    (hdash : dash = '-' ∨ dash = '–')
    (hw1 : ∀ c ∈ w1, isWhiteSpace c = true) (hw2 : ∀ c ∈ w2, isWhiteSpace c = true)
    (hk : k ⟨p + S.length + w1.length + 1 + w2.length + E.length, rest,
      (2, E) :: (1, S) :: caps⟩ = some r) :
    timeRangeHead.run false ⟨p, S ++ (w1 ++ dash :: (w2 ++ (E ++ rest))), caps⟩ k = some r := by
  have hdw : isWhiteSpace dash = false := by
    rcases hdash with h | h <;> subst h <;> decide
  have hdt : Atom.test false dash (.oneOf [.chr '-', .chr '–']) = true := by
    rcases hdash with h | h <;> subst h <;> decide
  simp only [timeRangeHead, cat, run_seq, run_group]
  rw [run_timeToken S _ hS]
  simp only [take_add_sub]
  apply run_wsStar_fwd _ _ _ _ _ _ _ hw1 (by intro c hc; simp at hc; exact hc ▸ hdw)
  rw [run_atom_cons, if_pos hdt]
  apply run_wsStar_fwd _ _ _ _ _ _ _ hw2 (isTimeToken_head_not_ws hE)
  rw [run_timeToken E _ hE]
  simp only [take_add_sub]
  exact hk

theorem jsLength_pos_of_ne_nil {s : JSString} (h : s ≠ []) : 0 < jsLength s := by
  cases s with
  | nil => exact absurd rfl h
  | cons c cs => simp only [jsLength]; split <;> omega

/-- `timeRangePattern1` on a line of the shape time, separator, time,
parenthesised description. -/
theorem exec_timeRangePattern1_paren (S w1 w2 E w3 D : JSString) (dash : Char)
    (hS : isTimeToken S = true) (hE : isTimeToken E = true)
    (hdash : dash = '-' ∨ dash = '–')
    (hw1 : ∀ c ∈ w1, isWhiteSpace c = true) (hw2 : ∀ c ∈ w2, isWhiteSpace c = true)
    (hw3 : ∀ c ∈ w3, isWhiteSpace c = true) (hD : ∀ c ∈ D, isLineTerminator c = false) :
    ∃ r, timeRangePattern1.exec (S ++ (w1 ++ dash :: (w2 ++ (E ++ (w3 ++ '(' :: (D ++ [')']))))))
        = some r ∧ r.capture 1 = S ∧ r.capture 2 = E ∧ r.capture 3 = D := by
  refine ⟨⟨0 + S.length + w1.length + 1 + w2.length + E.length + w3.length + 1 + D.length + 1,
    [], [(3, D), (2, E), (1, S)]⟩, ?_, by simp [MState.capture], by simp [MState.capture],
    by simp [MState.capture]⟩
  apply searchFrom_of_run
  show Regex.run false (.seq timeRangeHead timeRangeTail) _ _ = _
  rw [run_seq]
  apply run_timeRangeHead_fwd S w1 w2 E _ dash 0 [] _ _ hS hE hdash hw1 hw2
  exact run_timeRangeTail_paren w3 D _ _ _ _ hw3 hD rfl

/-- `parseTaskEntry` on a line of the shape time, separator, time,
parenthesised description, when the description has no line terminator. -/
theorem parseTaskEntry_timeRange_parts (S w1 w2 E w3 D : JSString) (dash : Char)
    (hS : isTimeToken S = true) (hE : isTimeToken E = true)
    (hdash : dash = '-' ∨ dash = '–')
    (hw1 : ∀ c ∈ w1, isWhiteSpace c = true) (hw2 : ∀ c ∈ w2, isWhiteSpace c = true)
    (hw3 : ∀ c ∈ w3, isWhiteSpace c = true)
    (hDlt : ∀ c ∈ D, isLineTerminator c = false)
    (hD : trim D ≠ [])
    (hnoise : isNoise (trim (S ++ w1 ++ [dash] ++ w2 ++ E ++ w3 ++ "(".toList ++ D ++ ")".toList))
      = false) :
    parseTaskEntry (S ++ w1 ++ [dash] ++ w2 ++ E ++ w3 ++ "(".toList ++ D ++ ")".toList) =
      some { fullText := S ++ " - ".toList ++ E ++ " (".toList ++ trim D ++ ")".toList
             timeRange := some (S ++ " - ".toList ++ E)
             taskName := trim D } := by
  have hshape : S ++ w1 ++ [dash] ++ w2 ++ E ++ w3 ++ "(".toList ++ D ++ ")".toList =
      S ++ (w1 ++ dash :: (w2 ++ (E ++ (w3 ++ '(' :: (D ++ [')']))))) := by simp
  rw [hshape] at hnoise ⊢
  have htrim : trim (S ++ (w1 ++ dash :: (w2 ++ (E ++ (w3 ++ '(' :: (D ++ [')'])))))) =
      S ++ (w1 ++ dash :: (w2 ++ (E ++ (w3 ++ '(' :: (D ++ [')']))))) := by
    apply trim_eq_self
    constructor
    · exact isTimeToken_head_not_ws hS
    · intro c hc
      have hl : S ++ (w1 ++ dash :: (w2 ++ (E ++ (w3 ++ '(' :: (D ++ [')']))))) =
          (S ++ (w1 ++ dash :: (w2 ++ (E ++ (w3 ++ '(' :: D))))) ++ [')'] := by simp
      rw [hl, List.getLast?_concat] at hc
      simp only [Option.some.injEq] at hc
      subst hc; decide
  obtain ⟨r, hr, h1, h2, h3⟩ :=
    exec_timeRangePattern1_paren S w1 w2 E w3 D dash hS hE hdash hw1 hw2 hw3 hDlt
  rw [htrim] at hnoise
  have hlen : jsLength (trim D) > 0 := jsLength_pos_of_ne_nil hD
  simp only [parseTaskEntry_def, htrim, hnoise, timeRangeEntry, hr, h1, h2, h3, hlen]
  simp

/-- C1. A line of the form time, optional white space, hyphen or en dash,
optional white space, time, optional white space, `(` description `)`, free
of line terminators, with a description that is non-empty after trimming, and
not discarded by the noise checks, is parsed into the time range
`S - E`, the trimmed description as task name, and the full text
`S - E (description)`. -/
theorem parseTaskEntry_timeRange_line (S w1 w2 E w3 D : JSString) (dash : Char)
    (hS : isTimeToken S = true) (hE : isTimeToken E = true)
    (hdash : dash = '-' ∨ dash = '–')
    (hw1 : ∀ c ∈ w1, isWhiteSpace c = true) (hw2 : ∀ c ∈ w2, isWhiteSpace c = true)
    (hw3 : ∀ c ∈ w3, isWhiteSpace c = true)
    (hline : ∀ c ∈ S ++ w1 ++ [dash] ++ w2 ++ E ++ w3 ++ "(".toList ++ D ++ ")".toList,
      isLineTerminator c = false)
    (hD : trim D ≠ [])
    (hnoise : isNoise (trim (S ++ w1 ++ [dash] ++ w2 ++ E ++ w3 ++ "(".toList ++ D ++ ")".toList))
      = false) :
    parseTaskEntry (S ++ w1 ++ [dash] ++ w2 ++ E ++ w3 ++ "(".toList ++ D ++ ")".toList) =
      some { fullText := S ++ " - ".toList ++ E ++ " (".toList ++ trim D ++ ")".toList
             timeRange := some (S ++ " - ".toList ++ E)
             taskName := trim D } := by
  have hshape : S ++ w1 ++ [dash] ++ w2 ++ E ++ w3 ++ "(".toList ++ D ++ ")".toList =
      S ++ (w1 ++ dash :: (w2 ++ (E ++ (w3 ++ '(' :: (D ++ [')']))))) := by simp
  rw [hshape] at hline hnoise ⊢
  have htrim : trim (S ++ (w1 ++ dash :: (w2 ++ (E ++ (w3 ++ '(' :: (D ++ [')'])))))) =
      S ++ (w1 ++ dash :: (w2 ++ (E ++ (w3 ++ '(' :: (D ++ [')']))))) := by
    apply trim_eq_self
    constructor
    · exact isTimeToken_head_not_ws hS
    · intro c hc
      have hl : S ++ (w1 ++ dash :: (w2 ++ (E ++ (w3 ++ '(' :: (D ++ [')']))))) =
          (S ++ (w1 ++ dash :: (w2 ++ (E ++ (w3 ++ '(' :: D))))) ++ [')'] := by simp
      rw [hl, List.getLast?_concat] at hc
      simp only [Option.some.injEq] at hc
      subst hc; decide
  have hDlt : ∀ c ∈ D, isLineTerminator c = false := fun c hc => hline c (by simp [hc])
  obtain ⟨r, hr, h1, h2, h3⟩ :=
    exec_timeRangePattern1_paren S w1 w2 E w3 D dash hS hE hdash hw1 hw2 hw3 hDlt
  rw [htrim] at hnoise
  have hlen : jsLength (trim D) > 0 := jsLength_pos_of_ne_nil hD
  simp only [parseTaskEntry_def, htrim, hnoise, timeRangeEntry, hr, h1, h2, h3, hlen]
  simp

set_option maxRecDepth 100000 in
/-- C1, at the line `8:30 - 10:30 (Fullstack work IDK)`. -/
theorem parseTaskEntry_timeRange_line_witness :
    isNoise (trim "8:30 - 10:30 (Fullstack work IDK)".toList) = false ∧
    parseTaskEntry "8:30 - 10:30 (Fullstack work IDK)".toList =
      some { fullText := "8:30 - 10:30 (Fullstack work IDK)".toList
             timeRange := some "8:30 - 10:30".toList
             taskName := "Fullstack work IDK".toList } :=
  ⟨by decide,
   parseTaskEntry_timeRange_line "8:30".toList " ".toList " ".toList "10:30".toList " ".toList
    "Fullstack work IDK".toList '-' (by decide) (by decide) (Or.inl rfl) (by decide) (by decide)
    (by decide) (by decide) (by decide) (by decide)⟩

/-! ### Inversion and monotonicity of the matcher -/

theorem run_atom_inv (ic : Bool) (a : Atom) (p : Nat) (s : JSString)
    (caps : List (Nat × JSString)) (k : Cont) (r : MState)
    (h : Regex.run ic (.atom a) ⟨p, s, caps⟩ k = some r) :
    ∃ c cs, s = c :: cs ∧ a.test ic c = true ∧ k ⟨p + 1, cs, caps⟩ = some r := by
  cases s with
  | nil => simp [run_atom_nil] at h
  | cons c cs =>
    rw [run_atom_cons] at h
    by_cases hc : a.test ic c = true
    · rw [if_pos hc] at h; exact ⟨c, cs, rfl, hc, h⟩
    · rw [if_neg hc] at h; simp at h

theorem run_alt_inv (ic : Bool) (a b : Regex) (st : MState) (k : Cont) (r : MState)
    (h : Regex.run ic (.alt a b) st k = some r) :
    a.run ic st k = some r ∨ b.run ic st k = some r := by
  simp only [Regex.run] at h
  split at h
  · rename_i r' hr'
    simp only [Option.some.injEq] at h; subst h
    exact Or.inl hr'
  · exact Or.inr h

theorem run_empty (ic : Bool) (st : MState) (k : Cont) : Regex.run ic .empty st k = k st := rfl

theorem starLoop_isSome_mono (g : Bool) (body : MState → Cont → Option MState)
    (hbody : ∀ st k k', (∀ st', (k st').isSome = true → (k' st').isSome = true) →
      (body st k).isSome = true → (body st k').isSome = true) :
    ∀ (n : Nat) (st : MState) (k k' : Cont),
      (∀ st', (k st').isSome = true → (k' st').isSome = true) →
      (starLoop g body n st k).isSome = true → (starLoop g body n st k').isSome = true := by
  intro n
  induction n with
  | zero => intro st k k' hk h; simpa [starLoop] using hk st (by simpa [starLoop] using h)
  | succ n ih =>
    intro st k k' hk h
    have hiter : (body st (fun st' => if st.pos < st'.pos then starLoop g body n st' k
          else none)).isSome = true →
        (body st (fun st' => if st.pos < st'.pos then starLoop g body n st' k'
          else none)).isSome = true := by
      apply hbody
      intro st' hst'
      by_cases hlt : st.pos < st'.pos
      · simp only [hlt, if_true] at hst' ⊢
        exact ih st' k k' hk hst'
      · simp [hlt] at hst'
    cases g with
    | true =>
      simp only [starLoop, if_true] at h ⊢
      cases hb : body st (fun st' => if st.pos < st'.pos then starLoop true body n st' k
          else none) with
      | some x =>
        have := hiter (by rw [hb]; rfl)
        cases hb' : body st (fun st' => if st.pos < st'.pos then starLoop true body n st' k'
          else none) with
        | some y => simp
        | none => rw [hb'] at this; simp at this
      | none =>
        rw [hb] at h
        have hk' := hk st (by simpa using h)
        cases hb' : body st (fun st' => if st.pos < st'.pos then starLoop true body n st' k'
          else none) with
        | some y => simp
        | none => simpa using hk'
    | false =>
      simp only [starLoop, Bool.false_eq_true, if_false] at h ⊢
      cases hb : k st with
      | some x =>
        have := hk st (by rw [hb]; rfl)
        cases hb' : k' st with
        | some y => simp
        | none => rw [hb'] at this; simp at this
      | none =>
        rw [hb] at h
        have h2 := hiter (by simpa using h)
        cases hb' : k' st with
        | some y => simp
        | none => simpa using h2

/-- If a pattern succeeds with one continuation, it succeeds with every
continuation that accepts at least as much. -/
theorem run_isSome_mono (ic : Bool) (re : Regex) :
    ∀ (st : MState) (k k' : Cont),
      (∀ st', (k st').isSome = true → (k' st').isSome = true) →
      (re.run ic st k).isSome = true → (re.run ic st k').isSome = true := by
  induction re with
  | empty => intro st k k' hk h; exact hk st h
  | atom a =>
    intro st k k' hk h
    obtain ⟨p, s, caps⟩ := st
    cases s with
    | nil => simp [run_atom_nil] at h
    | cons c cs =>
      rw [run_atom_cons] at h ⊢
      by_cases hc : a.test ic c = true
      · rw [if_pos hc] at h ⊢; exact hk _ h
      · rw [if_neg hc] at h; simp at h
  | bol =>
    intro st k k' hk h
    simp only [Regex.run] at h ⊢
    split
    · rename_i hp; rw [if_pos hp] at h; exact hk _ h
    · rename_i hp; rw [if_neg hp] at h; simp at h
  | eol =>
    intro st k k' hk h
    obtain ⟨p, s, caps⟩ := st
    cases s with
    | nil => simp only [Regex.run] at h ⊢; exact hk _ h
    | cons c cs => simp [Regex.run] at h
  | seq a b iha ihb =>
    intro st k k' hk h
    rw [run_seq] at h ⊢
    exact iha st _ _ (fun st' hst' => ihb st' k k' hk hst') h
  | alt a b iha ihb =>
    intro st k k' hk h
    simp only [Regex.run] at h ⊢
    cases ha : a.run ic st k with
    | some x =>
      have := iha st k k' hk (by rw [ha]; rfl)
      cases ha' : a.run ic st k' with
      | some y => simp
      | none => rw [ha'] at this; simp at this
    | none =>
      rw [ha] at h
      have hb := ihb st k k' hk (by simpa using h)
      cases ha' : a.run ic st k' with
      | some y => simp
      | none => simpa using hb
  | star g re ih =>
    intro st k k' hk h
    rw [run_star] at h ⊢
    exact starLoop_isSome_mono g (re.run ic) ih _ st k k' hk h
  | group i re ih =>
    intro st k k' hk h
    rw [run_group] at h ⊢
    exact ih st _ _ (fun st' hst' => hk _ hst') h

/-- Where the leading part of a concatenation matches nowhere, the
concatenation matches nowhere. -/
theorem searchFrom_seq_none (ic : Bool) (a b : Regex) (s : JSString) :
    ∀ pos, searchFrom ⟨a, ic⟩ pos s = none → searchFrom ⟨.seq a b, ic⟩ pos s = none := by
  have key : ∀ st, a.run ic st some = none → Regex.run ic (.seq a b) st some = none := by
    intro st h
    rw [run_seq]
    by_contra hne
    have hs : (a.run ic st (fun st' => b.run ic st' some)).isSome = true := by
      cases hx : a.run ic st (fun st' => b.run ic st' some) with
      | some x => rfl
      | none => exact absurd hx hne
    have := run_isSome_mono ic a st _ some (fun _ _ => rfl) hs
    rw [h] at this; simp at this
  induction s with
  | nil => intro pos h; simp only [searchFrom] at h ⊢; exact key _ h
  | cons c cs ih =>
    intro pos h
    simp only [searchFrom] at h ⊢
    cases hx : a.run ic ⟨pos, c :: cs, []⟩ some with
    | some x => rw [hx] at h; simp at h
    | none =>
      rw [hx] at h
      rw [key _ hx]
      exact ih _ h

/-! ### The single-time pattern -/

theorem starLoop_greedy_atom_end (ic : Bool) (a : Atom) (w : JSString) (n p : Nat)
    (caps : List (Nat × JSString)) (k : Cont) (r : MState)
    (hw : ∀ c ∈ w, a.test ic c = true) (hn : w.length ≤ n)
    (hk : k ⟨p + w.length, [], caps⟩ = some r) :
    starLoop true (Regex.run ic (.atom a)) n ⟨p, w, caps⟩ k = some r := by
  have := starLoop_greedy_atom ic a w n p [] caps k r hw hn (by simp) hk
  simpa using this

/-- `singleTimePattern` on a time, white space and a text without line
terminators that starts with a non-blank character. -/
theorem exec_singleTimePattern_fwd (T w N : JSString) (hT : isTimeToken T = true)
    (hw : ∀ c ∈ w, isWhiteSpace c = true) (hwne : w ≠ [])
    (hN : ∀ c ∈ N, isLineTerminator c = false) (hNne : N ≠ [])
    (hNhead : ∀ c, N.head? = some c → isWhiteSpace c = false) :
    ∃ r, singleTimePattern.exec (T ++ (w ++ N)) = some r ∧ r.capture 1 = T ∧
      r.capture 2 = N := by
  obtain ⟨c, w', rfl⟩ := List.exists_cons_of_ne_nil hwne
  obtain ⟨n, N', rfl⟩ := List.exists_cons_of_ne_nil hNne
  refine ⟨⟨0 + T.length + 1 + w'.length + 1 + N'.length, [], [(2, n :: N'), (1, T)]⟩, ?_,
    by simp [MState.capture], by simp [MState.capture]⟩
  apply searchFrom_of_run
  show Regex.run false (cat [.group 1 timeToken, wsPlus, .group 2 (plus (.atom .dot))]) _ _ = _
  simp only [cat, run_seq, run_group, wsPlus, plus, ws]
  rw [run_timeToken T _ hT]
  simp only [take_add_sub]
  rw [List.cons_append, run_atom_cons,
    if_pos (show Atom.test false c .space = true from hw c (by simp))]
  apply run_wsStar_fwd _ _ _ _ _ _ _ (fun x hx => hw x (by simp [hx])) hNhead
  rw [run_atom_cons,
    if_pos (show Atom.test false n .dot = true by simp [Atom.test, hN n (by simp)]), run_star]
  apply starLoop_greedy_atom_end false .dot N' _ _ _ _ _
    (by intro x hx; simp [Atom.test, hN x (by simp [hx])]) (by simp)
  have hpos : 0 + T.length + 1 + w'.length + 1 + N'.length - (0 + T.length + 1 + w'.length)
      = N'.length + 1 := by omega
  simp only [hpos]
  simp

theorem run_timeToken_inv (p : Nat) (s : JSString) (caps : List (Nat × JSString)) (k : Cont)
    (r : MState) (h : timeToken.run false ⟨p, s, caps⟩ k = some r) :
    ∃ T rest, s = T ++ rest ∧ isTimeToken T = true ∧ k ⟨p + T.length, rest, caps⟩ = some r := by
  simp only [timeToken, cat, opt, d, ch, run_seq] at h
  obtain ⟨c1, s1, rfl, t1, h⟩ := run_atom_inv _ _ _ _ _ _ _ h
  have t1' : isDigit c1 = true := t1
  rcases run_alt_inv _ _ _ _ _ _ h with h | h
  · obtain ⟨c2, s2, rfl, t2, h⟩ := run_atom_inv _ _ _ _ _ _ _ h
    obtain ⟨c3, s3, rfl, t3, h⟩ := run_atom_inv _ _ _ _ _ _ _ h
    obtain ⟨c4, s4, rfl, t4, h⟩ := run_atom_inv _ _ _ _ _ _ _ h
    obtain ⟨c5, s5, rfl, t5, h⟩ := run_atom_inv _ _ _ _ _ _ _ h
    have t2' : isDigit c2 = true := t2
    have t3' : (c3.toNat == 58) = true := t3
    have t4' : isDigit c4 = true := t4
    have t5' : isDigit c5 = true := t5
    exact ⟨[c1, c2, c3, c4, c5], s5, rfl, by simp [isTimeToken, t1', t2', t3', t4', t5'], h⟩
  · rw [run_empty] at h
    obtain ⟨c3, s3, rfl, t3, h⟩ := run_atom_inv _ _ _ _ _ _ _ h
    obtain ⟨c4, s4, rfl, t4, h⟩ := run_atom_inv _ _ _ _ _ _ _ h
    obtain ⟨c5, s5, rfl, t5, h⟩ := run_atom_inv _ _ _ _ _ _ _ h
    have t3' : (c3.toNat == 58) = true := t3
    have t4' : isDigit c4 = true := t4
    have t5' : isDigit c5 = true := t5
    exact ⟨[c1, c3, c4, c5], s5, rfl, by simp [isTimeToken, t1', t3', t4', t5'], h⟩

theorem run_wsStar_inv (ic : Bool) (p : Nat) (s : JSString) (caps : List (Nat × JSString))
    (k : Cont) (r : MState) (h : wsStar.run ic ⟨p, s, caps⟩ k = some r) :
    ∃ w rest, s = w ++ rest ∧ (∀ c ∈ w, isWhiteSpace c = true) ∧
      k ⟨p + w.length, rest, caps⟩ = some r :=
  starLoop_atom_inv true ic .space _ p s caps k r h

/-- A match of the leading part of `timeRangePattern1` consumed a time, white
space, a hyphen or en dash, white space and a time, and recorded the two
times. -/
theorem run_timeRangeHead_inv (p : Nat) (s : JSString) (caps : List (Nat × JSString))
    (k : Cont) (r : MState) (h : timeRangeHead.run false ⟨p, s, caps⟩ k = some r) :
    ∃ S w1 dash w2 E rest, s = S ++ (w1 ++ dash :: (w2 ++ (E ++ rest))) ∧
      isTimeToken S = true ∧ isTimeToken E = true ∧ (dash = '-' ∨ dash = '–') ∧
      (∀ c ∈ w1, isWhiteSpace c = true) ∧ (∀ c ∈ w2, isWhiteSpace c = true) ∧
      k ⟨p + S.length + w1.length + 1 + w2.length + E.length, rest,
        (2, E) :: (1, S) :: caps⟩ = some r := by
  simp only [timeRangeHead, cat, run_seq, run_group] at h
  obtain ⟨S, s1, rfl, hS, h⟩ := run_timeToken_inv _ _ _ _ _ h
  simp only [take_add_sub] at h
  obtain ⟨w1, s2, rfl, hw1, h⟩ := run_wsStar_inv _ _ _ _ _ _ h
  obtain ⟨dash, s3, rfl, hd, h⟩ := run_atom_inv _ _ _ _ _ _ _ h
  obtain ⟨w2, s4, rfl, hw2, h⟩ := run_wsStar_inv _ _ _ _ _ _ h
  obtain ⟨E, s5, rfl, hE, h⟩ := run_timeToken_inv _ _ _ _ _ h
  simp only [take_add_sub] at h
  refine ⟨S, w1, dash, w2, E, s5, rfl, hS, hE, ?_, hw1, hw2, h⟩
  simp only [Atom.test, ClassItem.test, List.any_cons, List.any_nil, Bool.or_false,
    Bool.false_eq_true, if_false, Bool.or_eq_true, beq_iff_eq, toNat_eq_iff] at hd
  exact hd

theorem searchFrom_isSome_of_run (pt : Pattern) (pre : JSString) :
    ∀ (pos : Nat) (suf : JSString),
      (pt.re.run pt.ignoreCase ⟨pos + pre.length, suf, []⟩ some).isSome = true →
      (searchFrom pt pos (pre ++ suf)).isSome = true := by
  induction pre with
  | nil =>
    intro pos suf h
    simp only [List.length_nil, Nat.add_zero] at h
    cases hx : pt.re.run pt.ignoreCase ⟨pos, suf, []⟩ some with
    | none => rw [hx] at h; simp at h
    | some x => simp [searchFrom_of_run pt pos suf x hx]
  | cons c pre ih =>
    intro pos suf h
    simp only [List.cons_append, searchFrom]
    cases hx : pt.re.run pt.ignoreCase ⟨pos, c :: (pre ++ suf), []⟩ some with
    | some x => simp
    | none =>
      apply ih (pos + 1) suf
      simpa [Nat.add_assoc, Nat.add_comm 1] using h

/-- A match of the time-range head in a prefix of a text is a match in the
text. -/
theorem timeRangeHead_test_append (s v : JSString)
    (h : (Pattern.mk timeRangeHead false).test s = true) :
    (Pattern.mk timeRangeHead false).test (s ++ v) = true := by
  unfold Pattern.test Pattern.exec at h ⊢
  cases hx : searchFrom ⟨timeRangeHead, false⟩ 0 s with
  | none => rw [hx] at h; simp at h
  | some r =>
    obtain ⟨pre, suf, rfl, hr⟩ := searchFrom_inv _ _ _ _ hx
    obtain ⟨S, w1, dash, w2, E, rest, rfl, hS, hE, hdash, hw1, hw2, _⟩ :=
      run_timeRangeHead_inv _ _ _ _ _ hr
    have hfw := run_timeRangeHead_fwd S w1 w2 E (rest ++ v) dash (0 + pre.length) [] some _
      hS hE hdash hw1 hw2 rfl
    have := searchFrom_isSome_of_run ⟨timeRangeHead, false⟩ pre 0
      (S ++ (w1 ++ dash :: (w2 ++ (E ++ (rest ++ v))))) (by
        show (timeRangeHead.run false _ some).isSome = true
        rw [hfw]; rfl)
    simpa using this

/-! ### More on `trim` -/

theorem dropWhile_append_of_all (p : Char → Bool) (v x : JSString)
    (hv : ∀ c ∈ v, p c = true) : (v ++ x).dropWhile p = x.dropWhile p := by
  induction v with
  | nil => rfl
  | cons c v ih =>
    simp only [List.cons_append, List.dropWhile_cons, hv c (by simp), if_true]
    exact ih (fun y hy => hv y (by simp [hy]))

/-- Every string is its trimmed text between two runs of white space. -/
theorem trim_decomp (s : JSString) :
    ∃ u v, s = u ++ (trim s ++ v) ∧ (∀ c ∈ u, isWhiteSpace c = true) ∧
      (∀ c ∈ v, isWhiteSpace c = true) := by
  refine ⟨s.takeWhile isWhiteSpace,
    ((s.dropWhile isWhiteSpace).reverse.takeWhile isWhiteSpace).reverse, ?_, ?_, ?_⟩
  · unfold trim
    have h1 := List.takeWhile_append_dropWhile isWhiteSpace s
    have h2 := List.takeWhile_append_dropWhile isWhiteSpace (s.dropWhile isWhiteSpace).reverse
    have h3 : (List.dropWhile isWhiteSpace (List.dropWhile isWhiteSpace s).reverse).reverse ++
        (List.takeWhile isWhiteSpace (List.dropWhile isWhiteSpace s).reverse).reverse =
        s.dropWhile isWhiteSpace := by
      rw [← List.reverse_append, h2, List.reverse_reverse]
    rw [h3, h1]
  · intro c hc
    exact (List.mem_takeWhile_imp hc)
  · intro c hc
    rw [List.mem_reverse] at hc
    exact (List.mem_takeWhile_imp hc)

/-- Trimming a text that starts with a non-blank character and ends with a
non-blank text `n` followed by white space `v` removes `v`. -/
theorem trim_append_ws (x n v : JSString) (hn : n ≠ [])
    (hhead : ∀ c, (x ++ n).head? = some c → isWhiteSpace c = false)
    (hlast : ∀ c, n.getLast? = some c → isWhiteSpace c = false)
    (hv : ∀ c ∈ v, isWhiteSpace c = true) : trim (x ++ (n ++ v)) = x ++ n := by
  have htr : isTrimmed (x ++ n) := by
    refine ⟨hhead, ?_⟩
    intro c hc
    rw [List.getLast?_append_of_ne_nil _ hn] at hc
    exact hlast c hc
  have h1 : (x ++ (n ++ v)).dropWhile isWhiteSpace = x ++ (n ++ v) := by
    apply dropWhile_eq_self_of_head
    intro c hc
    apply hhead
    cases hx : x ++ n with
    | nil => simp at hx; exact absurd hx.2 hn
    | cons a l =>
      have : x ++ (n ++ v) = a :: (l ++ v) := by rw [← List.append_assoc, hx]; rfl
      rw [this] at hc
      simpa using hc
  unfold trim
  rw [h1]
  have h2 : (x ++ (n ++ v)).reverse = v.reverse ++ (x ++ n).reverse := by simp
  rw [h2, dropWhile_append_of_all _ _ _ (fun c hc => hv c (List.mem_reverse.mp hc)),
    dropWhile_eq_self_of_head _ _ (by
      intro c hc
      rw [List.head?_reverse] at hc
      exact htr.2 c hc)]
  simp

/-! ### `/^(am|pm)$/i` -/

theorem canonicalize_lt {c e : Char} (h : canonicalize c = canonicalize e)
    (he : e.toNat < 128) : c.toNat < 128 := by
  unfold canonicalize at h
  split at h <;> split at h <;> omega

theorem run_bol (ic : Bool) (st : MState) (k : Cont) :
    Regex.run ic .bol st k = if st.pos = 0 then k st else none := rfl

theorem run_eol_cons (ic : Bool) (p : Nat) (c : Char) (cs : JSString)
    (caps : List (Nat × JSString)) (k : Cont) :
    Regex.run ic .eol ⟨p, c :: cs, caps⟩ k = none := rfl

theorem run_eol_nil (ic : Bool) (p : Nat) (caps : List (Nat × JSString)) (k : Cont) :
    Regex.run ic .eol ⟨p, [], caps⟩ k = k ⟨p, [], caps⟩ := rfl

/-- A text of more than two code units is not matched by `/^(am|pm)$/i`. -/
theorem amPm_test_false (s : JSString) (hs : 2 < jsLength s) : amPmPattern.test s = false := by
  unfold Pattern.test Pattern.exec
  cases hx : searchFrom amPmPattern 0 s with
  | none => rfl
  | some r =>
    exfalso
    obtain ⟨pre, suf, rfl, hr⟩ := searchFrom_inv _ _ _ _ hx
    simp only [amPmPattern, cat, run_seq, run_group, anyOf, str] at hr
    rw [run_bol] at hr
    have hpre : pre = [] := by
      cases pre with
      | nil => rfl
      | cons a l => simp at hr
    subst hpre
    simp only [List.length_nil, Nat.add_zero, if_true] at hr
    have hlen : ∀ (c1 c2 : Char) (e1 e2 : Char), e1.toNat < 128 → e2.toNat < 128 →
        canonicalize c1 = canonicalize e1 → canonicalize c2 = canonicalize e2 →
        ¬ 2 < jsLength [c1, c2] := by
      intro c1 c2 e1 e2 he1 he2 h1 h2
      have := canonicalize_lt h1 he1
      have := canonicalize_lt h2 he2
      simp only [jsLength]
      split <;> split <;> omega
    rcases run_alt_inv _ _ _ _ _ _ hr with h | h
    · simp only [String.toList, lits, run_seq] at h
      obtain ⟨c1, s1, hs1, t1, h⟩ := run_atom_inv _ _ _ _ _ _ _ h
      obtain ⟨c2, s2, rfl, t2, h⟩ := run_atom_inv _ _ _ _ _ _ _ h
      cases s2 with
      | cons a l => simp [run_eol_cons] at h
      | nil =>
        subst hs1
        simp only [Atom.test, if_true, beq_iff_eq] at t1 t2
        exact hlen _ _ _ _ (by decide) (by decide) t1 t2 hs
    · simp only [String.toList, lits, run_seq] at h
      obtain ⟨c1, s1, hs1, t1, h⟩ := run_atom_inv _ _ _ _ _ _ _ h
      obtain ⟨c2, s2, rfl, t2, h⟩ := run_atom_inv _ _ _ _ _ _ _ h
      cases s2 with
      | cons a l => simp [run_eol_cons] at h
      | nil =>
        subst hs1
        simp only [Atom.test, if_true, beq_iff_eq] at t1 t2
        exact hlen _ _ _ _ (by decide) (by decide) t1 t2 hs

theorem exec_timeRangePattern1_none (s : JSString)
    (h : (Pattern.mk timeRangeHead false).test s = false) :
    timeRangePattern1.exec s = none := by
  unfold Pattern.test Pattern.exec at h
  have h' : searchFrom ⟨timeRangeHead, false⟩ 0 s = none := by
    cases hx : searchFrom ⟨timeRangeHead, false⟩ 0 s with
    | none => rfl
    | some r => rw [hx] at h; simp at h
  exact searchFrom_seq_none false timeRangeHead timeRangeTail s 0 h'

theorem timeRangeEntry_none_of_exec {s : JSString} (h : timeRangePattern1.exec s = none) :
    timeRangeEntry s = none := by
  simp [timeRangeEntry, h]

/-- The single-time pattern on a trimmed-apart line: time `T`, white space
`w ++ u`, text `n`, white space `v`. -/
theorem parseTaskEntry_singleTime_parts (lower : JSString → JSString) (T w u n v : JSString)
    (hT : isTimeToken T = true) (hw : ∀ c ∈ w, isWhiteSpace c = true) (hwne : w ≠ [])
    (hu : ∀ c ∈ u, isWhiteSpace c = true) (hv : ∀ c ∈ v, isWhiteSpace c = true)
    (hn : ∀ c ∈ n, isLineTerminator c = false) (hnt : isTrimmed n) (hlen : 2 < jsLength n)
    (hrange : (Pattern.mk timeRangeHead false).test (T ++ (w ++ (u ++ (n ++ v)))) = false)
    (hnoise : isNoiseWith lower (trim (T ++ (w ++ (u ++ (n ++ v))))) = false) :
    parseTaskEntryWith lower (T ++ (w ++ (u ++ (n ++ v)))) =
      some { fullText := T ++ " (".toList ++ n ++ ")".toList
             timeRange := some T
             taskName := n } := by
  have hnne : n ≠ [] := ne_nil_of_jsLength_pos (by omega)
  have hshape : T ++ (w ++ (u ++ (n ++ v))) = (T ++ (w ++ u)) ++ (n ++ v) := by simp
  have htrim : trim (T ++ (w ++ (u ++ (n ++ v)))) = T ++ ((w ++ u) ++ n) := by
    rw [hshape, trim_append_ws _ n v hnne _ hnt.2 hv]
    · simp
    · have := @isTimeToken_head_not_ws T ((w ++ u) ++ n) hT
      simpa using this
  have hrange' : (Pattern.mk timeRangeHead false).test (T ++ ((w ++ u) ++ n)) = false := by
    by_contra hc
    have ht := timeRangeHead_test_append (T ++ ((w ++ u) ++ n)) v (by simpa using hc)
    have heq : T ++ ((w ++ u) ++ n) ++ v = T ++ (w ++ (u ++ (n ++ v))) := by simp
    rw [heq, hrange] at ht
    simp at ht
  have h1 : timeRangeEntry (T ++ ((w ++ u) ++ n)) = none :=
    timeRangeEntry_none_of_exec (exec_timeRangePattern1_none _ hrange')
  obtain ⟨r, hr, hc1, hc2⟩ := exec_singleTimePattern_fwd T (w ++ u) n hT
    (by intro c hc; rcases List.mem_append.mp hc with h | h
        · exact hw c h
        · exact hu c h)
    (by simp [hwne]) hn hnne hnt.1
  have h2 : singleTimeEntry (T ++ ((w ++ u) ++ n)) =
      some { fullText := T ++ " (".toList ++ n ++ ")".toList
             timeRange := some T
             taskName := n } := by
    simp only [singleTimeEntry, hr, hc1, hc2, trim_eq_self hnt, amPm_test_false n hlen]
    simp [hlen]
  rw [htrim] at hnoise
  simp only [parseTaskEntryWith, htrim, hnoise, h1, h2]
  simp

set_option maxRecDepth 100000 in
/-- C2 fails as stated: the line `8:30 Gym`, carriage return, `class` is a
time token, white space and the text `R` = `Gym`, carriage return, `class`;
it holds no time range, `R` trimmed is `R` itself, longer than 2 and neither
`am` nor `pm`, and the noise checks let the line pass; yet the task name is
`Gym`, not `R` trimmed, because `.+` stops at the carriage return. -/
theorem singleTime_line_stops_at_terminator :
    isTimeToken "8:30".toList = true ∧
    (∀ c ∈ " ".toList, isWhiteSpace c = true) ∧
    (Pattern.mk timeRangeHead false).test
      ("8:30".toList ++ " ".toList ++ "Gym\rclass".toList) = false ∧
    trim "Gym\rclass".toList = "Gym\rclass".toList ∧
    2 < jsLength (trim "Gym\rclass".toList) ∧
    amPmPattern.test (trim "Gym\rclass".toList) = false ∧
    isNoise (trim ("8:30".toList ++ " ".toList ++ "Gym\rclass".toList)) = false ∧
    parseTaskEntry ("8:30".toList ++ " ".toList ++ "Gym\rclass".toList) =
      some { fullText := "8:30 (Gym)".toList
             timeRange := some "8:30".toList
             taskName := "Gym".toList } ∧
    "Gym".toList ≠ trim "Gym\rclass".toList := by
  decide

/-- C2, amended. A line of the form time, white space, text, in which no
time-range pattern occurs, whose text trimmed is longer than 2 and holds no
line terminator (carriage return, line feed, U+2028, U+2029), and which the
noise checks do not discard, is parsed into the time as time range, the
trimmed text as task name, and the full text `T (text)`, whatever the
`toLowerCase` of the runtime is.  Line terminators in the white space after
the time or around the text do no harm.  That the text is not `am` or `pm`
follows from its length. -/
theorem parseTaskEntry_singleTime_line (lower : JSString → JSString) (T w R : JSString)
    (hT : isTimeToken T = true) (hw : ∀ c ∈ w, isWhiteSpace c = true) (hwne : w ≠ [])
    (hline : ∀ c ∈ trim R, isLineTerminator c = false)
    (hrange : (Pattern.mk timeRangeHead false).test (T ++ w ++ R) = false)
    (hlen : 2 < jsLength (trim R))
    (hnoise : isNoiseWith lower (trim (T ++ w ++ R)) = false) :
    parseTaskEntryWith lower (T ++ w ++ R) =
      some { fullText := T ++ " (".toList ++ trim R ++ ")".toList
             timeRange := some T
             taskName := trim R } := by
  obtain ⟨u, v, hR, hu, hv⟩ := trim_decomp R
  have hshape : T ++ w ++ R = T ++ (w ++ (u ++ (trim R ++ v))) := by
    rw [← hR]; simp
  rw [hshape] at hrange hnoise
  have := parseTaskEntry_singleTime_parts lower T w u (trim R) v hT hw hwne hu hv hline
    (isTrimmed_trim R) hlen hrange hnoise
  rw [← hshape] at this
  exact this

set_option maxRecDepth 100000 in
/-- C2 amended, with the tabulated `toLowerCase`, at the line `8:30 Gym`, and
at the line `8:30`, a line feed and a space, `Gym class` and a trailing
carriage return, whose line terminators lie in the white space. -/
theorem parseTaskEntry_singleTime_line_witness :
    (Pattern.mk timeRangeHead false).test "8:30 Gym".toList = false ∧
    isNoiseWith toLowerCase (trim "8:30 Gym".toList) = false ∧
    parseTaskEntryWith toLowerCase "8:30 Gym".toList =
      some { fullText := "8:30 (Gym)".toList
             timeRange := some "8:30".toList
             taskName := "Gym".toList } ∧
    (Pattern.mk timeRangeHead false).test "8:30\n Gym class\r".toList = false ∧
    isNoiseWith toLowerCase (trim "8:30\n Gym class\r".toList) = false ∧
    trim "Gym class\r".toList = "Gym class".toList ∧
    parseTaskEntryWith toLowerCase "8:30\n Gym class\r".toList =
      some { fullText := "8:30 (Gym class)".toList
             timeRange := some "8:30".toList
             taskName := "Gym class".toList } :=
  ⟨by decide, by decide,
   parseTaskEntry_singleTime_line toLowerCase "8:30".toList " ".toList "Gym".toList (by decide)
    (by decide) (by decide) (by decide) (by decide) (by decide) (by decide),
   by decide, by decide, by decide,
   parseTaskEntry_singleTime_line toLowerCase "8:30".toList "\n ".toList "Gym class\r".toList
    (by decide) (by decide) (by decide) (by decide) (by decide) (by decide) (by decide)⟩

/-! ### Re-parsing a time-range entry -/

theorem mem_of_mem_trim {s : JSString} {c : Char} (h : c ∈ trim s) : c ∈ s := by
  obtain ⟨u, v, hs, _, _⟩ := trim_decomp s
  rw [hs]; simp [h]

/-- A match of the trailing part of `timeRangePattern1` records as group 3 a
text without line terminators, on top of the captures it was given. -/
theorem run_timeRangeTail_inv (p : Nat) (s : JSString) (caps : List (Nat × JSString))
    (r : MState) (h : timeRangeTail.run false ⟨p, s, caps⟩ some = some r) :
    ∃ g, r.caps = (3, g) :: caps ∧ ∀ c ∈ g, isLineTerminator c = false := by
  simp only [timeRangeTail, cat, run_seq, opt] at h
  obtain ⟨w, s1, rfl, _, h⟩ := run_wsStar_inv _ _ _ _ _ _ h
  have hgroup : ∀ (q : Nat) (t : JSString),
      Regex.run false (.group 3 (.star false (.atom .dot))) ⟨q, t, caps⟩
        (fun st' => Regex.run false (.alt (.atom (.oneOf [.chr ')', .chr ']'])) .empty) st'
          (fun st' => Regex.run false .eol st' some)) = some r →
      ∃ g, r.caps = (3, g) :: caps ∧ ∀ c ∈ g, isLineTerminator c = false := by
    intro q t h
    rw [run_group, run_star] at h
    obtain ⟨g, t1, rfl, hg, h⟩ := starLoop_atom_inv _ _ _ _ _ _ _ _ _ h
    simp only [take_add_sub] at h
    have hg' : ∀ c ∈ g, isLineTerminator c = false := by
      intro c hc
      have := hg c hc
      simpa [Atom.test] using this
    have hend : ∀ (q' : Nat) (t' : JSString),
        Regex.run false .eol ⟨q', t', (3, g) :: caps⟩ some = some r →
        r.caps = (3, g) :: caps := by
      intro q' t' h
      cases t' with
      | nil => rw [run_eol_nil] at h; simp only [Option.some.injEq] at h; rw [← h]
      | cons a l => simp [run_eol_cons] at h
    refine ⟨g, ?_, hg'⟩
    rcases run_alt_inv _ _ _ _ _ _ h with h | h
    · obtain ⟨c, cs, hcs, _, h⟩ := run_atom_inv _ _ _ _ _ _ _ h
      exact hend _ _ h
    · rw [run_empty] at h
      exact hend _ _ h
  rcases run_alt_inv _ _ _ _ _ _ h with h | h
  · obtain ⟨c, cs, rfl, _, h⟩ := run_atom_inv _ _ _ _ _ _ _ h
    exact hgroup _ _ h
  · rw [run_empty] at h
    exact hgroup _ _ h

/-- What a match of `timeRangePattern1` captures: two time tokens and a text
without line terminators. -/
theorem exec_timeRangePattern1_inv (s : JSString) (r : MState)
    (h : timeRangePattern1.exec s = some r) :
    isTimeToken (r.capture 1) = true ∧ isTimeToken (r.capture 2) = true ∧
      ∀ c ∈ r.capture 3, isLineTerminator c = false := by
  obtain ⟨pre, suf, _, hr⟩ := searchFrom_inv _ _ _ _ h
  have hr' : Regex.run false (.seq timeRangeHead timeRangeTail) ⟨0 + pre.length, suf, []⟩ some
      = some r := hr
  rw [run_seq] at hr'
  obtain ⟨S, w1, dash, w2, E, rest, _, hS, hE, _, _, _, hk⟩ := run_timeRangeHead_inv _ _ _ _ _ hr'
  obtain ⟨g, hcaps, hg⟩ := run_timeRangeTail_inv _ _ _ _ hk
  simp only [MState.capture, hcaps]
  simp only [List.find?, beq_iff_eq]
  simp [hS, hE]
  exact hg

/-- An entry of the time-range pattern is built from two time tokens and a
trimmed, non-empty task name without line terminators. -/
theorem timeRangeEntry_shape {text : JSString} {e : TaskEntry}
    (h : timeRangeEntry text = some e) :
    ∃ S E, isTimeToken S = true ∧ isTimeToken E = true ∧
      (∀ c ∈ e.taskName, isLineTerminator c = false) ∧ isTrimmed e.taskName ∧
      e.taskName ≠ [] ∧
      e = { fullText := S ++ " - ".toList ++ E ++ " (".toList ++ e.taskName ++ ")".toList
            timeRange := some (S ++ " - ".toList ++ E)
            taskName := e.taskName } := by
  unfold timeRangeEntry at h
  split at h
  · simp at h
  · rename_i match1 hm
    obtain ⟨hS, hE, hg⟩ := exec_timeRangePattern1_inv _ _ hm
    simp only at h
    split at h
    · rename_i hlen
      simp only [Option.some.injEq] at h
      subst h
      exact ⟨match1.capture 1, match1.capture 2, hS, hE,
        fun c hc => hg c (mem_of_mem_trim hc), isTrimmed_trim _,
        ne_nil_of_jsLength_pos hlen, rfl⟩
    · simp at h

set_option maxRecDepth 100000 in
/-- C5 fails as stated: the time-range entry of
`ab cd ef gh 8:30-8:30 - - - - - -` has the full text
`8:30 - 8:30 (- - - - - -)`, which the repetition check discards. -/
theorem timeRange_reparse_discarded :
    parseTaskEntry "ab cd ef gh 8:30-8:30 - - - - - -".toList =
      some { fullText := "8:30 - 8:30 (- - - - - -)".toList
             timeRange := some "8:30 - 8:30".toList
             taskName := "- - - - - -".toList } ∧
    timeRangeEntry (trim "ab cd ef gh 8:30-8:30 - - - - - -".toList) =
      some { fullText := "8:30 - 8:30 (- - - - - -)".toList
             timeRange := some "8:30 - 8:30".toList
             taskName := "- - - - - -".toList } ∧
    mostlyRepeated "8:30 - 8:30 (- - - - - -)".toList = true ∧
    parseTaskEntry "8:30 - 8:30 (- - - - - -)".toList = none := by
  decide

/-- C5, amended. When `parseTaskEntry` returns an entry produced by the
time-range pattern and the noise checks do not discard the entry's full
text, parsing the full text returns the same entry, so the same task name
and time range. -/
theorem parseTaskEntry_timeRange_reparse (text : JSString) (e : TaskEntry)
    (_h : parseTaskEntry text = some e) (h1 : timeRangeEntry (trim text) = some e)
    (hnoise : isNoise (trim e.fullText) = false) :
    parseTaskEntry e.fullText = some e ∧
      ∃ e', parseTaskEntry e.fullText = some e' ∧ e'.taskName = e.taskName ∧
        e'.timeRange = e.timeRange := by
  obtain ⟨S, E, hS, hE, hlt, htr, hne, he⟩ := timeRangeEntry_shape h1
  have hfull : e.fullText =
      S ++ " ".toList ++ ['-'] ++ " ".toList ++ E ++ " ".toList ++ "(".toList ++ e.taskName ++
        ")".toList := by
    rw [he]; simp
  have hre : parseTaskEntry e.fullText = some e := by
    rw [hfull] at hnoise ⊢
    have := parseTaskEntry_timeRange_parts S " ".toList " ".toList E " ".toList e.taskName '-'
      hS hE (Or.inl rfl) (by decide) (by decide) (by decide) hlt
      (by rw [trim_eq_self htr]; exact hne) hnoise
    rw [this, trim_eq_self htr]
    exact congrArg some he.symm
  exact ⟨hre, e, hre, rfl, rfl⟩

set_option maxRecDepth 100000 in
/-- C5 amended, at the input `Mon 8:30-10:30 [Fullstack work IDK]`. -/
theorem parseTaskEntry_timeRange_reparse_witness :
    parseTaskEntry "8:30 - 10:30 (Fullstack work IDK)".toList =
        some { fullText := "8:30 - 10:30 (Fullstack work IDK)".toList
               timeRange := some "8:30 - 10:30".toList
               taskName := "Fullstack work IDK".toList } ∧
      ∃ e', parseTaskEntry "8:30 - 10:30 (Fullstack work IDK)".toList = some e' ∧
        e'.taskName = "Fullstack work IDK".toList ∧
        e'.timeRange = some "8:30 - 10:30".toList :=
  parseTaskEntry_timeRange_reparse "Mon 8:30-10:30 [Fullstack work IDK]".toList
    { fullText := "8:30 - 10:30 (Fullstack work IDK)".toList
      timeRange := some "8:30 - 10:30".toList
      taskName := "Fullstack work IDK".toList } (by decide) (by decide) (by decide)

/-! ### Re-parsing a single-time entry -/

/-- What a match of `singleTimePattern` captures: a time token and a text
without line terminators. -/
theorem exec_singleTimePattern_inv (s : JSString) (r : MState)
    (h : singleTimePattern.exec s = some r) :
    isTimeToken (r.capture 1) = true ∧ ∀ c ∈ r.capture 2, isLineTerminator c = false := by
  obtain ⟨pre, suf, _, hr⟩ := searchFrom_inv _ _ _ _ h
  have hr' : Regex.run false (cat [.group 1 timeToken, wsPlus, .group 2 (plus (.atom .dot))])
      ⟨0 + pre.length, suf, []⟩ some = some r := hr
  simp only [cat, run_seq, run_group, wsPlus, plus, ws] at hr'
  obtain ⟨T, s1, rfl, hT, hr'⟩ := run_timeToken_inv _ _ _ _ _ hr'
  simp only [take_add_sub] at hr'
  obtain ⟨c, s2, rfl, _, hr'⟩ := run_atom_inv _ _ _ _ _ _ _ hr'
  rw [run_star] at hr'
  obtain ⟨w, s3, rfl, _, hr'⟩ := starLoop_atom_inv _ _ _ _ _ _ _ _ _ hr'
  obtain ⟨n, s4, rfl, hn, hr'⟩ := run_atom_inv _ _ _ _ _ _ _ hr'
  rw [run_star] at hr'
  obtain ⟨g, s5, rfl, hg, hr'⟩ := starLoop_atom_inv _ _ _ _ _ _ _ _ _ hr'
  simp only [Option.some.injEq] at hr'
  have htake : List.take (0 + pre.length + T.length + 1 + w.length + 1 + g.length -
      (0 + pre.length + T.length + 1 + w.length)) (n :: (g ++ s5)) = n :: g := by
    have : 0 + pre.length + T.length + 1 + w.length + 1 + g.length -
      (0 + pre.length + T.length + 1 + w.length) = g.length + 1 := by omega
    rw [this]; simp
  rw [htake] at hr'
  subst hr'
  refine ⟨by simp [MState.capture, hT], ?_⟩
  simp only [MState.capture, List.find?, beq_self_eq_true]
  intro x hx
  rcases List.mem_cons.mp hx with hx | hx
  · subst hx; simpa [Atom.test] using hn
  · simpa [Atom.test] using hg x hx

/-- An entry of the single-time pattern is built from a time token and a
trimmed task name of length above 2 without line terminators. -/
theorem singleTimeEntry_shape {text : JSString} {e : TaskEntry}
    (h : singleTimeEntry text = some e) :
    ∃ T, isTimeToken T = true ∧ (∀ c ∈ e.taskName, isLineTerminator c = false) ∧
      isTrimmed e.taskName ∧ 2 < jsLength e.taskName ∧
      e = { fullText := T ++ " (".toList ++ e.taskName ++ ")".toList
            timeRange := some T
            taskName := e.taskName } := by
  unfold singleTimeEntry at h
  split at h
  · simp at h
  · rename_i match2 hm
    obtain ⟨hT, hg⟩ := exec_singleTimePattern_inv _ _ hm
    simp only at h
    split at h
    · rename_i hlen
      simp only [Option.some.injEq] at h
      subst h
      exact ⟨match2.capture 1, hT, fun c hc => hg c (mem_of_mem_trim hc), isTrimmed_trim _,
        hlen.1, rfl⟩
    · simp at h

theorem jsLength_append (a b : JSString) : jsLength (a ++ b) = jsLength a + jsLength b := by
  induction a with
  | nil => simp [jsLength]
  | cons c a ih =>
    show (if c.toNat < 0x10000 then 1 else 2) + jsLength (a ++ b) = _
    rw [ih]; simp only [jsLength]; omega

set_option maxRecDepth 100000 in
/-- C6 fails as stated, at its own witness: the entry of `8:30 Gym` has the
full text `8:30 (Gym)`, and parsing that gives the task name `(Gym)`. -/
theorem singleTime_reparse_changes_taskName :
    parseTaskEntry "8:30 Gym".toList =
      some { fullText := "8:30 (Gym)".toList
             timeRange := some "8:30".toList
             taskName := "Gym".toList } ∧
    singleTimeEntry (trim "8:30 Gym".toList) =
      some { fullText := "8:30 (Gym)".toList
             timeRange := some "8:30".toList
             taskName := "Gym".toList } ∧
    parseTaskEntry "8:30 (Gym)".toList =
      some { fullText := "8:30 ((Gym))".toList
             timeRange := some "8:30".toList
             taskName := "(Gym)".toList } := by
  decide

/-- C6, amended. When `parseTaskEntry` returns an entry produced by the
single-time pattern, and the entry's full text is not discarded by the noise
checks and holds no time-range pattern, parsing the full text returns an
entry with the same time range whose task name is the old one wrapped in
parentheses, hence a different task name. -/
theorem parseTaskEntry_singleTime_reparse (text : JSString) (e : TaskEntry)
    (_h : parseTaskEntry text = some e) (_h1 : timeRangeEntry (trim text) = none)
    (h2 : singleTimeEntry (trim text) = some e)
    (hnoise : isNoise (trim e.fullText) = false)
    (hrange : (Pattern.mk timeRangeHead false).test e.fullText = false) :
    ∃ e', parseTaskEntry e.fullText = some e' ∧ e'.timeRange = e.timeRange ∧
      e'.taskName = "(".toList ++ e.taskName ++ ")".toList ∧ e'.taskName ≠ e.taskName := by
  obtain ⟨T, hT, hlt, htr, hlen, he⟩ := singleTimeEntry_shape h2
  have hfull : e.fullText =
      T ++ (" ".toList ++ ([] ++ (("(".toList ++ e.taskName ++ ")".toList) ++ []))) := by
    rw [he]; simp
  have hn : ∀ c ∈ "(".toList ++ e.taskName ++ ")".toList, isLineTerminator c = false := by
    intro c hc
    simp only [String.toList, List.mem_append, List.mem_singleton] at hc
    rcases hc with (hc | hc) | hc
    · subst hc; decide
    · exact hlt c hc
    · subst hc; decide
  have hnt : isTrimmed ("(".toList ++ e.taskName ++ ")".toList) := by
    constructor
    · intro c hc
      simp [String.toList] at hc
      subst hc; decide
    · intro c hc
      have hp : ")".toList = [')'] := rfl
      rw [hp, List.getLast?_concat] at hc
      simp only [Option.some.injEq] at hc
      subst hc; decide
  have hlen' : 2 < jsLength ("(".toList ++ e.taskName ++ ")".toList) := by
    rw [jsLength_append, jsLength_append]; omega
  rw [hfull] at hnoise hrange
  have : parseTaskEntry (T ++ (" ".toList ++ ([] ++ ("(".toList ++ e.taskName ++ ")".toList
      ++ [])))) = _ :=
    parseTaskEntry_singleTime_parts toLowerCase T " ".toList []
    ("(".toList ++ e.taskName ++ ")".toList)
    [] hT (by decide) (by decide) (by simp) (by simp) hn hnt hlen' hrange hnoise
  rw [← hfull] at this
  refine ⟨_, this, ?_, rfl, ?_⟩
  · rw [he]
  · intro hne
    have := congrArg List.length hne
    simp at this
    omega

set_option maxRecDepth 100000 in
/-- C6 amended, at the input `8:30 Gym`. -/
theorem parseTaskEntry_singleTime_reparse_witness :
    ∃ e', parseTaskEntry "8:30 (Gym)".toList = some e' ∧ e'.timeRange = some "8:30".toList ∧
      e'.taskName = "(".toList ++ "Gym".toList ++ ")".toList ∧ e'.taskName ≠ "Gym".toList :=
  parseTaskEntry_singleTime_reparse "8:30 Gym".toList
    { fullText := "8:30 (Gym)".toList
      timeRange := some "8:30".toList
      taskName := "Gym".toList } (by decide) (by decide) (by decide) (by decide) (by decide)

/-! ### Literal text and the weekday pattern -/

theorem run_lits (ic : Bool) (l : List Char) :
    ∀ (p : Nat) (s : JSString) (caps : List (Nat × JSString)) (k : Cont),
      (lits l).run ic ⟨p, s, caps⟩ k =
        if litsMatch ic l s = true then k ⟨p + l.length, s.drop l.length, caps⟩ else none := by
  induction l with
  | nil => intro p s caps k; simp [lits, litsMatch, run_empty]
  | cons c cs ih =>
    intro p s caps k
    have hstep : Regex.run ic (.seq (.atom (.lit c)) (lits cs)) ⟨p, s, caps⟩ k =
        if litsMatch ic (c :: cs) s = true then
          k ⟨p + (c :: cs).length, s.drop (c :: cs).length, caps⟩ else none := by
      rw [run_seq]
      cases s with
      | nil => simp [run_atom_nil, litsMatch]
      | cons x xs =>
        rw [run_atom_cons]
        by_cases hx : Atom.test ic x (.lit c) = true
        · rw [if_pos hx, ih]
          simp [litsMatch, hx, Nat.add_assoc, Nat.add_comm 1]
        · rw [if_neg hx]
          simp [litsMatch, hx]
    cases cs with
    | nil =>
      cases s with
      | nil => simp [lits, run_atom_nil, litsMatch]
      | cons x xs =>
        simp only [lits, run_atom_cons, litsMatch, Bool.and_true, List.length_singleton,
          List.drop_succ_cons, List.drop_zero]
    | cons c' cs' => exact hstep

theorem run_str (ic : Bool) (name : String) (p : Nat) (s : JSString)
    (caps : List (Nat × JSString)) (k : Cont) :
    (str name).run ic ⟨p, s, caps⟩ k =
      if litsMatch ic name.toList s = true then
        k ⟨p + name.toList.length, s.drop name.toList.length, caps⟩ else none :=
  run_lits ic name.toList p s caps k

/-- A match of the weekday pattern at the head of `s` is one of the seven
names, compared case-insensitively, and ends right after it. -/
theorem run_days_inv (p : Nat) (s : JSString) (caps : List (Nat × JSString)) (r : MState)
    (h : days.run true ⟨p, s, caps⟩ some = some r) :
    ∃ name ∈ dayNames, litsMatch true name s = true ∧ r.pos = p + name.length := by
  have key : ∀ (name : String), (str name).run true ⟨p, s, caps⟩ some = some r →
      litsMatch true name.toList s = true ∧ r.pos = p + name.toList.length := by
    intro name hn
    rw [run_str] at hn
    by_cases hm : litsMatch true name.toList s = true
    · rw [if_pos hm] at hn
      simp only [Option.some.injEq] at hn
      exact ⟨hm, by rw [← hn]⟩
    · rw [if_neg hm] at hn; simp at hn
  simp only [days, anyOf] at h
  rcases run_alt_inv _ _ _ _ _ _ h with h | h
  · exact ⟨_, by simp [dayNames], key "monday" h⟩
  rcases run_alt_inv _ _ _ _ _ _ h with h | h
  · exact ⟨_, by simp [dayNames], key "tuesday" h⟩
  rcases run_alt_inv _ _ _ _ _ _ h with h | h
  · exact ⟨_, by simp [dayNames], key "wednesday" h⟩
  rcases run_alt_inv _ _ _ _ _ _ h with h | h
  · exact ⟨_, by simp [dayNames], key "thursday" h⟩
  rcases run_alt_inv _ _ _ _ _ _ h with h | h
  · exact ⟨_, by simp [dayNames], key "friday" h⟩
  rcases run_alt_inv _ _ _ _ _ _ h with h | h
  · exact ⟨_, by simp [dayNames], key "saturday" h⟩
  · exact ⟨_, by simp [dayNames], key "sunday" h⟩

theorem run_alt_isSome_left (ic : Bool) (a b : Regex) (st : MState) (k : Cont)
    (h : (a.run ic st k).isSome = true) : (Regex.run ic (.alt a b) st k).isSome = true := by
  simp only [Regex.run]
  cases hx : a.run ic st k with
  | some x => rfl
  | none => rw [hx] at h; simp at h

theorem run_alt_isSome_right (ic : Bool) (a b : Regex) (st : MState) (k : Cont)
    (h : (b.run ic st k).isSome = true) : (Regex.run ic (.alt a b) st k).isSome = true := by
  simp only [Regex.run]
  cases hx : a.run ic st k with
  | some x => rfl
  | none => exact h

/-- Where a weekday name starts the text, the weekday pattern matches. -/
theorem run_days_isSome (p : Nat) (s : JSString) (caps : List (Nat × JSString))
    (name : JSString) (hname : name ∈ dayNames) (hm : litsMatch true name s = true) :
    (days.run true ⟨p, s, caps⟩ some).isSome = true := by
  have key : ∀ (n : String), litsMatch true n.toList s = true →
      ((str n).run true ⟨p, s, caps⟩ some).isSome = true := by
    intro n hn
    rw [run_str, if_pos hn]; rfl
  simp only [dayNames, List.mem_cons, List.mem_singleton, List.not_mem_nil, or_false] at hname
  simp only [days, anyOf]
  rcases hname with h | h | h | h | h | h | h <;> subst h
  · exact run_alt_isSome_left _ _ _ _ _ (key "monday" hm)
  · exact run_alt_isSome_right _ _ _ _ _ (run_alt_isSome_left _ _ _ _ _ (key "tuesday" hm))
  · exact run_alt_isSome_right _ _ _ _ _ (run_alt_isSome_right _ _ _ _ _
      (run_alt_isSome_left _ _ _ _ _ (key "wednesday" hm)))
  · exact run_alt_isSome_right _ _ _ _ _ (run_alt_isSome_right _ _ _ _ _
      (run_alt_isSome_right _ _ _ _ _ (run_alt_isSome_left _ _ _ _ _ (key "thursday" hm))))
  · exact run_alt_isSome_right _ _ _ _ _ (run_alt_isSome_right _ _ _ _ _
      (run_alt_isSome_right _ _ _ _ _ (run_alt_isSome_right _ _ _ _ _
        (run_alt_isSome_left _ _ _ _ _ (key "friday" hm)))))
  · exact run_alt_isSome_right _ _ _ _ _ (run_alt_isSome_right _ _ _ _ _
      (run_alt_isSome_right _ _ _ _ _ (run_alt_isSome_right _ _ _ _ _
        (run_alt_isSome_right _ _ _ _ _ (run_alt_isSome_left _ _ _ _ _ (key "saturday" hm))))))
  · exact run_alt_isSome_right _ _ _ _ _ (run_alt_isSome_right _ _ _ _ _
      (run_alt_isSome_right _ _ _ _ _ (run_alt_isSome_right _ _ _ _ _
        (run_alt_isSome_right _ _ _ _ _ (run_alt_isSome_right _ _ _ _ _ (key "sunday" hm))))))

/-! ### Counting weekday names -/

theorem dayNames_letters : ∀ name ∈ dayNames, ∀ c ∈ name,
    97 ≤ c.toNat ∧ c.toNat ≤ 122 ∧ c.toNat ≠ 107 := by
  decide

theorem dayNames_length_pos : ∀ name ∈ dayNames, 0 < name.length := by
  decide

theorem lit_test_not_ws {x c : Char} (hc : 97 ≤ c.toNat ∧ c.toNat ≤ 122)
    (h : Atom.test true x (.lit c) = true) : isWhiteSpace x = false := by
  simp only [Atom.test, if_true, beq_iff_eq, canonicalize] at h
  simp only [isWhiteSpace, Bool.or_eq_false_iff, beq_eq_false_iff_ne, Bool.and_eq_false_iff,
    decide_eq_false_iff_not]
  split at h <;> omega

/-- The characters matched by a lower-case literal text are not white
space. -/
theorem litsMatch_take_not_ws (l : List Char) (hl : ∀ c ∈ l, 97 ≤ c.toNat ∧ c.toNat ≤ 122) :
    ∀ s, litsMatch true l s = true →
      l.length ≤ s.length ∧ ∀ x ∈ s.take l.length, isWhiteSpace x = false := by
  induction l with
  | nil => intro s _; simp
  | cons c cs ih =>
    intro s h
    cases s with
    | nil => simp [litsMatch] at h
    | cons x xs =>
      simp only [litsMatch, Bool.and_eq_true] at h
      obtain ⟨h1, h2⟩ := ih (fun y hy => hl y (by simp [hy])) xs h.2
      refine ⟨by simpa using h1, ?_⟩
      intro y hy
      simp only [List.length_cons, List.take_succ_cons, List.mem_cons] at hy
      rcases hy with hy | hy
      · subst hy; exact lit_test_not_ws (hl c (by simp)) h.1
      · exact h2 y hy

theorem startsDayWord_head_not_ws {c : Char} {cs : JSString}
    (h : startsDayWord (c :: cs) = true) : isWhiteSpace c = false := by
  simp only [startsDayWord, List.any_eq_true, Bool.and_eq_true] at h
  obtain ⟨name, hname, hm, _⟩ := h
  obtain ⟨_, h2⟩ := litsMatch_take_not_ws name
    (fun x hx => ⟨(dayNames_letters name hname x hx).1, (dayNames_letters name hname x hx).2.1⟩)
    _ hm
  apply h2
  have := dayNames_length_pos name hname
  cases hn : name.length with
  | zero => omega
  | succ n => simp

/-- The weekday pattern with the `g` flag finds at least one match for every
word that is a weekday name. -/
theorem dayWordCount_le_countMatchesFrom (s : JSString) :
    ∀ (skip pos : Nat) (b : Bool), (0 < skip → b = false) →
      (∀ x ∈ s.take skip, isWhiteSpace x = false) →
      dayWordCount b s ≤ countMatchesFrom dayPattern skip pos s := by
  induction s with
  | nil => intro skip pos b _ _; simp [dayWordCount]
  | cons c cs ih =>
    intro skip pos b hb hskip
    cases skip with
    | succ k =>
      have hb' : b = false := hb (by omega)
      subst hb'
      have hc : isWhiteSpace c = false := hskip c (by simp)
      simp only [dayWordCount, Bool.false_and, Bool.false_eq_true, if_false, Nat.zero_add, hc,
        countMatchesFrom]
      exact ih k (pos + 1) false (fun _ => rfl) (fun x hx => hskip x (by simp [hx]))
    | zero =>
      simp only [countMatchesFrom]
      cases hrun : Regex.run dayPattern.ignoreCase dayPattern.re ⟨pos, c :: cs, []⟩ some with
      | some r =>
        obtain ⟨name, hname, hm, hpos⟩ := run_days_inv pos (c :: cs) [] r hrun
        obtain ⟨_, hnw⟩ := litsMatch_take_not_ws name
          (fun x hx => ⟨(dayNames_letters name hname x hx).1,
            (dayNames_letters name hname x hx).2.1⟩) _ hm
        have hlen := dayNames_length_pos name hname
        obtain ⟨n, hn⟩ : ∃ n, name.length = n + 1 := ⟨name.length - 1, by omega⟩
        rw [hn] at hnw
        have hc : isWhiteSpace c = false := hnw c (by simp)
        have hrest : ∀ x ∈ cs.take n, isWhiteSpace x = false :=
          fun x hx => hnw x (by simp [hx])
        have hk : r.pos - pos - 1 = n := by omega
        simp only [dayWordCount, hc, hk]
        have := ih n (pos + 1) false (fun _ => rfl) hrest
        split <;> omega
      | none =>
        have hns : startsDayWord (c :: cs) = false := by
          by_contra hs
          simp only [Bool.not_eq_false, startsDayWord, List.any_eq_true, Bool.and_eq_true] at hs
          obtain ⟨name, hname, hm, _⟩ := hs
          have := run_days_isSome pos (c :: cs) [] name hname hm
          have hrun' : days.run true ⟨pos, c :: cs, []⟩ some = none := hrun
          rw [hrun'] at this
          simp at this
        simp only [dayWordCount, hns, Bool.and_false, Bool.false_eq_true, if_false, Nat.zero_add]
        exact ih 0 (pos + 1) _ (by simp) (by simp)

theorem dayWordCount_le_dayCount (s : JSString) : dayWordCount true s ≤ dayCount s :=
  dayWordCount_le_countMatchesFrom s 0 0 true (by simp) (by simp)

/-! ### Words and weekday names -/

theorem toNat_ofNat_of_lt {n : Nat} (h : n < 0xD800) : (Char.ofNat n).toNat = n := by
  have hv : n.isValidChar := Or.inl h
  simp only [Char.ofNat, hv, dite_true, Char.ofNatAux, Char.toNat]
  rfl

theorem not_ws_of_latin {c : Char} (h : 65 ≤ c.toNat ∧ c.toNat ≤ 0xFF ∧ c.toNat ≠ 0xA0) :
    isWhiteSpace c = false := by
  simp only [isWhiteSpace, Bool.or_eq_false_iff, beq_eq_false_iff_ne, Bool.and_eq_false_iff,
    decide_eq_false_iff_not]
  omega

theorem isWhiteSpace_lowerChar (c : Char) : isWhiteSpace (lowerChar c) = isWhiteSpace c := by
  unfold lowerChar
  split
  · rename_i h
    rw [not_ws_of_latin (c := c) (by omega), not_ws_of_latin (by
      rw [toNat_ofNat_of_lt (show c.toNat + 32 < 0xD800 by omega)]; omega)]
  · split
    · rename_i h
      rw [not_ws_of_latin (c := c) (by omega), not_ws_of_latin (by
        rw [toNat_ofNat_of_lt (show c.toNat + 32 < 0xD800 by omega)]; omega)]
    · split
      · rename_i h
        simp only [isWhiteSpace, h]
        decide
      · split
        · rename_i h
          simp only [isWhiteSpace, h]
          decide
        · rfl

/-- A character whose lower case is a lower-case ASCII letter other than `k`
matches that letter under the `i` flag. -/
theorem lit_test_of_lowerChar {x c : Char} (hc : 97 ≤ c.toNat ∧ c.toNat ≤ 122 ∧ c.toNat ≠ 107)
    (h : lowerChar x = c) : Atom.test true x (.lit c) = true := by
  have hcan : canonicalize x = canonicalize c := by
    unfold lowerChar at h
    unfold canonicalize
    split at h
    · rename_i hx
      have := congrArg Char.toNat h
      rw [toNat_ofNat_of_lt (show x.toNat + 32 < 0xD800 by omega)] at this
      rw [if_neg (by omega), if_pos ⟨hc.1, hc.2.1⟩]; omega
    · split at h
      · rename_i hx
        have := congrArg Char.toNat h
        rw [toNat_ofNat_of_lt (show x.toNat + 32 < 0xD800 by omega)] at this
        omega
      · split at h
        · have := congrArg Char.toNat h
          have hk : ('k' : Char).toNat = 107 := rfl
          omega
        · split at h
          · have := congrArg Char.toNat h
            rw [toNat_ofNat_of_lt (show 0xE5 < 0xD800 by omega)] at this
            omega
          · rw [h]
  simp [Atom.test, hcan]

theorem litsMatch_of_lower (w rest : JSString)
    (hw : ∀ c ∈ w.map lowerChar, 97 ≤ c.toNat ∧ c.toNat ≤ 122 ∧ c.toNat ≠ 107) :
    litsMatch true (w.map lowerChar) (w ++ rest) = true := by
  induction w with
  | nil => simp [litsMatch]
  | cons x xs ih =>
    simp only [List.map_cons, List.cons_append, litsMatch, Bool.and_eq_true]
    exact ⟨lit_test_of_lowerChar (hw _ (by simp)) rfl, ih (fun c hc => hw c (by simp [hc]))⟩

/-- A word whose lower case is a weekday name, followed by the end of a word,
starts a weekday word. -/
theorem startsDayWord_of_lower (w rest : JSString) (hw : toLowerCase w ∈ dayNames)
    (hrest : atWordEnd rest = true) : startsDayWord (w ++ rest) = true := by
  simp only [startsDayWord, List.any_eq_true, Bool.and_eq_true]
  refine ⟨toLowerCase w, hw, ?_, ?_⟩
  · exact litsMatch_of_lower w rest (dayNames_letters _ hw)
  · simp [toLowerCase, hrest]

theorem dayWordCount_true_eq (s : JSString) :
    dayWordCount true s = (if startsDayWord s = true then 1 else 0) + dayWordCount false s := by
  cases s with
  | nil => simp [dayWordCount, startsDayWord, dayNames, litsMatch]
  | cons c cs => simp [dayWordCount]

/-- The weekday names among the words of a text are counted by
`dayWordCount`. -/
theorem countP_split_le (s : JSString) :
    (∀ cur : JSString,
      List.countP (fun w => dayNames.contains w)
          (splitWhiteSpaceAux false (toLowerCase s) (toLowerCase cur)) ≤
        (if startsDayWord (cur.reverse ++ s) = true then 1 else 0) + dayWordCount false s) ∧
    List.countP (fun w => dayNames.contains w) (splitWhiteSpaceAux true (toLowerCase s) []) ≤
      dayWordCount true s := by
  induction s with
  | nil =>
    constructor
    · intro cur
      simp only [toLowerCase, List.map_nil, splitWhiteSpaceAux, List.append_nil, dayWordCount,
        Nat.add_zero]
      by_cases hd : dayNames.contains (List.map lowerChar cur).reverse = true
      · have : startsDayWord (cur.reverse ++ []) = true :=
          startsDayWord_of_lower cur.reverse [] (by
            simpa [toLowerCase, List.map_reverse] using hd) rfl
        simp only [List.append_nil] at this
        simp only [List.countP_cons, List.countP_nil, this, if_true]
        split <;> omega
      · simp only [List.countP_cons, List.countP_nil, hd, Bool.false_eq_true, if_false]
        omega
    · simp [toLowerCase, splitWhiteSpaceAux, dayNames, List.countP_cons]
  | cons c cs ih =>
    obtain ⟨ih1, ih2⟩ := ih
    have hlow : toLowerCase (c :: cs) = lowerChar c :: toLowerCase cs := rfl
    constructor
    · intro cur
      rw [hlow]
      by_cases hc : isWhiteSpace c = true
      · simp only [splitWhiteSpaceAux, isWhiteSpace_lowerChar, hc, if_true, Bool.false_eq_true,
          if_false, dayWordCount, Bool.false_and, Nat.zero_add, List.countP_cons]
        by_cases hd : dayNames.contains (toLowerCase cur).reverse = true
        · have : startsDayWord (cur.reverse ++ c :: cs) = true :=
            startsDayWord_of_lower cur.reverse (c :: cs) (by
              simpa [toLowerCase, List.map_reverse] using hd) hc
          simp only [hd, this, if_true]
          omega
        · simp only [hd, Bool.false_eq_true, if_false]
          split <;> omega
      · have hc' : isWhiteSpace c = false := by simpa using hc
        simp only [splitWhiteSpaceAux, isWhiteSpace_lowerChar, hc', Bool.false_eq_true,
          if_false, dayWordCount, Bool.false_and, Nat.zero_add]
        have := ih1 (c :: cur)
        simpa [toLowerCase] using this
    · rw [hlow]
      by_cases hc : isWhiteSpace c = true
      · simp only [splitWhiteSpaceAux, isWhiteSpace_lowerChar, hc, if_true, dayWordCount]
        omega
      · have hc' : isWhiteSpace c = false := by simpa using hc
        simp only [splitWhiteSpaceAux, isWhiteSpace_lowerChar, hc', Bool.false_eq_true,
          if_false, dayWordCount, Bool.true_and]
        have := ih1 [c]
        simpa [toLowerCase] using this

theorem countP_words_le (s : JSString) :
    List.countP (fun w => dayNames.contains w) (words s) ≤ dayWordCount true s := by
  have := (countP_split_le s).1 []
  rw [dayWordCount_true_eq]
  simpa [words_def, splitWhiteSpace, toLowerCase] using this

/-! ### Weekday words and trimming -/

theorem startsDayWord_false_of_ws {c : Char} {cs : JSString} (hc : isWhiteSpace c = true) :
    startsDayWord (c :: cs) = false := by
  by_contra h
  have := @startsDayWord_head_not_ws c cs (by simpa using h)
  rw [hc] at this; simp at this

theorem dayWordCount_ws (v : JSString) (hv : ∀ c ∈ v, isWhiteSpace c = true) :
    ∀ b, dayWordCount b v = 0 := by
  induction v with
  | nil => intro b; rfl
  | cons c v ih =>
    intro b
    simp only [dayWordCount, startsDayWord_false_of_ws (hv c (by simp)), Bool.and_false,
      Bool.false_eq_true, if_false, Nat.zero_add]
    exact ih (fun x hx => hv x (by simp [hx])) _

theorem dayWordCount_ws_append (u x : JSString) (hu : ∀ c ∈ u, isWhiteSpace c = true) :
    dayWordCount true (u ++ x) = dayWordCount true x := by
  induction u with
  | nil => rfl
  | cons c u ih =>
    simp only [List.cons_append, dayWordCount,
      startsDayWord_false_of_ws (hu c (by simp)), Bool.and_false, Bool.false_eq_true, if_false,
      Nat.zero_add, hu c (by simp)]
    exact ih (fun y hy => hu y (by simp [hy]))

theorem litsMatch_of_append_ws (l : List Char) (hl : ∀ c ∈ l, 97 ≤ c.toNat ∧ c.toNat ≤ 122)
    (v : JSString) (hv : ∀ c ∈ v, isWhiteSpace c = true) :
    ∀ y, litsMatch true l (y ++ v) = true → litsMatch true l y = true := by
  induction l with
  | nil => intro y _; cases y <;> rfl
  | cons c cs ih =>
    intro y h
    cases y with
    | nil =>
      cases v with
      | nil => simp [litsMatch] at h
      | cons x xs =>
        simp only [List.nil_append, litsMatch, Bool.and_eq_true] at h
        have := lit_test_not_ws (hl c (by simp)) h.1
        rw [hv x (by simp)] at this; simp at this
    | cons a y =>
      simp only [List.cons_append, litsMatch, Bool.and_eq_true] at h ⊢
      exact ⟨h.1, ih (fun x hx => hl x (by simp [hx])) y h.2⟩

theorem atWordEnd_of_append_ws (y v : JSString) (h : atWordEnd (y ++ v) = true) :
    atWordEnd y = true := by
  cases y with
  | nil => rfl
  | cons a y => simpa [atWordEnd] using h

theorem startsDayWord_of_append_ws (y v : JSString) (hv : ∀ c ∈ v, isWhiteSpace c = true)
    (h : startsDayWord (y ++ v) = true) : startsDayWord y = true := by
  simp only [startsDayWord, List.any_eq_true, Bool.and_eq_true] at h ⊢
  obtain ⟨name, hname, hm, hend⟩ := h
  have hl : ∀ c ∈ name, 97 ≤ c.toNat ∧ c.toNat ≤ 122 :=
    fun x hx => ⟨(dayNames_letters name hname x hx).1, (dayNames_letters name hname x hx).2.1⟩
  have hm' := litsMatch_of_append_ws name hl v hv y hm
  refine ⟨name, hname, hm', ?_⟩
  have hlen := (litsMatch_take_not_ws name hl y hm').1
  rw [List.drop_append_of_le_length hlen] at hend
  exact atWordEnd_of_append_ws _ _ hend

theorem dayWordCount_append_ws (v : JSString) (hv : ∀ c ∈ v, isWhiteSpace c = true)
    (x : JSString) : ∀ b, dayWordCount b (x ++ v) ≤ dayWordCount b x := by
  induction x with
  | nil => intro b; simp [dayWordCount_ws v hv]
  | cons c x ih =>
    intro b
    show (if (b && startsDayWord (c :: (x ++ v))) = true then 1 else 0) +
        dayWordCount (isWhiteSpace c) (x ++ v) ≤
      (if (b && startsDayWord (c :: x)) = true then 1 else 0) + dayWordCount (isWhiteSpace c) x
    have h2 := ih (isWhiteSpace c)
    by_cases hs : (b && startsDayWord (c :: (x ++ v))) = true
    · have hs' := hs
      simp only [Bool.and_eq_true] at hs'
      have := startsDayWord_of_append_ws (c :: x) v hv hs'.2
      rw [if_pos hs, if_pos (by simp [hs'.1, this])]
      omega
    · rw [if_neg hs]
      omega

/-- The weekday words of a text are weekday words of the trimmed text. -/
theorem dayWordCount_le_trim (s : JSString) :
    dayWordCount true s ≤ dayWordCount true (trim s) := by
  obtain ⟨u, v, hs, hu, hv⟩ := trim_decomp s
  calc dayWordCount true s = dayWordCount true (u ++ (trim s ++ v)) := by rw [← hs]
    _ = dayWordCount true (trim s ++ v) := dayWordCount_ws_append u _ hu
    _ ≤ dayWordCount true (trim s) := dayWordCount_append_ws v hv _ true

set_option maxRecDepth 100000 in
/-- C7 fails as stated: the words of `mon a tue b wed` include three distinct
abbreviated weekday names, and `parseTaskEntry` returns an entry for it. -/
theorem three_abbreviations_not_discarded :
    "mon".toList ∈ words "mon a tue b wed".toList ∧
    "tue".toList ∈ words "mon a tue b wed".toList ∧
    "wed".toList ∈ words "mon a tue b wed".toList ∧
    "mon".toList ∈ dayAbbreviations ∧ "tue".toList ∈ dayAbbreviations ∧
    "wed".toList ∈ dayAbbreviations ∧
    parseTaskEntry "mon a tue b wed".toList =
      some { fullText := "mon a tue b wed".toList
             timeRange := none
             taskName := "mon a tue b wed".toList } := by
  decide

/-- C7, amended. A line whose white-space-separated words, lower-cased,
include at least three distinct weekday names in full is discarded, whatever
else it contains. -/
theorem parseTaskEntry_three_days (line n1 n2 n3 : JSString)
    (h1 : n1 ∈ dayNames) (h2 : n2 ∈ dayNames) (h3 : n3 ∈ dayNames)
    (h12 : n1 ≠ n2) (h13 : n1 ≠ n3) (h23 : n2 ≠ n3)
    (hw1 : n1 ∈ words line) (hw2 : n2 ∈ words line) (hw3 : n3 ∈ words line) :
    parseTaskEntry line = none := by
  have hnodup : [n1, n2, n3].Nodup := by simp [h12, h13, h23]
  have hsub : [n1, n2, n3] ⊆ (words line).filter (fun w => dayNames.contains w) := by
    intro x hx
    simp only [List.mem_cons, List.mem_singleton, List.not_mem_nil, or_false] at hx
    rw [List.mem_filter]
    rcases hx with h | h | h <;> subst h
    · exact ⟨hw1, by simpa using h1⟩
    · exact ⟨hw2, by simpa using h2⟩
    · exact ⟨hw3, by simpa using h3⟩
  have hlen : 3 ≤ List.countP (fun w => dayNames.contains w) (words line) := by
    rw [List.countP_eq_length_filter]
    exact (List.subperm_of_subset hnodup hsub).length_le
  have hcount : 3 ≤ dayCount (trim line) :=
    le_trans hlen (le_trans (countP_words_le line)
      (le_trans (dayWordCount_le_trim line) (dayWordCount_le_dayCount _)))
  have hnoise : isNoise (trim line) = true := by
    simp [isNoise_def, hcount]
  simp [parseTaskEntry_def, hnoise]

set_option maxRecDepth 100000 in
/-- C7 amended, at the line `Time Monday Tuesday Wednesday Thursday Friday`. -/
theorem parseTaskEntry_three_days_witness :
    parseTaskEntry "Time Monday Tuesday Wednesday Thursday Friday".toList = none :=
  parseTaskEntry_three_days "Time Monday Tuesday Wednesday Thursday Friday".toList
    "monday".toList "tuesday".toList "wednesday".toList (by decide) (by decide) (by decide)
    (by decide) (by decide) (by decide) (by decide) (by decide) (by decide)

/-! ### Upper-casing ASCII text -/

theorem asciiUpper_toNat (x : Char) :
    (asciiUpper x).toNat = if 97 ≤ x.toNat ∧ x.toNat ≤ 122 then x.toNat - 32 else x.toNat := by
  unfold asciiUpper
  split
  · rename_i h
    exact toNat_ofNat_of_lt (by omega)
  · rfl

theorem canonicalize_asciiUpper (x : Char) : canonicalize (asciiUpper x) = canonicalize x := by
  simp only [canonicalize, asciiUpper_toNat]
  by_cases h : 97 ≤ x.toNat ∧ x.toNat ≤ 122
  · rw [if_pos h, if_neg (by omega)]
  · rw [if_neg h, if_neg h]

theorem isDigit_asciiUpper (x : Char) : isDigit (asciiUpper x) = isDigit x := by
  rw [Bool.eq_iff_iff]
  simp only [isDigit, Bool.and_eq_true, decide_eq_true_eq, asciiUpper_toNat]
  split <;> omega

theorem isWhiteSpace_asciiUpper (x : Char) : isWhiteSpace (asciiUpper x) = isWhiteSpace x := by
  rw [Bool.eq_iff_iff]
  simp only [isWhiteSpace, Bool.or_eq_true, Bool.and_eq_true, decide_eq_true_eq, beq_iff_eq,
    asciiUpper_toNat]
  split <;> omega

theorem isLineTerminator_asciiUpper (x : Char) :
    isLineTerminator (asciiUpper x) = isLineTerminator x := by
  rw [Bool.eq_iff_iff]
  simp only [isLineTerminator, Bool.or_eq_true, beq_iff_eq, asciiUpper_toNat]
  split <;> omega

theorem lit_test_asciiUpper (ic : Bool) (p x : Char) (hp : (ic || !isAsciiLetter p) = true) :
    (if ic = true then canonicalize (asciiUpper x) == canonicalize p
      else (asciiUpper x).toNat == p.toNat) =
    (if ic = true then canonicalize x == canonicalize p else x.toNat == p.toNat) := by
  cases ic with
  | true => simp [canonicalize_asciiUpper]
  | false =>
    simp only [Bool.false_or, Bool.not_eq_true', isAsciiLetter, Bool.or_eq_false_iff,
      Bool.and_eq_false_iff, decide_eq_false_iff_not] at hp
    simp only [Bool.false_eq_true, if_false]
    rw [Bool.eq_iff_iff]
    simp only [beq_iff_eq, asciiUpper_toNat]
    split <;> omega

theorem classItem_test_asciiUpper (ic : Bool) (it : ClassItem) (h : it.caseBlind ic = true)
    (x : Char) : it.test ic (asciiUpper x) = it.test ic x := by
  cases it with
  | chr p => exact lit_test_asciiUpper ic p x h
  | range lo hi => simp [ClassItem.caseBlind] at h
  | digit => exact isDigit_asciiUpper x
  | space => exact isWhiteSpace_asciiUpper x

/-- A case-blind one-character pattern gives the same answer on a character
and on its ASCII upper case. -/
theorem atom_test_asciiUpper (ic : Bool) (a : Atom) (h : a.caseBlind ic = true) (x : Char) :
    a.test ic (asciiUpper x) = a.test ic x := by
  cases a with
  | lit p => exact lit_test_asciiUpper ic p x h
  | digit => exact isDigit_asciiUpper x
  | space => exact isWhiteSpace_asciiUpper x
  | dot => simp [Atom.test, isLineTerminator_asciiUpper]
  | oneOf items =>
    simp only [Atom.caseBlind, List.all_eq_true] at h
    simp only [Atom.test]
    induction items with
    | nil => rfl
    | cons it items ih =>
      simp only [List.any_cons]
      rw [classItem_test_asciiUpper ic it (h it (by simp)) x,
        ih (fun y hy => h y (by simp [hy]))]

theorem starLoop_upper (g : Bool) (body : MState → Cont → Option MState)
    (hbody : ∀ st k k', (∀ st', k' st'.upper = (k st').map MState.upper) →
      body st.upper k' = (body st k).map MState.upper) :
    ∀ (n : Nat) (st : MState) (k k' : Cont),
      (∀ st', k' st'.upper = (k st').map MState.upper) →
      starLoop g body n st.upper k' = (starLoop g body n st k).map MState.upper := by
  intro n
  induction n with
  | zero => intro st k k' hk; simpa [starLoop] using hk st
  | succ n ih =>
    intro st k k' hk
    have hiter : body st.upper (fun st' => if st.upper.pos < st'.pos then
          starLoop g body n st' k' else none) =
        (body st (fun st' => if st.pos < st'.pos then starLoop g body n st' k
          else none)).map MState.upper := by
      apply hbody
      intro st'
      have hp : st.upper.pos = st.pos := rfl
      have hp' : st'.upper.pos = st'.pos := rfl
      rw [hp, hp']
      by_cases hlt : st.pos < st'.pos
      · simp only [hlt, if_true]; exact ih st' k k' hk
      · simp [hlt]
    cases g with
    | true =>
      simp only [starLoop, if_true]
      rw [hiter]
      cases body st (fun st' => if st.pos < st'.pos then starLoop true body n st' k
          else none) with
      | some x => rfl
      | none => exact hk st
    | false =>
      simp only [starLoop, Bool.false_eq_true, if_false]
      rw [hk st]
      cases k st with
      | some x => rfl
      | none => exact hiter

/-- A case-blind pattern runs on the upper-cased input exactly as on the
input. -/
theorem run_upper (ic : Bool) (re : Regex) (h : re.caseBlind ic = true) :
    ∀ (st : MState) (k k' : Cont),
      (∀ st', k' st'.upper = (k st').map MState.upper) →
      re.run ic st.upper k' = (re.run ic st k).map MState.upper := by
  induction re with
  | empty => intro st k k' hk; exact hk st
  | atom a =>
    intro st k k' hk
    obtain ⟨p, s, caps⟩ := st
    cases s with
    | nil => rfl
    | cons c cs =>
      show Regex.run ic (.atom a) ⟨p, asciiUpper c :: cs.map asciiUpper, _⟩ k' = _
      rw [run_atom_cons, run_atom_cons, atom_test_asciiUpper ic a h c]
      by_cases hc : a.test ic c = true
      · rw [if_pos hc, if_pos hc]; exact hk ⟨p + 1, cs, caps⟩
      · rw [if_neg hc, if_neg hc]; rfl
  | bol =>
    intro st k k' hk
    rw [run_bol, run_bol]
    have hp : st.upper.pos = st.pos := rfl
    rw [hp]
    split
    · exact hk st
    · rfl
  | eol =>
    intro st k k' hk
    obtain ⟨p, s, caps⟩ := st
    cases s with
    | nil => exact hk ⟨p, [], caps⟩
    | cons c cs => rfl
  | seq a b iha ihb =>
    intro st k k' hk
    simp only [Regex.caseBlind, Bool.and_eq_true] at h
    rw [run_seq, run_seq]
    exact iha h.1 st _ _ (fun st' => ihb h.2 st' k k' hk)
  | alt a b iha ihb =>
    intro st k k' hk
    simp only [Regex.caseBlind, Bool.and_eq_true] at h
    simp only [Regex.run]
    rw [iha h.1 st k k' hk]
    cases a.run ic st k with
    | some x => rfl
    | none => exact ihb h.2 st k k' hk
  | star g re ih =>
    intro st k k' hk
    rw [run_star, run_star]
    have hl : st.upper.rest.length = st.rest.length := by simp [MState.upper]
    rw [hl]
    exact starLoop_upper g (re.run ic) (ih h) _ st k k' hk
  | group i re ih =>
    intro st k k' hk
    rw [run_group, run_group]
    apply ih h
    intro st'
    have := hk ⟨st'.pos, st'.rest, (i, st.rest.take (st'.pos - st.pos)) :: st'.caps⟩
    simpa [MState.upper, List.map_take] using this

theorem searchFrom_upper (pt : Pattern) (h : pt.re.caseBlind pt.ignoreCase = true)
    (s : JSString) : ∀ pos, searchFrom pt pos (s.map asciiUpper) =
      (searchFrom pt pos s).map MState.upper := by
  induction s with
  | nil =>
    intro pos
    exact run_upper pt.ignoreCase pt.re h ⟨pos, [], []⟩ some some (fun _ => rfl)
  | cons c cs ih =>
    intro pos
    simp only [List.map_cons, searchFrom]
    have := run_upper pt.ignoreCase pt.re h ⟨pos, c :: cs, []⟩ some some (fun _ => rfl)
    simp only [MState.upper, List.map_cons, List.map_nil] at this
    rw [this]
    cases pt.re.run pt.ignoreCase ⟨pos, c :: cs, []⟩ some with
    | some x => rfl
    | none => exact ih (pos + 1)

theorem test_upper (pt : Pattern) (h : pt.re.caseBlind pt.ignoreCase = true) (s : JSString) :
    pt.test (s.map asciiUpper) = pt.test s := by
  simp only [Pattern.test, Pattern.exec, searchFrom_upper pt h]
  cases searchFrom pt 0 s <;> rfl

theorem countMatchesFrom_upper (pt : Pattern) (h : pt.re.caseBlind pt.ignoreCase = true)
    (s : JSString) : ∀ skip pos, countMatchesFrom pt skip pos (s.map asciiUpper) =
      countMatchesFrom pt skip pos s := by
  induction s with
  | nil =>
    intro skip pos
    rfl
  | cons c cs ih =>
    intro skip pos
    cases skip with
    | succ k => simp only [List.map_cons, countMatchesFrom]; exact ih k (pos + 1)
    | zero =>
      have := run_upper pt.ignoreCase pt.re h ⟨pos, c :: cs, []⟩ some some (fun _ => rfl)
      simp only [MState.upper, List.map_cons, List.map_nil] at this
      simp only [List.map_cons, countMatchesFrom, this]
      cases pt.re.run pt.ignoreCase ⟨pos, c :: cs, []⟩ some with
      | some x =>
        have hx : x.upper.pos = x.pos := rfl
        simp only [Option.map, hx]; rw [ih]
      | none => simp only [Option.map]; rw [ih]

/-! ### The noise decision and letter case -/

theorem unwantedPatterns_caseBlind :
    ∀ pt ∈ unwantedPatterns, pt.re.caseBlind pt.ignoreCase = true := by
  decide

theorem dayPattern_caseBlind : dayPattern.re.caseBlind dayPattern.ignoreCase = true := by
  decide

theorem matchesUnwanted_upper (s : JSString) :
    matchesUnwanted (s.map asciiUpper) = matchesUnwanted s := by
  unfold matchesUnwanted
  have : ∀ l : List Pattern, (∀ pt ∈ l, pt.re.caseBlind pt.ignoreCase = true) →
      l.any (fun pattern => pattern.test (s.map asciiUpper)) =
        l.any (fun pattern => pattern.test s) := by
    intro l
    induction l with
    | nil => intro _; rfl
    | cons pt l ih =>
      intro hl
      simp only [List.any_cons]
      rw [test_upper pt (hl pt (by simp)) s, ih (fun q hq => hl q (by simp [hq]))]
  exact this _ unwantedPatterns_caseBlind

theorem jsLength_upper (s : JSString) : jsLength (s.map asciiUpper) = jsLength s := by
  induction s with
  | nil => rfl
  | cons c cs ih =>
    simp only [List.map_cons, jsLength, ih, asciiUpper_toNat]
    by_cases h : 97 ≤ c.toNat ∧ c.toNat ≤ 122
    · rw [if_pos h, if_pos (by omega), if_pos (by omega)]
    · rw [if_neg h]

theorem lowerChar_asciiUpper (c : Char) : lowerChar (asciiUpper c) = lowerChar c := by
  by_cases h : 97 ≤ c.toNat ∧ c.toNat ≤ 122
  · have hu : (asciiUpper c).toNat = c.toNat - 32 := by rw [asciiUpper_toNat, if_pos h]
    have h1 : lowerChar (asciiUpper c) = Char.ofNat ((asciiUpper c).toNat + 32) := by
      unfold lowerChar
      rw [if_pos (by omega)]
    have h2 : lowerChar c = c := by
      unfold lowerChar
      rw [if_neg (by omega), if_neg (by omega), if_neg (by omega), if_neg (by omega)]
    rw [h1, h2, hu]
    have : c.toNat - 32 + 32 = c.toNat := by omega
    rw [this, Char.ofNat_toNat]
  · unfold asciiUpper
    rw [if_neg h]

theorem toLowerCase_upper (s : JSString) : toLowerCase (s.map asciiUpper) = toLowerCase s := by
  simp only [toLowerCase, List.map_map]
  apply List.map_congr_left
  intro c _
  exact lowerChar_asciiUpper c

theorem dropWhile_map_upper (s : JSString) :
    (s.map asciiUpper).dropWhile isWhiteSpace = (s.dropWhile isWhiteSpace).map asciiUpper := by
  induction s with
  | nil => rfl
  | cons c cs ih =>
    simp only [List.map_cons, List.dropWhile_cons, isWhiteSpace_asciiUpper]
    split
    · exact ih
    · rfl

theorem trim_upper (s : JSString) : trim (s.map asciiUpper) = (trim s).map asciiUpper := by
  unfold trim
  rw [dropWhile_map_upper, ← List.map_reverse, dropWhile_map_upper, List.map_reverse]

/-- On every text, the noise decision is the same for the text and for the
text with its ASCII letters upper-cased. -/
theorem isNoise_upper (s : JSString) : isNoise (s.map asciiUpper) = isNoise s := by
  simp only [isNoise_def, mostlyRepeated_def, uniqueWords_def, words_def, dayCount,
    Pattern.countMatches, matchesUnwanted_upper, jsLength_upper, toLowerCase_upper,
    countMatchesFrom_upper dayPattern dayPattern_caseBlind]

theorem toUpperCase_ascii (s : JSString) (hs : ∀ c ∈ s, c.toNat < 128) :
    toUpperCase s = s.map asciiUpper := by
  induction s with
  | nil => rfl
  | cons c cs ih =>
    have hc := hs c (by simp)
    have hrest := ih (fun x hx => hs x (by simp [hx]))
    unfold toUpperCase at hrest ⊢
    simp only [List.flatMap_cons, List.map_cons, hrest]
    have : upperChar c = [asciiUpper c] := by
      unfold upperChar asciiUpper
      by_cases h : 97 ≤ c.toNat ∧ c.toNat ≤ 122
      · rw [if_pos h, if_pos h]
      · rw [if_neg h, if_neg h, if_neg (by omega), if_neg (by omega), if_neg (by omega),
          if_neg (by omega), if_neg (by omega), if_neg (by omega)]
    rw [this]; rfl

/-! ### The repetition counter is never exhausted early -/

theorem starLoop_cont_congr (g : Bool) (body : MState → Cont → Option MState)
    (hbody : ∀ st k k', (∀ st', st.pos ≤ st'.pos →
        st'.pos + st'.rest.length = st.pos + st.rest.length → k st' = k' st') →
      body st k = body st k') :
    ∀ (n : Nat) (st : MState) (k k' : Cont),
      (∀ st', st.pos ≤ st'.pos → st'.pos + st'.rest.length = st.pos + st.rest.length →
        k st' = k' st') →
      starLoop g body n st k = starLoop g body n st k' := by
  intro n
  induction n with
  | zero => intro st k k' hk; exact hk st (Nat.le_refl _) rfl
  | succ n ih =>
    intro st k k' hk
    have hiter : body st (fun st' => if st.pos < st'.pos then starLoop g body n st' k
          else none) =
        body st (fun st' => if st.pos < st'.pos then starLoop g body n st' k' else none) := by
      apply hbody
      intro st' hle hlen
      by_cases hlt : st.pos < st'.pos
      · simp only [hlt, if_true]
        exact ih st' k k' (fun st'' hle' hlen' => hk st'' (by omega) (by omega))
      · simp [hlt]
    simp only [starLoop]
    rw [hiter, hk st (Nat.le_refl _) rfl]

/-- The result of a pattern depends on its continuation only at states that
lie further on in the same input. -/
theorem run_cont_congr (ic : Bool) (re : Regex) :
    ∀ (st : MState) (k k' : Cont),
      (∀ st', st.pos ≤ st'.pos → st'.pos + st'.rest.length = st.pos + st.rest.length →
        k st' = k' st') →
      re.run ic st k = re.run ic st k' := by
  induction re with
  | empty => intro st k k' hk; exact hk st (Nat.le_refl _) rfl
  | atom a =>
    intro st k k' hk
    obtain ⟨p, s, caps⟩ := st
    cases s with
    | nil => rfl
    | cons c cs =>
      rw [run_atom_cons, run_atom_cons]
      rw [hk ⟨p + 1, cs, caps⟩ (by simp) (by simp; omega)]
  | bol =>
    intro st k k' hk
    rw [run_bol, run_bol, hk st (Nat.le_refl _) rfl]
  | eol =>
    intro st k k' hk
    obtain ⟨p, s, caps⟩ := st
    cases s with
    | nil => exact hk _ (Nat.le_refl _) rfl
    | cons c cs => rfl
  | seq a b iha ihb =>
    intro st k k' hk
    rw [run_seq, run_seq]
    apply iha
    intro st' hle hlen
    apply ihb
    intro st'' hle' hlen'
    exact hk st'' (by omega) (by omega)
  | alt a b iha ihb =>
    intro st k k' hk
    simp only [Regex.run]
    rw [iha st k k' hk, ihb st k k' hk]
  | star g re ih =>
    intro st k k' hk
    rw [run_star, run_star]
    exact starLoop_cont_congr g (re.run ic) ih _ st k k' hk
  | group i re ih =>
    intro st k k' hk
    rw [run_group, run_group]
    apply ih
    intro st' hle hlen
    exact hk _ hle hlen

theorem starLoop_fail (g : Bool) (body : MState → Cont → Option MState)
    (hbody : ∀ st, body st (fun _ => none) = none) :
    ∀ (n : Nat) (st : MState), starLoop g body n st (fun _ => none) = none := by
  intro n
  induction n with
  | zero => intro st; rfl
  | succ n ih =>
    intro st
    have : (fun st' : MState => if st.pos < st'.pos then
        starLoop g body n st' (fun _ => none) else none) = (fun _ => none) := by
      funext st'
      split
      · exact ih st'
      · rfl
    simp only [starLoop, this, hbody]
    cases g <;> rfl

/-- A pattern whose continuation rejects everything fails. -/
theorem run_fail (ic : Bool) (re : Regex) :
    ∀ st : MState, re.run ic st (fun _ => none) = none := by
  induction re with
  | empty => intro st; rfl
  | atom a =>
    intro st
    obtain ⟨p, s, caps⟩ := st
    cases s with
    | nil => rfl
    | cons c cs => rw [run_atom_cons]; split <;> rfl
  | bol => intro st; rw [run_bol]; split <;> rfl
  | eol =>
    intro st
    obtain ⟨p, s, caps⟩ := st
    cases s <;> rfl
  | seq a b iha ihb =>
    intro st
    rw [run_seq]
    have : (fun st' => b.run ic st' (fun _ => none)) = (fun _ => none) := funext ihb
    rw [this]; exact iha st
  | alt a b iha ihb =>
    intro st
    simp only [Regex.run, iha st, ihb st]
  | star g re ih =>
    intro st
    rw [run_star]
    exact starLoop_fail g (re.run ic) ih _ st
  | group i re ih =>
    intro st
    rw [run_group]
    exact ih st

/-- The repetition loop gives the same result with a larger counter: the
counter `st.rest.length` that `Regex.run` starts it with is never exhausted
before the input is. -/
theorem starLoop_fuel (ic g : Bool) (re : Regex) (k : Cont) :
    ∀ (n : Nat) (st : MState), st.rest.length ≤ n →
      starLoop g (re.run ic) (n + 1) st k = starLoop g (re.run ic) n st k := by
  intro n
  induction n with
  | zero =>
    intro st hlen
    have hnone : re.run ic st (fun st' => if st.pos < st'.pos then k st' else none)
        = none := by
      rw [run_cont_congr ic re st _ (fun _ => none)]
      · exact run_fail ic re st
      · intro st' hle hl
        have : ¬ st.pos < st'.pos := by omega
        simp [this]
    simp only [starLoop, hnone]
    cases g
    · simp only [Bool.false_eq_true, if_false]
      cases k st <;> rfl
    · rfl
  | succ n ih =>
    intro st hlen
    have hiter : re.run ic st (fun st' => if st.pos < st'.pos then
          starLoop g (re.run ic) (n + 1) st' k else none) =
        re.run ic st (fun st' => if st.pos < st'.pos then
          starLoop g (re.run ic) n st' k else none) := by
      apply run_cont_congr
      intro st' hle hl
      by_cases hlt : st.pos < st'.pos
      · simp only [hlt, if_true]
        exact ih st' (by omega)
      · simp [hlt]
    rw [starLoop, hiter]
    rfl

/-- Running `r*` with any larger counter than the length of the remaining
input gives the result of `Regex.run`. -/
theorem run_star_fuel (ic g : Bool) (re : Regex) (st : MState) (k : Cont) (m : Nat) :
    starLoop g (re.run ic) (st.rest.length + m) st k = Regex.run ic (.star g re) st k := by
  rw [run_star]
  induction m with
  | zero => rfl
  | succ m ih =>
    rw [← ih]
    exact starLoop_fuel ic g re k (st.rest.length + m) st (by omega)

/-! ### The repetition check -/

theorem mem_setOf (l : List JSString) : ∀ x, x ∈ setOf l ↔ x ∈ l := by
  induction l with
  | nil => intro x; simp [setOf]
  | cons a l ih =>
    intro x
    simp only [setOf, List.mem_cons, List.mem_filter, ih, bne_iff_ne, ne_eq]
    constructor
    · rintro (h | ⟨h, _⟩)
      · exact Or.inl h
      · exact Or.inr h
    · intro h
      by_cases hx : x = a
      · exact Or.inl hx
      · rcases h with h | h
        · exact Or.inl h
        · exact Or.inr ⟨h, hx⟩

theorem nodup_setOf (l : List JSString) : (setOf l).Nodup := by
  induction l with
  | nil => simp [setOf]
  | cons a l ih =>
    simp only [setOf, List.nodup_cons, List.mem_filter, bne_self_eq_false, Bool.false_eq_true,
      and_false, not_false_eq_true, true_and]
    exact ih.filter _

/-- `uniqueWords` has as many elements as there are distinct words. -/
theorem length_setOf (l : List JSString) : (setOf l).length = l.toFinset.card := by
  rw [← List.toFinset_card_of_nodup (nodup_setOf l)]
  congr 1
  ext x
  simp [mem_setOf]

/-- C12. Whatever the `toLowerCase` of the runtime is: a text that, trimmed,
lower-cased and split at white space, has more than 4 words, fewer than half
of them distinct, is discarded. -/
theorem parseTaskEntry_mostly_repeated (lower : JSString → JSString) (text : JSString)
    (hwords : 4 < (splitWhiteSpace (lower (trim text))).length)
    (hdistinct : 2 * (splitWhiteSpace (lower (trim text))).toFinset.card <
      (splitWhiteSpace (lower (trim text))).length) :
    parseTaskEntryWith lower text = none := by
  have hrep : mostlyRepeatedWith lower (trim text) = true := by
    simp only [mostlyRepeatedWith, uniqueWordsWith, wordsWith, length_setOf, Bool.and_eq_true,
      decide_eq_true_eq]
    exact ⟨hwords, hdistinct⟩
  have hnoise : isNoiseWith lower (trim text) = true := by
    simp [isNoiseWith, hrep]
  simp [parseTaskEntryWith, hnoise]

set_option maxRecDepth 100000 in
/-- C12, at the text `RUN 101 RUN 101 RUN 101` (six words, two distinct), with
the tabulated `toLowerCase`, which is exact on ASCII text. -/
theorem parseTaskEntry_mostly_repeated_witness :
    (splitWhiteSpace (toLowerCase (trim "RUN 101 RUN 101 RUN 101".toList))).length = 6 ∧
    (splitWhiteSpace (toLowerCase (trim "RUN 101 RUN 101 RUN 101".toList))).toFinset.card = 2 ∧
    parseTaskEntryWith toLowerCase "RUN 101 RUN 101 RUN 101".toList = none :=
  ⟨by decide, by decide,
   parseTaskEntry_mostly_repeated toLowerCase "RUN 101 RUN 101 RUN 101".toList (by decide)
    (by decide)⟩

/-! ### Where the single-time pattern matches -/

theorem take_length_takeWhile (p : Char → Bool) (l : JSString) :
    l.take (l.takeWhile p).length = l.takeWhile p := by
  induction l with
  | nil => rfl
  | cons a l ih =>
    by_cases ha : p a = true
    · simp [List.takeWhile_cons, ha, ih]
    · simp [List.takeWhile_cons, ha]

/-- Greedy repetition of a one-character pattern before a continuation that
accepts everything takes the longest run of matching characters. -/
theorem starLoop_greedy_atom_total (ic : Bool) (a : Atom) (s : JSString) (n p : Nat)
    (caps : List (Nat × JSString)) (f : MState → MState) (hn : s.length ≤ n) :
    starLoop true (Regex.run ic (.atom a)) n ⟨p, s, caps⟩ (fun st' => some (f st')) =
      some (f ⟨p + (s.takeWhile (fun c => a.test ic c)).length,
        s.dropWhile (fun c => a.test ic c), caps⟩) := by
  have hs := List.takeWhile_append_dropWhile (fun c => a.test ic c) s
  have := starLoop_greedy_atom ic a (s.takeWhile (fun c => a.test ic c)) n p
    (s.dropWhile (fun c => a.test ic c)) caps (fun st' => some (f st')) _
    (fun c hc => List.mem_takeWhile_imp (p := fun c => a.test ic c) hc)
    (by
      have := congrArg List.length hs
      simp only [List.length_append] at this
      omega)
    (fun c hc => head_dropWhile_not _ _ c hc) rfl
  rw [hs] at this
  exact this

/-- A match of `singleTimePattern`, in full: it starts at a time token that
white space follows, and group 2 is the text after that white space up to the
first line terminator or the end of the input. -/
theorem exec_singleTimePattern_shape (s : JSString) (r : MState)
    (h : singleTimePattern.exec s = some r) :
    ∃ pre T w rest post, s = pre ++ (T ++ (w ++ (rest ++ post))) ∧ isTimeToken T = true ∧
      w ≠ [] ∧ (∀ c ∈ w, isWhiteSpace c = true) ∧ rest ≠ [] ∧
      (∀ c ∈ rest, isLineTerminator c = false) ∧
      (∀ c, post.head? = some c → isLineTerminator c = true) ∧
      r.capture 1 = T ∧ r.capture 2 = rest := by
  obtain ⟨pre, suf, hs, hr⟩ := searchFrom_inv _ _ _ _ h
  have hr' : Regex.run false (cat [.group 1 timeToken, wsPlus, .group 2 (plus (.atom .dot))])
      ⟨0 + pre.length, suf, []⟩ some = some r := hr
  simp only [cat, run_seq, run_group, wsPlus, plus, ws] at hr'
  obtain ⟨T, s1, rfl, hT, hr'⟩ := run_timeToken_inv _ _ _ _ _ hr'
  simp only [take_add_sub] at hr'
  obtain ⟨c, s2, rfl, hc, hr'⟩ := run_atom_inv _ _ _ _ _ _ _ hr'
  rw [run_star] at hr'
  obtain ⟨w, s3, rfl, hw, hr'⟩ := starLoop_atom_inv _ _ _ _ _ _ _ _ _ hr'
  obtain ⟨n, s4, rfl, hn, hr'⟩ := run_atom_inv _ _ _ _ _ _ _ hr'
  rw [run_star] at hr'
  have htot := starLoop_greedy_atom_total false .dot s4 s4.length
    (0 + pre.length + T.length + 1 + w.length + 1) [(1, T)]
    (fun st' => ⟨st'.pos, st'.rest,
      (2, List.take (st'.pos - (0 + pre.length + T.length + 1 + w.length)) (n :: s4)) ::
        st'.caps⟩) (Nat.le_refl _)
  rw [htot] at hr'
  simp only [Option.some.injEq] at hr'
  have htake : List.take (0 + pre.length + T.length + 1 + w.length + 1 +
      (s4.takeWhile (fun c => Atom.test false c .dot)).length -
      (0 + pre.length + T.length + 1 + w.length)) (n :: s4) =
      n :: s4.takeWhile (fun c => Atom.test false c .dot) := by
    have hk : 0 + pre.length + T.length + 1 + w.length + 1 +
      (s4.takeWhile (fun c => Atom.test false c .dot)).length -
      (0 + pre.length + T.length + 1 + w.length) =
      (s4.takeWhile (fun c => Atom.test false c .dot)).length + 1 := by omega
    rw [hk, List.take_succ_cons, take_length_takeWhile]
  rw [htake] at hr'
  subst hr'
  refine ⟨pre, T, c :: w, n :: s4.takeWhile (fun c => Atom.test false c .dot),
    s4.dropWhile (fun c => Atom.test false c .dot), ?_, hT, by simp, ?_, by simp, ?_, ?_,
    by simp [MState.capture], by simp [MState.capture]⟩
  · rw [hs]
    simp only [List.cons_append, List.append_assoc, List.takeWhile_append_dropWhile]
  · intro x hx
    rcases List.mem_cons.mp hx with hx | hx
    · subst hx; exact hc
    · exact hw x hx
  · intro x hx
    rcases List.mem_cons.mp hx with hx | hx
    · subst hx; simpa [Atom.test] using hn
    · simpa [Atom.test] using List.mem_takeWhile_imp hx
  · intro x hx
    have := head_dropWhile_not _ _ x hx
    simpa [Atom.test] using this

theorem isTimeToken_length {T : JSString} (hT : isTimeToken T = true) :
    T.length = 4 ∨ T.length = 5 := by
  match T, hT with
  | [_, _, _, _], _ => exact Or.inl rfl
  | [_, _, _, _, _], _ => exact Or.inr rfl

theorem taskOnlyEntry_timeRange {text : JSString} {e : TaskEntry}
    (h : taskOnlyEntry text = some e) : e.timeRange = none := by
  unfold taskOnlyEntry at h
  split at h
  · simp at h
  · simp only at h
    split at h
    · simp only [Option.some.injEq] at h; subst h; rfl
    · simp at h

theorem fallbackEntry_timeRange {text : JSString} {e : TaskEntry}
    (h : fallbackEntry text = some e) : e.timeRange = none := by
  unfold fallbackEntry at h
  split at h
  · split at h
    · simp only [Option.some.injEq] at h; subst h; rfl
    · simp at h
  · simp at h

/-- An entry of the single-time pattern, in full: where the time and the task
name lie in the text. -/
theorem singleTimeEntry_position {text : JSString} {e : TaskEntry}
    (h : singleTimeEntry text = some e) :
    ∃ pre T w rest post, text = pre ++ (T ++ (w ++ (rest ++ post))) ∧ isTimeToken T = true ∧
      w ≠ [] ∧ (∀ c ∈ w, isWhiteSpace c = true) ∧ rest ≠ [] ∧
      (∀ c ∈ rest, isLineTerminator c = false) ∧
      (∀ c, post.head? = some c → isLineTerminator c = true) ∧
      e = { fullText := T ++ " (".toList ++ trim rest ++ ")".toList
            timeRange := some T
            taskName := trim rest } := by
  unfold singleTimeEntry at h
  split at h
  · simp at h
  · rename_i match2 hm
    obtain ⟨pre, T, w, rest, post, hs, hT, hwne, hw, hrne, hrest, hpost, hc1, hc2⟩ :=
      exec_singleTimePattern_shape _ _ hm
    simp only at h
    split at h
    · simp only [Option.some.injEq] at h
      subst h
      rw [hc1, hc2]
      exact ⟨pre, T, w, rest, post, hs, hT, hwne, hw, hrne, hrest, hpost, rfl⟩
    · simp at h

set_option maxRecDepth 100000 in
/-- C11 fails as stated: in `Gym 8:30 class` the time is not at the start and
`Gym` is dropped; in `8:30 Gym`, carriage return, `class` the task name stops
at the carriage return. -/
theorem singleTime_drops_text :
    parseTaskEntry "Gym 8:30 class".toList =
      some { fullText := "8:30 (class)".toList
             timeRange := some "8:30".toList
             taskName := "class".toList } ∧
    isTimeToken "8:30".toList = true ∧
    List.isPrefixOf "8:30".toList (trim "Gym 8:30 class".toList) = false ∧
    parseTaskEntry "8:30 Gym\rclass".toList =
      some { fullText := "8:30 (Gym)".toList
             timeRange := some "8:30".toList
             taskName := "Gym".toList } ∧
    trim ((trim "8:30 Gym\rclass".toList).drop 4) = "Gym\rclass".toList := by
  decide

/-- C11, amended. When `parseTaskEntry` returns an entry whose time range is
a single time token `T`, the trimmed text holds `T` followed by white space,
and the task name is the trimmed text between that white space and the first
line terminator after it (or the end of the text).  What precedes `T` and
what follows the line terminator take no part in the entry. -/
theorem parseTaskEntry_singleTime_position (text : JSString) (e : TaskEntry) (T : JSString)
    (h : parseTaskEntry text = some e) (hrange : e.timeRange = some T)
    (hT : isTimeToken T = true) :
    ∃ pre w rest post, trim text = pre ++ (T ++ (w ++ (rest ++ post))) ∧
      w ≠ [] ∧ (∀ c ∈ w, isWhiteSpace c = true) ∧ rest ≠ [] ∧
      (∀ c ∈ rest, isLineTerminator c = false) ∧
      (∀ c, post.head? = some c → isLineTerminator c = true) ∧
      e.taskName = trim rest ∧
      e.fullText = T ++ " (".toList ++ trim rest ++ ")".toList := by
  obtain ⟨_, h1 | ⟨_, h2⟩ | ⟨_, _, h3⟩ | ⟨_, _, _, h4⟩⟩ := parseTaskEntry_cases h
  · exfalso
    obtain ⟨S, E, hS, hE, _, _, _, he⟩ := timeRangeEntry_shape h1
    rw [he] at hrange
    simp only [Option.some.injEq] at hrange
    have hl := congrArg List.length hrange
    simp only [List.length_append, String.toList] at hl
    have h3 : (" - " : String).data.length = 3 := rfl
    rcases isTimeToken_length hS with a | a <;> rcases isTimeToken_length hE with b | b <;>
      rcases isTimeToken_length hT with c | c <;> omega
  · obtain ⟨pre, T', w, rest, post, hs, _, hwne, hw, hrne, hrest, hpost, he⟩ :=
      singleTimeEntry_position h2
    have hTT : T' = T := by
      rw [he] at hrange
      simpa using hrange
    subst hTT
    refine ⟨pre, w, rest, post, hs, hwne, hw, hrne, hrest, hpost, ?_, ?_⟩
    · rw [he]
    · rw [he]
  · rw [taskOnlyEntry_timeRange h3] at hrange; simp at hrange
  · rw [fallbackEntry_timeRange h4] at hrange; simp at hrange

set_option maxRecDepth 100000 in
/-- C11 amended, at the input `Gym 8:30 class`. -/
theorem parseTaskEntry_singleTime_position_witness :
    ∃ pre w rest post, trim "Gym 8:30 class".toList =
        pre ++ ("8:30".toList ++ (w ++ (rest ++ post))) ∧
      w ≠ [] ∧ (∀ c ∈ w, isWhiteSpace c = true) ∧ rest ≠ [] ∧
      (∀ c ∈ rest, isLineTerminator c = false) ∧
      (∀ c, post.head? = some c → isLineTerminator c = true) ∧
      "class".toList = trim rest ∧
      "8:30 (class)".toList = "8:30".toList ++ " (".toList ++ trim rest ++ ")".toList :=
  parseTaskEntry_singleTime_position "Gym 8:30 class".toList
    { fullText := "8:30 (class)".toList
      timeRange := some "8:30".toList
      taskName := "class".toList } "8:30".toList (by decide) rfl (by decide)

/-! ### Progress figures -/

theorem saveProgress_counts (currentDate : Nat) (tasks : List Task) :
    (saveProgress currentDate tasks).totalCount = tasks.length ∧
      (saveProgress currentDate tasks).completedCount =
        tasks.countP (fun task => task.completed) := by
  simp [saveProgress, List.countP_eq_length_filter]

theorem saveProgress_percentage_nil (currentDate : Nat) :
    (saveProgress currentDate []).percentage = 0 := rfl

theorem updateProgress_eq_saveProgress (currentDate : Nat) (tasks : List Task) :
    (updateProgress tasks).percentage = (saveProgress currentDate tasks).percentage ∧
      (updateProgress tasks).completedTasks = (saveProgress currentDate tasks).completedCount ∧
      (updateProgress tasks).totalTasks = (saveProgress currentDate tasks).totalCount :=
  ⟨rfl, rfl, rfl⟩

set_option maxRecDepth 100000 in
/-- C13. With 40 tasks of which 23 are completed, `saveProgress` and
`updateProgress` give 57 per cent: the double `23 / 40` lies just below
0.575, its product with 100 is the double `8092405580431359 / 2 ^ 47`, just
below 57.5, and `Math.round` takes it to 57.  Rounding `100 * 23 / 40 = 57.5`
with halves up gives 58.  The counts are right. -/
theorem saveProgress_percentage_23_of_40 :
    (saveProgress 0 ((List.range 40).map (fun i =>
        { id := i, text := "task".toList, taskName := "task".toList, timeRange := none,
          completed := decide (i < 23) }))).totalCount = 40 ∧
    (saveProgress 0 ((List.range 40).map (fun i =>
        { id := i, text := "task".toList, taskName := "task".toList, timeRange := none,
          completed := decide (i < 23) }))).completedCount = 23 ∧
    (saveProgress 0 ((List.range 40).map (fun i =>
        { id := i, text := "task".toList, taskName := "task".toList, timeRange := none,
          completed := decide (i < 23) }))).percentage = 57 ∧
    (updateProgress ((List.range 40).map (fun i =>
        { id := i, text := "task".toList, taskName := "task".toList, timeRange := none,
          completed := decide (i < 23) }))).percentage = 57 ∧
    numberDiv 23 40 = ⟨5179139571476070, -53⟩ ∧
    numberMul (numberDiv 23 40) 100 = ⟨8092405580431359, -47⟩ ∧
    2 * 8092405580431359 < 115 * 2 ^ 47 ∧
    roundHalfUp (100 * 23) 40 = 58 := by
  decide

/-! ### Reports -/

theorem foldl_add_eq_sum (f : ReportRow → Nat) (data : List ReportRow) :
    ∀ init, data.foldl (fun sum day => sum + f day) init = init + (data.map f).sum := by
  induction data with
  | nil => intro init; simp
  | cons a l ih => intro init; simp [ih, Nat.add_assoc]

set_option maxRecDepth 100000 in
/-- C14 fails as stated.  First, in the time zone UTC with records stored for
10, 11 and 12 January 2025 (days 20098 to 20100): from 10 January 18:00 to
12 January 09:00 the loop stops at 12 January 18:00, so 12 January, a date of
the window that has a record, gets no row.  Second, in Europe/London with
records for 29, 30 and 31 March 2025 (days 20176 to 20178): from 29 March
00:30 to 31 March 00:30 local time the clocks go forward on 30 March, the
third `Date` of the loop is 30 March 23:30 UTC, and the row of 30 March comes
twice, while 31 March gets none; the average counts the repeated row twice. -/
theorem getReportData_drops_and_repeats :
    getReportData utc
        (fun date =>
          if date = 20098 then some ⟨20098, none, 1, 2, 50⟩
          else if date = 20099 then some ⟨20099, none, 3, 4, 75⟩
          else if date = 20100 then some ⟨20100, none, 5, 5, 100⟩ else none)
        10 (20098 * msPerDay + 18 * 3600000) (20100 * msPerDay + 9 * 3600000) =
      some [⟨20098, 1, 2, 50, []⟩, ⟨20099, 3, 4, 75, []⟩] ∧
    dateString (20100 * msPerDay + 9 * 3600000) = 20100 ∧
    europeLondon2025.offsetAtUTC (20176 * msPerDay + 1800000) = 0 ∧
    europeLondon2025.offsetAtUTC (20177 * msPerDay + 23 * 3600000 + 1800000) = 3600000 ∧
    getReportData europeLondon2025
        (fun date =>
          if date = 20176 then some ⟨20176, none, 2, 5, 40⟩
          else if date = 20177 then some ⟨20177, none, 5, 5, 100⟩
          else if date = 20178 then some ⟨20178, none, 1, 2, 50⟩ else none)
        10 (20176 * msPerDay + 1800000) (20177 * msPerDay + 23 * 3600000 + 1800000) =
      some [⟨20176, 2, 5, 40, []⟩, ⟨20177, 5, 5, 100, []⟩, ⟨20177, 5, 5, 100, []⟩] ∧
    formatReportData [⟨20176, 2, 5, 40, []⟩, ⟨20177, 5, 5, 100, []⟩, ⟨20177, 5, 5, 100, []⟩] =
      some ⟨12, 15, numberDiv 240 3⟩ ∧
    mathRound (numberDiv 240 3) = 80 := by
  decide

theorem setDateNext_of_offset (tz : TimeZone) (t c : Int) (h1 : tz.offsetAtUTC t = c)
    (h2 : tz.offsetAtLocal (t + c + msPerDay) = c) : setDateNext tz t = t + msPerDay := by
  have hnew : ((t + c) / msPerDay + 1) * msPerDay + (t + c) % msPerDay = t + c + msPerDay := by
    unfold msPerDay; omega
  simp only [setDateNext, h1, hnew, h2]
  omega

theorem dateString_add_days (t : Int) (i : Nat) :
    dateString (t + (i : Int) * msPerDay) = dateString t + i := by
  unfold dateString msPerDay
  omega

/-- The rows looked up on `n` consecutive days from the day of `t`. -/
theorem getReportDataLoop_of_offset (tz : TimeZone) (store : Store) (endDate c : Int) :
    ∀ (n fuel : Nat) (t : Int) (data : List ReportRow),
      (∀ u, t ≤ u → u ≤ endDate → tz.offsetAtUTC u = c) →
      (∀ u, t ≤ u → u ≤ endDate → tz.offsetAtLocal (u + c + msPerDay) = c) →
      endDate < t + (n : Int) * msPerDay → (t + (n : Int) * msPerDay ≤ endDate + msPerDay) →
      n < fuel →
      getReportDataLoop tz store endDate fuel t data =
        some (data ++ (List.range n).filterMap
          (fun (i : Nat) => (store (dateString t + (i : Int))).map
            (reportRow (dateString t + (i : Int))))) := by
  intro n
  induction n with
  | zero =>
    intro fuel t data _ _ h1 _ hf
    obtain ⟨f, rfl⟩ : ∃ f, fuel = f + 1 := ⟨fuel - 1, by omega⟩
    have : ¬ t ≤ endDate := by simp at h1; omega
    simp [getReportDataLoop, this]
  | succ n ih =>
    intro fuel t data hutc hloc h1 h2 hf
    obtain ⟨f, rfl⟩ : ∃ f, fuel = f + 1 := ⟨fuel - 1, by omega⟩
    have hm : (0 : Int) < msPerDay := by unfold msPerDay; omega
    have hle : t ≤ endDate := by
      have : (0 : Int) ≤ (n : Int) * msPerDay := Int.mul_nonneg (Int.ofNat_nonneg n) (le_of_lt hm)
      push_cast at h2
      linarith
    have hnext : setDateNext tz t = t + msPerDay :=
      setDateNext_of_offset tz t c (hutc t (le_refl _) hle) (hloc t (le_refl _) hle)
    have hds : dateString (t + msPerDay) = dateString t + 1 := by
      have := dateString_add_days t 1
      simpa using this
    have hrec : ∀ data', getReportDataLoop tz store endDate f (t + msPerDay) data' =
        some (data' ++ (List.range n).filterMap
          (fun (i : Nat) => (store (dateString (t + msPerDay) + (i : Int))).map
            (reportRow (dateString (t + msPerDay) + (i : Int))))) := by
      intro data'
      apply ih f (t + msPerDay) data'
      · intro u hu1 hu2; exact hutc u (by linarith) hu2
      · intro u hu1 hu2; exact hloc u (by linarith) hu2
      · push_cast at h1; linarith
      · push_cast at h2; linarith
      · omega
    have hshift : (List.range n).filterMap
          (fun (i : Nat) => (store (dateString (t + msPerDay) + (i : Int))).map
            (reportRow (dateString (t + msPerDay) + (i : Int)))) =
        (List.range n).filterMap (fun (i : Nat) => (store (dateString t + ((i + 1 : Nat) : Int))).map
            (reportRow (dateString t + ((i + 1 : Nat) : Int)))) := by
      congr 1
      funext i
      rw [hds]
      have : dateString t + 1 + (i : Int) = dateString t + ((i + 1 : Nat) : Int) := by
        push_cast; ring
      rw [this]
    simp only [getReportDataLoop, hle, if_true, hnext]
    rw [List.range_succ_eq_map, List.filterMap_cons, List.filterMap_map]
    cases hs : store (dateString t) with
    | none =>
      simp only [hrec, hshift]
      simp [hs, Function.comp_def]
    | some dayData =>
      simp only [hrec, hshift]
      simp [hs, Function.comp_def]

theorem mem_calendarDates (first last d : Int) :
    d ∈ calendarDates first last ↔ first ≤ d ∧ d ≤ last := by
  simp only [calendarDates, List.mem_map, List.mem_range]
  constructor
  · rintro ⟨i, hi, rfl⟩
    omega
  · rintro ⟨h1, h2⟩
    exact ⟨(d - first).toNat, by omega, by omega⟩

theorem pairwise_calendarDates (first last : Int) :
    (calendarDates first last).Pairwise (· < ·) := by
  unfold calendarDates
  rw [List.pairwise_map]
  exact (List.pairwise_lt_range _).imp (by intro a b h; omega)

theorem mem_reportRowsSpec (store : Store) (first last : Int) (row : ReportRow) :
    row ∈ reportRowsSpec store first last ↔
      ∃ dayData, first ≤ row.date ∧ row.date ≤ last ∧
        store row.date = some dayData ∧ row = reportRow row.date dayData := by
  simp only [reportRowsSpec, List.mem_filterMap, mem_calendarDates, Option.map_eq_some']
  constructor
  · rintro ⟨d, ⟨h1, h2⟩, dayData, hs, rfl⟩
    exact ⟨dayData, h1, h2, hs, rfl⟩
  · rintro ⟨dayData, h1, h2, hs, hrow⟩
    exact ⟨row.date, ⟨h1, h2⟩, dayData, hs, hrow.symm⟩

theorem pairwise_filterMap_date (store : Store) (l : List Int) (hl : l.Pairwise (· < ·)) :
    (l.filterMap (fun date => (store date).map (reportRow date))).Pairwise
      (fun a b => a.date < b.date) := by
  induction l with
  | nil => simp
  | cons d l ih =>
    rw [List.pairwise_cons] at hl
    rw [List.filterMap_cons]
    cases hs : store d with
    | none => simpa using ih hl.2
    | some dayData =>
      simp only [Option.map_some']
      refine List.Pairwise.cons ?_ (ih hl.2)
      intro row hrow
      simp only [List.mem_filterMap, Option.map_eq_some'] at hrow
      obtain ⟨d', hd', _, _, rfl⟩ := hrow
      exact hl.1 d' hd'

theorem length_filterMap_store (store : Store) (l : List Int) :
    (l.filterMap (fun date => (store date).map (reportRow date))).length =
      (l.filter (fun date => (store date).isSome)).length := by
  induction l with
  | nil => rfl
  | cons d l ih =>
    rw [List.filterMap_cons, List.filter_cons]
    cases hs : store d with
    | none => simpa using ih
    | some dayData => simpa using ih

theorem percentage_filterMap_store (store : Store) (l : List Int) :
    (l.filterMap (fun date => (store date).map (reportRow date))).map (fun row => row.percentage) =
      (l.filterMap store).map (fun dayData => dayData.percentage) := by
  induction l with
  | nil => rfl
  | cons d l ih =>
    rw [List.filterMap_cons, List.filterMap_cons]
    cases hs : store d with
    | none => simpa using ih
    | some dayData => simpa [reportRow] using ih

/-- In a window over which the offset of the time zone does not change, the
loop looks up one date after the other, starting at the UTC date of
`startDate`, as many as there are whole days from `startDate` to `endDate`,
plus one. -/
theorem getReportData_of_offset (tz : TimeZone) (store : Store) (startDate endDate c : Int)
    (fuel : Nat) (hle : startDate ≤ endDate)
    (hutc : ∀ t, startDate ≤ t → t ≤ endDate → tz.offsetAtUTC t = c)
    (hloc : ∀ t, startDate ≤ t → t ≤ endDate → tz.offsetAtLocal (t + c + msPerDay) = c)
    (hfuel : (endDate - startDate) / msPerDay + 1 < fuel) :
    getReportData tz store fuel startDate endDate =
      some (reportRowsSpec store (dateString startDate)
        (dateString startDate + (endDate - startDate) / msPerDay)) := by
  have hq : 0 ≤ (endDate - startDate) / msPerDay := by unfold msPerDay; omega
  have hn : (((endDate - startDate) / msPerDay + 1).toNat : Int) =
      (endDate - startDate) / msPerDay + 1 := Int.toNat_of_nonneg (by omega)
  unfold getReportData
  rw [getReportDataLoop_of_offset tz store endDate c
    ((endDate - startDate) / msPerDay + 1).toNat fuel startDate [] hutc hloc
    (by rw [hn]; unfold msPerDay; omega) (by rw [hn]; unfold msPerDay; omega) (by omega)]
  simp only [List.nil_append, reportRowsSpec, calendarDates, List.filterMap_map]
  have : (dateString startDate + (endDate - startDate) / msPerDay + 1 - dateString startDate).toNat
      = ((endDate - startDate) / msPerDay + 1).toNat := by congr 1; omega
  rw [this]
  rfl

/-- C14, amended. In a local time zone whose offset from UTC does not change
from `startDate` to one day after `endDate`, for `startDate ≤ endDate` whose
UTC time of day at `startDate` is not later than at `endDate` (as when both
carry the same clock time), `getReportData` ends and returns the rows of
exactly the UTC calendar dates from that of `startDate` to that of `endDate`
that have a record, one each, in ascending order, with the record's counts
and percentage; `formatReportData` gives the no-data answer when no date of
the window has a record, and otherwise divides the sum of the percentages
stored for the dates of the window by the number of those dates that have a
record. -/
theorem getReportData_rows_and_average (tz : TimeZone) (store : Store)
    (startDate endDate c : Int) (fuel : Nat) (hle : startDate ≤ endDate)
    (htime : startDate % msPerDay ≤ endDate % msPerDay)
    (hutc : ∀ t, startDate ≤ t → t ≤ endDate → tz.offsetAtUTC t = c)
    (hloc : ∀ t, startDate ≤ t → t ≤ endDate → tz.offsetAtLocal (t + c + msPerDay) = c)
    (hfuel : dateString endDate - dateString startDate + 1 < fuel) :
    ∃ rows, getReportData tz store fuel startDate endDate = some rows ∧
      rows = reportRowsSpec store (dateString startDate) (dateString endDate) ∧
      rows.Pairwise (fun a b => a.date < b.date) ∧
      (∀ row, row ∈ rows ↔
        ∃ dayData, dateString startDate ≤ row.date ∧ row.date ≤ dateString endDate ∧
          store row.date = some dayData ∧ row = reportRow row.date dayData) ∧
      (∀ row ∈ rows, ∀ dayData, store row.date = some dayData →
        row.completed = dayData.completedCount ∧ row.total = dayData.totalCount ∧
          row.percentage = dayData.percentage) ∧
      rows.length =
        ((calendarDates (dateString startDate) (dateString endDate)).filter
          (fun date => (store date).isSome)).length ∧
      ((∀ date, dateString startDate ≤ date → date ≤ dateString endDate → store date = none) →
        formatReportData rows = none) ∧
      ((∃ date, dateString startDate ≤ date ∧ date ≤ dateString endDate ∧
          (store date).isSome = true) →
        ∃ summary, formatReportData rows = some summary ∧
          summary.averagePercentage =
            numberDiv
              (((calendarDates (dateString startDate) (dateString endDate)).filterMap store).map
                (fun dayData => dayData.percentage)).sum
              ((calendarDates (dateString startDate) (dateString endDate)).filter
                (fun date => (store date).isSome)).length) := by
  have hlast : dateString startDate + (endDate - startDate) / msPerDay = dateString endDate := by
    unfold dateString msPerDay at *
    omega
  have hrun := getReportData_of_offset tz store startDate endDate c fuel hle hutc hloc
    (by rw [← hlast] at hfuel; omega)
  rw [hlast] at hrun
  have hmem := mem_reportRowsSpec store (dateString startDate) (dateString endDate)
  have hlen : (reportRowsSpec store (dateString startDate) (dateString endDate)).length =
      ((calendarDates (dateString startDate) (dateString endDate)).filter
        (fun date => (store date).isSome)).length := length_filterMap_store store _
  refine ⟨_, hrun, rfl, ?_, hmem, ?_, hlen, ?_, ?_⟩
  · exact pairwise_filterMap_date store _ (pairwise_calendarDates _ _)
  · intro row hrow dayData hs
    obtain ⟨dayData', _, _, hs', hr⟩ := (hmem row).mp hrow
    rw [hs] at hs'
    simp only [Option.some.injEq] at hs'
    subst hs'
    rw [hr]
    exact ⟨rfl, rfl, rfl⟩
  · intro hnone
    have hnil : reportRowsSpec store (dateString startDate) (dateString endDate) = [] := by
      apply List.eq_nil_iff_forall_not_mem.mpr
      intro row hrow
      obtain ⟨dayData, h1, h2, hs, _⟩ := (hmem row).mp hrow
      rw [hnone _ h1 h2] at hs
      simp at hs
    rw [hnil]; rfl
  · rintro ⟨date, h1, h2, hs⟩
    obtain ⟨dayData, hd⟩ := Option.isSome_iff_exists.mp hs
    have hin : reportRow date dayData ∈
        reportRowsSpec store (dateString startDate) (dateString endDate) :=
      (hmem _).mpr ⟨dayData, h1, h2, hd, rfl⟩
    have hne : (reportRowsSpec store (dateString startDate) (dateString endDate)).length ≠ 0 := by
      intro h0
      rw [List.length_eq_zero.mp h0] at hin
      simp at hin
    refine ⟨_, by simp only [formatReportData, hne, if_false]; rfl, ?_⟩
    simp only [foldl_add_eq_sum, Nat.zero_add]
    rw [hlen]
    unfold reportRowsSpec
    rw [percentage_filterMap_store]

set_option maxRecDepth 100000 in
/-- C14 amended, in a zone five and a half hours ahead of UTC, at the weekly
window of 17 January 2025, 09:00 UTC: from 10 January 09:00 to 17 January
09:00, the 8 dates 20098 to 20105, of which 11, 14 and 17 January have
records with 50, 75 and 100 per cent: 3 rows, and the average is
`225 / 3 = 75`. -/
theorem getReportData_rows_and_average_witness :
    getReportData ⟨fun _ => 19800000, fun _ => 19800000⟩
        (fun date =>
          if date = 20099 then some ⟨20099, none, 1, 2, 50⟩
          else if date = 20102 then some ⟨20102, none, 3, 4, 75⟩
          else if date = 20105 then some ⟨20105, none, 5, 5, 100⟩ else none)
        10 (20098 * msPerDay + 9 * 3600000) (20105 * msPerDay + 9 * 3600000) =
      some [⟨20099, 1, 2, 50, []⟩, ⟨20102, 3, 4, 75, []⟩, ⟨20105, 5, 5, 100, []⟩] ∧
    (calendarDates (dateString (20098 * msPerDay + 9 * 3600000))
      (dateString (20105 * msPerDay + 9 * 3600000))).length = 8 ∧
    formatReportData [⟨20099, 1, 2, 50, []⟩, ⟨20102, 3, 4, 75, []⟩, ⟨20105, 5, 5, 100, []⟩] =
      some ⟨9, 11, numberDiv 225 3⟩ ∧
    numberDiv 225 3 = ⟨75 * 2 ^ 46, -46⟩ ∧
    mathRound (numberDiv 225 3) = 75 ∧
    ∃ rows, getReportData ⟨fun _ => 19800000, fun _ => 19800000⟩
        (fun date =>
          if date = 20099 then some ⟨20099, none, 1, 2, 50⟩
          else if date = 20102 then some ⟨20102, none, 3, 4, 75⟩
          else if date = 20105 then some ⟨20105, none, 5, 5, 100⟩ else none)
        10 (20098 * msPerDay + 9 * 3600000) (20105 * msPerDay + 9 * 3600000) = some rows ∧
      rows = reportRowsSpec
        (fun date =>
          if date = 20099 then some ⟨20099, none, 1, 2, 50⟩
          else if date = 20102 then some ⟨20102, none, 3, 4, 75⟩
          else if date = 20105 then some ⟨20105, none, 5, 5, 100⟩ else none)
        (dateString (20098 * msPerDay + 9 * 3600000))
        (dateString (20105 * msPerDay + 9 * 3600000)) ∧
      rows.Pairwise (fun a b => a.date < b.date) :=
  ⟨by decide, by decide, by decide, by decide, by decide,
   (getReportData_rows_and_average ⟨fun _ => 19800000, fun _ => 19800000⟩ _
      (20098 * msPerDay + 9 * 3600000) (20105 * msPerDay + 9 * 3600000) 19800000 10
      (by decide) (by decide) (fun _ _ _ => rfl) (fun _ _ _ => rfl) (by decide)).imp
    (fun _ h => ⟨h.1, h.2.1, h.2.2.1⟩)⟩

/-! ### The noise decision and the case tables of the runtime -/

theorem classItem_narrow_test (ic : Bool) (it : ClassItem) (h : it.narrow = true) (c : Char)
    (ht : it.test ic c = true) : c.toNat < 128 ∨ isWhiteSpace c = true := by
  cases it with
  | chr p =>
    simp only [ClassItem.narrow, decide_eq_true_eq] at h
    simp only [ClassItem.test] at ht
    cases ic with
    | true =>
      simp only [if_true, beq_iff_eq] at ht
      exact Or.inl (canonicalize_lt ht h)
    | false =>
      simp only [Bool.false_eq_true, if_false, beq_iff_eq] at ht
      exact Or.inl (by omega)
  | range lo hi =>
    simp only [ClassItem.narrow, decide_eq_true_eq] at h
    simp only [ClassItem.test, Bool.and_eq_true, decide_eq_true_eq] at ht
    exact Or.inl (by omega)
  | digit =>
    simp only [ClassItem.test, isDigit, Bool.and_eq_true, decide_eq_true_eq] at ht
    exact Or.inl (by omega)
  | space => exact Or.inr ht

theorem atom_narrow_test (ic : Bool) (a : Atom) (h : a.narrow = true) (c : Char)
    (ht : a.test ic c = true) : c.toNat < 128 ∨ isWhiteSpace c = true := by
  cases a with
  | lit p =>
    simp only [Atom.narrow, decide_eq_true_eq] at h
    simp only [Atom.test] at ht
    cases ic with
    | true =>
      simp only [if_true, beq_iff_eq] at ht
      exact Or.inl (canonicalize_lt ht h)
    | false =>
      simp only [Bool.false_eq_true, if_false, beq_iff_eq] at ht
      exact Or.inl (by omega)
  | digit =>
    simp only [Atom.test, isDigit, Bool.and_eq_true, decide_eq_true_eq] at ht
    exact Or.inl (by omega)
  | space => exact Or.inr ht
  | dot => simp [Atom.narrow] at h
  | oneOf items =>
    simp only [Atom.narrow, List.all_eq_true] at h
    simp only [Atom.test, List.any_eq_true] at ht
    obtain ⟨it, hit, htest⟩ := ht
    exact classItem_narrow_test ic it (h it hit) c htest

/-- A character matched by a narrow, case-blind one-character pattern has an
upper case of one character, which the pattern matches too. -/
theorem atom_test_upperTable (U : Char → JSString) (hU : UpperTable U) (ic : Bool) (a : Atom)
    (hcb : a.caseBlind ic = true) (hn : a.narrow = true) (c : Char)
    (ht : a.test ic c = true) : ∃ x, U c = [x] ∧ a.test ic x = true := by
  rcases atom_narrow_test ic a hn c ht with h | h
  · exact ⟨asciiUpper c, hU.ascii c h, by rw [atom_test_asciiUpper ic a hcb]; exact ht⟩
  · exact ⟨c, hU.space c h, ht⟩

theorem run_alt_isSome_inv (ic : Bool) (a b : Regex) (st : MState) (k : Cont)
    (h : (Regex.run ic (.alt a b) st k).isSome = true) :
    (a.run ic st k).isSome = true ∨ (b.run ic st k).isSome = true := by
  obtain ⟨r, hr⟩ := Option.isSome_iff_exists.mp h
  rcases run_alt_inv ic a b st k r hr with h1 | h1
  · exact Or.inl (by rw [h1]; rfl)
  · exact Or.inr (by rw [h1]; rfl)

/-- The repetition loop succeeds on the upper-cased text where it succeeds on
the text, when its body does. -/
theorem starLoop_upperOf (U : Char → JSString) (shift : Nat) (g : Bool)
    (body : MState → Cont → Option MState)
    (hbody : ∀ (st st' : MState) (k k' : Cont), MState.upperOf U shift st st' →
      (∀ s1 s1', MState.upperOf U shift s1 s1' → (k s1).isSome = true → (k' s1').isSome = true) →
      (body st k).isSome = true → (body st' k').isSome = true) :
    ∀ (n : Nat) (st st' : MState) (k k' : Cont), MState.upperOf U shift st st' →
      (∀ s1 s1', MState.upperOf U shift s1 s1' → (k s1).isSome = true → (k' s1').isSome = true) →
      (starLoop g body n st k).isSome = true → (starLoop g body n st' k').isSome = true := by
  intro n
  induction n with
  | zero =>
    intro st st' k k' hst hk h
    exact hk st st' hst h
  | succ n ih =>
    intro st st' k k' hst hk h
    have hcont : ∀ s1 s1', MState.upperOf U shift s1 s1' →
        ((fun s1 => if st.pos < s1.pos then starLoop g body n s1 k else none) s1).isSome = true →
        ((fun s1' => if st'.pos < s1'.pos then starLoop g body n s1' k' else none) s1').isSome
          = true := by
      intro s1 s1' hs1 h1
      simp only at h1 ⊢
      by_cases hp : st.pos < s1.pos
      · rw [if_pos hp] at h1
        have hp' : st'.pos < s1'.pos := by rw [hst.1, hs1.1]; omega
        rw [if_pos hp']
        exact ih s1 s1' k k' hs1 hk h1
      · rw [if_neg hp] at h1
        simp at h1
    cases g with
    | true =>
      simp only [starLoop, if_true] at h ⊢
      split at h
      · rename_i r hb
        have := hbody st st'
          (fun s1 => if st.pos < s1.pos then starLoop true body n s1 k else none)
          (fun s1' => if st'.pos < s1'.pos then starLoop true body n s1' k' else none)
          hst hcont (by rw [hb]; rfl)
        split
        · rfl
        · rename_i hb'
          rw [hb'] at this
          simp at this
      · split
        · rfl
        · exact hk st st' hst h
    | false =>
      simp only [starLoop, Bool.false_eq_true, if_false] at h ⊢
      split at h
      · rename_i r hb
        have := hk st st' hst (by rw [hb]; rfl)
        split
        · rfl
        · rename_i hb'
          rw [hb'] at this
          simp at this
      · split
        · rfl
        · exact hbody st st'
            (fun s1 => if st.pos < s1.pos then starLoop false body n s1 k else none)
            (fun s1' => if st'.pos < s1'.pos then starLoop false body n s1' k' else none)
            hst hcont h

/-- A narrow, case-blind pattern that matches in the text matches at the
corresponding place of the upper-cased text. -/
theorem run_upperOf (U : Char → JSString) (hU : UpperTable U) (shift : Nat) (ic : Bool)
    (re : Regex) (hcb : re.caseBlind ic = true) (hn : re.narrow = true) :
    ∀ (st st' : MState) (k k' : Cont), MState.upperOf U shift st st' →
      (∀ s1 s1', MState.upperOf U shift s1 s1' → (k s1).isSome = true → (k' s1').isSome = true) →
      (re.run ic st k).isSome = true → (re.run ic st' k').isSome = true := by
  induction re with
  | empty =>
    intro st st' k k' hst hk h
    exact hk st st' hst h
  | atom a =>
    intro st st' k k' hst hk h
    obtain ⟨p, rest, caps⟩ := st
    obtain ⟨p', rest', caps'⟩ := st'
    obtain ⟨hpos, hrest, _⟩ := hst
    simp only at hpos hrest
    cases rest with
    | nil => rw [run_atom_nil] at h; simp at h
    | cons c cs =>
      rw [run_atom_cons] at h
      by_cases ht : a.test ic c = true
      · rw [if_pos ht] at h
        obtain ⟨x, hx, hxt⟩ := atom_test_upperTable U hU ic a hcb hn c ht
        have hrest' : rest' = x :: cs.flatMap U := by
          rw [hrest, List.flatMap_cons, hx]; rfl
        subst hrest'
        rw [run_atom_cons, if_pos hxt]
        refine hk _ _ ⟨?_, rfl, ?_⟩ h
        · simp only; omega
        · simp
      · rw [if_neg ht] at h; simp at h
  | bol =>
    intro st st' k k' hst hk h
    rw [run_bol] at h ⊢
    by_cases hp : st.pos = 0
    · rw [if_pos hp] at h
      have hp' : st'.pos = 0 := by rw [hst.1, hp, hst.2.2 hp]
      rw [if_pos hp']
      exact hk st st' hst h
    · rw [if_neg hp] at h; simp at h
  | eol =>
    intro st st' k k' hst hk h
    obtain ⟨p, rest, caps⟩ := st
    obtain ⟨p', rest', caps'⟩ := st'
    have hrest := hst.2.1
    simp only at hrest
    cases rest with
    | nil =>
      rw [run_eol_nil] at h
      have : rest' = [] := by rw [hrest]; rfl
      subst this
      rw [run_eol_nil]
      exact hk _ _ hst h
    | cons c cs => rw [run_eol_cons] at h; simp at h
  | seq a b iha ihb =>
    intro st st' k k' hst hk h
    simp only [Regex.caseBlind, Bool.and_eq_true] at hcb
    simp only [Regex.narrow, Bool.and_eq_true] at hn
    rw [run_seq] at h ⊢
    exact iha hcb.1 hn.1 st st' _ _ hst
      (fun s1 s1' hs1 h1 => ihb hcb.2 hn.2 s1 s1' k k' hs1 hk h1) h
  | alt a b iha ihb =>
    intro st st' k k' hst hk h
    simp only [Regex.caseBlind, Bool.and_eq_true] at hcb
    simp only [Regex.narrow, Bool.and_eq_true] at hn
    rcases run_alt_isSome_inv ic a b st k h with h1 | h1
    · exact run_alt_isSome_left ic a b st' k' (iha hcb.1 hn.1 st st' k k' hst hk h1)
    · exact run_alt_isSome_right ic a b st' k' (ihb hcb.2 hn.2 st st' k k' hst hk h1)
  | star g r ih =>
    intro st st' k k' hst hk h
    simp only [Regex.caseBlind] at hcb
    simp only [Regex.narrow] at hn
    rw [← run_star_fuel ic g r st k st'.rest.length] at h
    rw [← run_star_fuel ic g r st' k' st.rest.length]
    rw [Nat.add_comm st'.rest.length st.rest.length]
    exact starLoop_upperOf U shift g (r.run ic) (ih hcb hn) _ st st' k k' hst hk h
  | group i r ih =>
    intro st st' k k' hst hk h
    simp only [Regex.caseBlind] at hcb
    simp only [Regex.narrow] at hn
    rw [run_group] at h ⊢
    exact ih hcb hn st st'
      (fun s1 => k ⟨s1.pos, s1.rest, (i, st.rest.take (s1.pos - st.pos)) :: s1.caps⟩)
      (fun s1' => k' ⟨s1'.pos, s1'.rest, (i, st'.rest.take (s1'.pos - st'.pos)) :: s1'.caps⟩)
      hst (fun s1 s1' hs1 h1 =>
        hk ⟨s1.pos, s1.rest, (i, st.rest.take (s1.pos - st.pos)) :: s1.caps⟩
          ⟨s1'.pos, s1'.rest, (i, st'.rest.take (s1'.pos - st'.pos)) :: s1'.caps⟩
          ⟨hs1.1, hs1.2.1, hs1.2.2⟩ h1) h

theorem length_le_length_flatMap (U : Char → JSString) (hne : ∀ c, U c ≠ []) (s : JSString) :
    s.length ≤ (s.flatMap U).length := by
  induction s with
  | nil => simp
  | cons c cs ih =>
    have : 0 < (U c).length := List.length_pos.mpr (hne c)
    simp only [List.flatMap_cons, List.length_cons, List.length_append]
    omega

/-- A narrow, case-blind pattern found in a text is found in its upper case. -/
theorem test_upperTable (U : Char → JSString) (hU : UpperTable U) (pt : Pattern)
    (hcb : pt.re.caseBlind pt.ignoreCase = true) (hn : pt.re.narrow = true) (s : JSString)
    (h : pt.test s = true) : pt.test (s.flatMap U) = true := by
  unfold Pattern.test Pattern.exec at h ⊢
  obtain ⟨r, hr⟩ := Option.isSome_iff_exists.mp h
  obtain ⟨pre, suf, hs, hrun⟩ := searchFrom_inv pt s 0 r hr
  subst hs
  rw [List.flatMap_append]
  apply searchFrom_isSome_of_run pt (pre.flatMap U) 0 (suf.flatMap U)
  have hlen := length_le_length_flatMap U hU.nonempty pre
  refine run_upperOf U hU ((pre.flatMap U).length - pre.length) pt.ignoreCase pt.re hcb hn
    ⟨0 + pre.length, suf, []⟩ ⟨0 + (pre.flatMap U).length, suf.flatMap U, []⟩ some some
    ⟨?_, rfl, ?_⟩ (fun _ _ _ _ => rfl) (by rw [hrun]; rfl)
  · simp only; omega
  · intro h0
    have : pre = [] := List.length_eq_zero.mp (by simpa using h0)
    subst this
    rfl

theorem unwantedPatterns_narrow : ∀ pt ∈ unwantedPatterns, pt.re.narrow = true := by
  decide

/-- A text that matches a rejection pattern still matches one, the same one,
after upper-casing. -/
theorem matchesUnwanted_upperTable (U : Char → JSString) (hU : UpperTable U) (s : JSString)
    (h : matchesUnwanted s = true) : matchesUnwanted (s.flatMap U) = true := by
  simp only [matchesUnwanted, List.any_eq_true] at h ⊢
  obtain ⟨pt, hpt, ht⟩ := h
  exact ⟨pt, hpt, test_upperTable U hU pt (unwantedPatterns_caseBlind pt hpt)
    (unwantedPatterns_narrow pt hpt) s ht⟩

theorem dropWhile_flatMap (V : Char → JSString) (hs : ∀ c, isWhiteSpace c = true → V c = [c])
    (hn : ∀ c, isWhiteSpace c = false → ∃ x xs, V c = x :: xs ∧ isWhiteSpace x = false)
    (s : JSString) :
    (s.flatMap V).dropWhile isWhiteSpace = (s.dropWhile isWhiteSpace).flatMap V := by
  induction s with
  | nil => rfl
  | cons c cs ih =>
    by_cases hc : isWhiteSpace c = true
    · rw [List.flatMap_cons, hs c hc, List.dropWhile_cons_of_pos hc]
      rw [List.singleton_append, List.dropWhile_cons_of_pos hc, ih]
    · have hc' : isWhiteSpace c = false := by simpa using hc
      obtain ⟨x, xs, hx, hxw⟩ := hn c hc'
      rw [List.dropWhile_cons_of_neg hc, List.flatMap_cons, hx]
      rw [List.cons_append, List.dropWhile_cons_of_neg (by simp [hxw])]

/-- Trimming and upper-casing can be done in either order. -/
theorem trim_upperTable (U : Char → JSString) (hU : UpperTable U) (s : JSString) :
    trim (s.flatMap U) = (trim s).flatMap U := by
  have h1 := dropWhile_flatMap U hU.space (by
    intro c hc
    cases hx : U c with
    | nil => exact absurd hx (hU.nonempty c)
    | cons x xs => exact ⟨x, xs, rfl, hU.noSpace c hc x (by rw [hx]; simp)⟩)
  have h2 := dropWhile_flatMap (List.reverse ∘ U) (by
    intro c hc
    simp [hU.space c hc]) (by
    intro c hc
    cases hx : (U c).reverse with
    | nil => exact absurd (List.reverse_eq_nil_iff.mp hx) (hU.nonempty c)
    | cons x xs =>
      refine ⟨x, xs, by simp [hx], hU.noSpace c hc x ?_⟩
      have : x ∈ (U c).reverse := by rw [hx]; simp
      simpa using this)
  unfold trim
  rw [h1, List.reverse_flatMap, h2, List.flatMap_reverse]

theorem flatMap_eq_map_asciiUpper (U : Char → JSString) (s : JSString)
    (hs : ∀ c ∈ s, U c = [asciiUpper c]) : s.flatMap U = s.map asciiUpper := by
  induction s with
  | nil => rfl
  | cons c cs ih =>
    rw [List.flatMap_cons, hs c (by simp), ih (fun x hx => hs x (by simp [hx]))]
    rfl

/-- The noise decision does not see the case of ASCII letters, whatever the
`toLowerCase` of the runtime is, as long as that does not see it either. -/
theorem isNoiseWith_upper (lower : JSString → JSString)
    (hlower : ∀ x : JSString, lower (x.map asciiUpper) = lower x) (s : JSString) :
    isNoiseWith lower (s.map asciiUpper) = isNoiseWith lower s := by
  simp only [isNoiseWith, mostlyRepeatedWith, uniqueWordsWith, wordsWith, dayCount,
    Pattern.countMatches, matchesUnwanted_upper, jsLength_upper, hlower,
    countMatchesFrom_upper dayPattern dayPattern_caseBlind]

theorem upperChar_ascii (c : Char) (hc : c.toNat < 128) : upperChar c = [asciiUpper c] := by
  unfold upperChar asciiUpper
  by_cases h : 97 ≤ c.toNat ∧ c.toNat ≤ 122
  · rw [if_pos h, if_pos h]
  · rw [if_neg h, if_neg h, if_neg (by omega), if_neg (by omega), if_neg (by omega),
      if_neg (by omega), if_neg (by omega), if_neg (by omega)]

theorem ws_toNat {c : Char} (h : isWhiteSpace c = true) :
    c.toNat < 97 ∨ c.toNat = 0xA0 ∨ 0x1680 ≤ c.toNat := by
  simp only [isWhiteSpace, Bool.or_eq_true, beq_iff_eq, Bool.and_eq_true,
    decide_eq_true_eq] at h
  omega

theorem not_ws_of_toNat {c : Char}
    (h : (65 ≤ c.toNat ∧ c.toNat ≤ 0x1000 ∧ c.toNat ≠ 0xA0)) : isWhiteSpace c = false := by
  simp only [isWhiteSpace, Bool.or_eq_false_iff, beq_eq_false_iff_ne, Bool.and_eq_false_iff,
    decide_eq_false_iff_not]
  omega

/-- The tabulated `toUpperCase` has the properties asked of the table of the
runtime. -/
theorem upperTable_upperChar : UpperTable upperChar where
  ascii := upperChar_ascii
  space := by
    intro c hc
    have := ws_toNat hc
    unfold upperChar
    rw [if_neg (by omega), if_neg (by omega), if_neg (by omega), if_neg (by omega),
      if_neg (by omega), if_neg (by omega), if_neg (by omega)]
  nonempty := by
    intro c
    unfold upperChar
    split_ifs <;> simp
  noSpace := by
    intro c hc x hx
    unfold upperChar at hx
    split_ifs at hx with h1 h2 h3 h4 h5 h6 h7
    · simp only [List.mem_singleton] at hx
      subst hx
      exact not_ws_of_toNat (by
        rw [toNat_ofNat_of_lt (show c.toNat - 32 < 0xD800 by omega)]; omega)
    · simp only [List.mem_cons, List.mem_singleton, List.not_mem_nil, or_false, or_self] at hx
      subst hx
      decide
    · simp only [List.mem_singleton] at hx
      subst hx
      decide
    · simp only [List.mem_singleton] at hx
      subst hx
      decide
    · simp only [List.mem_singleton] at hx
      subst hx
      exact not_ws_of_toNat (by
        rw [toNat_ofNat_of_lt (show c.toNat - 32 < 0xD800 by omega)]; omega)
    · simp only [List.mem_singleton] at hx
      subst hx
      decide
    · simp only [List.mem_singleton] at hx
      subst hx
      decide
    · simp only [List.mem_singleton] at hx
      subst hx
      exact hc

set_option maxRecDepth 100000 in
/-- C8 fails as stated, in both directions.  `pendıng`, written with a
dotless i (U+0131), is not noise, while its upper case `PENDING` matches
`/^pending$/i`.  `ßab` is noise, being shorter than 4, while its upper case
`SSAB` is not. -/
theorem isNoise_not_case_insensitive :
    toUpperCase ("pend".toList ++ [Char.ofNat 0x131] ++ "ng".toList) = "PENDING".toList ∧
    isNoise (trim ("pend".toList ++ [Char.ofNat 0x131] ++ "ng".toList)) = false ∧
    isNoise (trim (toUpperCase ("pend".toList ++ [Char.ofNat 0x131] ++ "ng".toList))) = true ∧
    matchesUnwanted (toUpperCase ("pend".toList ++ [Char.ofNat 0x131] ++ "ng".toList)) = true ∧
    (parseTaskEntry ("pend".toList ++ [Char.ofNat 0x131] ++ "ng".toList)).isSome = true ∧
    parseTaskEntry (toUpperCase ("pend".toList ++ [Char.ofNat 0x131] ++ "ng".toList)) = none ∧
    toUpperCase ([Char.ofNat 0xDF] ++ "ab".toList) = "SSAB".toList ∧
    isNoise (trim ([Char.ofNat 0xDF] ++ "ab".toList)) = true ∧
    isNoise (trim (toUpperCase ([Char.ofNat 0xDF] ++ "ab".toList))) = false ∧
    parseTaskEntry ([Char.ofNat 0xDF] ++ "ab".toList) = none ∧
    (parseTaskEntry (toUpperCase ([Char.ofNat 0xDF] ++ "ab".toList))).isSome = true := by
  decide

/-- C8, amended. `U` is the table of the `toUpperCase` of the runtime and
`lower` its `toLowerCase`.  Every text that matches a rejection pattern still
matches one after upper-casing, trimmed or not, and so its upper case is
discarded by `parseTaskEntry`.  For every text in which upper-casing changes
nothing but ASCII letters (every ASCII text is one), the noise decision is
the same for the text and for its upper case, trimmed or not, and so is the
answer of the rejection-pattern bank. -/
theorem isNoise_upper_case (lower : JSString → JSString) (U : Char → JSString)
    (hU : UpperTable U) (hlower : ∀ x : JSString, lower (x.map asciiUpper) = lower x)
    (s : JSString) :
    (matchesUnwanted s = true → matchesUnwanted (s.flatMap U) = true) ∧
    (matchesUnwanted (trim s) = true →
      matchesUnwanted (trim (s.flatMap U)) = true ∧
        isNoiseWith lower (trim (s.flatMap U)) = true ∧
        parseTaskEntryWith lower (s.flatMap U) = none) ∧
    ((∀ c ∈ s, U c = [asciiUpper c]) →
      isNoiseWith lower (trim (s.flatMap U)) = isNoiseWith lower (trim s) ∧
        isNoiseWith lower (s.flatMap U) = isNoiseWith lower s ∧
        matchesUnwanted (trim (s.flatMap U)) = matchesUnwanted (trim s) ∧
        matchesUnwanted (s.flatMap U) = matchesUnwanted s) ∧
    ((∀ c ∈ s, c.toNat < 128) → ∀ c ∈ s, U c = [asciiUpper c]) := by
  refine ⟨matchesUnwanted_upperTable U hU s, ?_, ?_, fun hs c hc => hU.ascii c (hs c hc)⟩
  · intro h
    have hm : matchesUnwanted (trim (s.flatMap U)) = true := by
      rw [trim_upperTable U hU]
      exact matchesUnwanted_upperTable U hU _ h
    have hnoise : isNoiseWith lower (trim (s.flatMap U)) = true := by
      simp [isNoiseWith, hm]
    exact ⟨hm, hnoise, by simp [parseTaskEntryWith, hnoise]⟩
  · intro hs
    rw [flatMap_eq_map_asciiUpper U s hs, trim_upper]
    exact ⟨isNoiseWith_upper lower hlower _, isNoiseWith_upper lower hlower _,
      matchesUnwanted_upper _, matchesUnwanted_upper _⟩

set_option maxRecDepth 100000 in
/-- C8 amended, with the tabulated case conversions: `weekly schedule für ß`
matches `/weekly\s+schedule/i` and so does its upper case
`WEEKLY SCHEDULE FÜR SS`, which `parseTaskEntry` discards; and the ASCII text
`Weekly Schedule` is noise just as its upper case is. -/
theorem isNoise_upper_case_witness :
    UpperTable upperChar ∧
    (∀ x : JSString, toLowerCase (x.map asciiUpper) = toLowerCase x) ∧
    matchesUnwanted (trim "weekly schedule für ß".toList) = true ∧
    toUpperCase "weekly schedule für ß".toList = "WEEKLY SCHEDULE FÜR SS".toList ∧
    (matchesUnwanted (trim (toUpperCase "weekly schedule für ß".toList)) = true ∧
      isNoiseWith toLowerCase (trim (toUpperCase "weekly schedule für ß".toList)) = true ∧
      parseTaskEntryWith toLowerCase (toUpperCase "weekly schedule für ß".toList) = none) ∧
    (∀ c ∈ "Weekly Schedule".toList, c.toNat < 128) ∧
    isNoiseWith toLowerCase (trim "Weekly Schedule".toList) = true ∧
    (isNoiseWith toLowerCase (trim (toUpperCase "Weekly Schedule".toList)) =
        isNoiseWith toLowerCase (trim "Weekly Schedule".toList) ∧
      isNoiseWith toLowerCase (toUpperCase "Weekly Schedule".toList) =
        isNoiseWith toLowerCase "Weekly Schedule".toList ∧
      matchesUnwanted (trim (toUpperCase "Weekly Schedule".toList)) =
        matchesUnwanted (trim "Weekly Schedule".toList) ∧
      matchesUnwanted (toUpperCase "Weekly Schedule".toList) =
        matchesUnwanted "Weekly Schedule".toList) :=
  ⟨upperTable_upperChar, toLowerCase_upper, by decide, by decide,
   (isNoise_upper_case toLowerCase upperChar upperTable_upperChar toLowerCase_upper
      "weekly schedule für ß".toList).2.1 (by decide),
   by decide, by decide,
   (isNoise_upper_case toLowerCase upperChar upperTable_upperChar toLowerCase_upper
      "Weekly Schedule".toList).2.2.1
    ((isNoise_upper_case toLowerCase upperChar upperTable_upperChar toLowerCase_upper
      "Weekly Schedule".toList).2.2.2 (by decide))⟩

end ProgressTracker
